import Mathlib

/-!
Verification development for the ModAndroid patch/merge tool
(`Android_Tool/modules/ModAndroid/ModAndroid.pyw`).

The Python source is shallowly embedded:
* text is `List Char`;
* the regex-based pattern rules (`patch_system_app_ops_helper`,
  `patch_mock_location_provider`, `ensure_edify_stat_lines`) are embedded as
  executable deterministic matchers that implement the semantics of the
  concrete regular expressions appearing in the source (leftmost match,
  lazy/greedy quantifier behaviour as realised on those patterns);
* filesystem effects are embedded as transformations of an association-list
  filesystem, and thread control flow (`GpsPatcherThread.run`,
  `PermissionThread.run`, `update_updater_script`) as pure functions over an
  environment recording the outcome of each external step (tool presence,
  subprocess success, write success, the cooperative cancel flag).
-/

namespace ModAndroid

/-- Convert a string literal to the `List Char` text representation. -/
def sl (s : String) : List Char := s.data

/-! ## Abstract filesystem (association list path ↦ contents) -/

/-- A filesystem: finite map from paths to file contents. -/
def FS := List (String × String)

/-- Look up a path. -/
def fsGet (fs : FS) (p : String) : Option String :=
  match fs with
  | [] => none
  | (q, v) :: rest => if q = p then some v else fsGet rest p

/-- Remove a path. -/
def fsErase (fs : FS) (p : String) : FS :=
  match fs with
  | [] => []
  | (q, v) :: rest => if q = p then fsErase rest p else (q, v) :: fsErase rest p

/-- Create or overwrite a path. -/
def fsSet (fs : FS) (p : String) (v : String) : FS :=
  (p, v) :: fsErase fs p

/-! ## GpsPatcherThread.run : pipeline controller state machine

`GpsPatcherThread.run` sequences: dependency check (baksmali/smali jars),
cancel checkpoint, temp dir creation, dex listing, cancel checkpoint,
parallel baksmali decompilation, cancel checkpoint, debug-line removal,
cancel checkpoint, the two patch rules, cancel checkpoint, the
rule-application criterion (`if not patched1 and not patched2: fail`),
parallel smali recompilation, cancel checkpoint, and the conditional saving
logic (overwrite original via a `.tmp` file + `shutil.move`, or direct write
into the side output directory).  The `finally:` block always removes the
temp dir once it was created.

The cooperative cancel flag `_cancel_requested` is set once and never
cleared, so the checkpoints (numbered 0..5 in source order: lines 467, 482,
497, 506, 514, 544) observe it monotonically: we model it by the index of
the first checkpoint at which the flag is seen. -/

/-- Reason recorded with a failed terminal result of the patch pipeline. -/
inductive FailReason where
  | missingJars      -- required baksmali.jar / smali.jar absent
  | invalidJar       -- no classes*.dex member found
  | decompileFailed  -- a baksmali task failed
  | rulesNotApplied  -- "Không thể áp dụng bản vá": both rules matched nothing
  | recompileFailed  -- a smali task failed (both attempts)
  | writeFailed      -- exception while writing the output archive
  deriving DecidableEq, Repr

/-- Terminal result of a pipeline run: `patch_finished` with a success flag,
or the `cancelled` signal (emitted by `_check_cancel`, after which `run`
returns without emitting `patch_finished`). -/
inductive RunResult where
  | finished (success : Bool) (reason : Option FailReason)
  | cancelledRes
  deriving DecidableEq, Repr

/-- Environment of one pipeline run: the outcome of every external step. -/
structure RunEnv where
  /-- both `baksmali.jar` and `smali.jar` exist -/
  jarsPresent : Bool
  /-- index of the first cancel checkpoint at which `_cancel_requested`
      is observed true (checkpoints 0..5 in source order); a value ≥ 6
      means the flag is never observed during the run -/
  cancelFrom : Nat
  /-- the input archive contains at least one `classes*.dex` member -/
  dexFound : Bool
  /-- all parallel baksmali decompile tasks succeed -/
  decompileOk : Bool
  /-- result of `patch_system_app_ops_helper` (Rule A applied) -/
  appOpsApplied : Bool
  /-- result of `patch_mock_location_provider` (Rule B applied) -/
  mockApplied : Bool
  /-- all parallel smali recompile tasks succeed (incl. API fallback) -/
  recompileOk : Bool
  /-- overwrite-original mode (`overwrite_original`) vs side-output mode -/
  overwrite : Bool
  /-- the output archive write raises no exception -/
  writeOk : Bool

/-- Outcome of a modelled pipeline run. -/
structure RunOutcome where
  result : RunResult
  /-- the destination path (original file in overwrite mode, side-output
      file otherwise) received a write: in overwrite mode only the final
      `shutil.move` touches it, in side-output mode opening
      `zipfile.ZipFile(output_path, 'w')` already does -/
  destTouched : Bool
  /-- the temp working directory was created -/
  tempCreated : Bool
  /-- the temp working directory was removed (the `finally:` block) -/
  tempRemoved : Bool
  /-- control reached the recompilation stage -/
  reachedRecompile : Bool
  deriving DecidableEq, Repr

/-- Cancel flag as observed at checkpoint `i`. -/
def cancelSeen (env : RunEnv) (i : Nat) : Bool := decide (env.cancelFrom ≤ i)

/-- Model of `GpsPatcherThread.run` (ModAndroid.pyw lines 455–645). -/
def gpsPatcherRun (env : RunEnv) : RunOutcome :=
  if ¬ env.jarsPresent then
    ⟨.finished false (some .missingJars), false, false, false, false⟩
  else if cancelSeen env 0 then
    ⟨.cancelledRes, false, false, false, false⟩
  else
    -- temp dir created; every later exit passes through `finally: rmtree`
    if ¬ env.dexFound then
      ⟨.finished false (some .invalidJar), false, true, true, false⟩
    else if cancelSeen env 1 then
      ⟨.cancelledRes, false, true, true, false⟩
    else if ¬ env.decompileOk then
      ⟨.finished false (some .decompileFailed), false, true, true, false⟩
    else if cancelSeen env 2 then
      ⟨.cancelledRes, false, true, true, false⟩
    else if cancelSeen env 3 then
      -- checkpoint after remove_debug_lines, before the patch rules
      ⟨.cancelledRes, false, true, true, false⟩
    else if cancelSeen env 4 then
      -- checkpoint after both patch rules, before the rule criterion
      ⟨.cancelledRes, false, true, true, false⟩
    else if ¬ env.appOpsApplied ∧ ¬ env.mockApplied then
      ⟨.finished false (some .rulesNotApplied), false, true, true, false⟩
    else if ¬ env.recompileOk then
      ⟨.finished false (some .recompileFailed), false, true, true, true⟩
    else if cancelSeen env 5 then
      ⟨.cancelledRes, false, true, true, true⟩
    else if env.writeOk then
      ⟨.finished true none, true, true, true, true⟩
    else
      -- overwrite mode fails before `shutil.move` touches the original;
      -- side-output mode has already opened the destination for writing
      ⟨.finished false (some .writeFailed), ¬ env.overwrite, true, true, true⟩

/-! ## The saving step of `GpsPatcherThread.run` over the abstract filesystem

Overwrite mode (lines 554–596): write the rewritten archive to
`input_file + ".tmp"`, `shutil.move` it onto the original on success, and
on any exception `os.remove` the temp file, leaving the original untouched.

Side-output mode (lines 597–638): open `zipfile.ZipFile(output_path, 'w')`
directly on the destination (creating/truncating it) and write into it; on
an exception nothing is cleaned up. -/

/-- Result of a save attempt. -/
inductive SaveResult where
  | saved
  | saveError
  deriving DecidableEq, Repr

/-- Overwrite-original saving (lines 554–596).  `zipData` is the content of
the fully-written archive, `partialData` whatever content the interrupted
write left behind when `writeOk` is false. -/
def overwriteSave (fs : FS) (inputFile : String) (zipData partialData : String)
    (writeOk : Bool) : FS × SaveResult :=
  let tmp := inputFile ++ ".tmp"
  -- `zipfile.ZipFile(temp_zip_path, 'w')` creates/truncates the temp file
  let fs1 := fsSet fs tmp ""
  if writeOk then
    let fs2 := fsSet fs1 tmp zipData
    -- `shutil.move(temp_zip_path, output_path)`
    (fsSet (fsErase fs2 tmp) inputFile zipData, .saved)
  else
    -- exception: `if os.path.exists(temp_zip_path): os.remove(temp_zip_path)`
    (fsErase (fsSet fs1 tmp partialData) tmp, .saveError)

/-- Side-output saving (lines 597–638).  The destination is opened with
mode `'w'` immediately; on an exception no cleanup happens. -/
def sideOutputSave (fs : FS) (outputPath : String) (zipData partialData : String)
    (writeOk : Bool) : FS × SaveResult :=
  -- `zipfile.ZipFile(output_path, 'w')` creates/truncates the destination
  let fs1 := fsSet fs outputPath ""
  if writeOk then
    (fsSet fs1 outputPath zipData, .saved)
  else
    (fsSet fs1 outputPath partialData, .saveError)

/-! ## Basic text utilities (Python string/regex semantics on `List Char`) -/

/-- Python `\s` (and `str.strip`) whitespace, ASCII range. -/
def isPyWs (c : Char) : Bool :=
  c == ' ' || c == '\t' || c == '\n' || c == '\r' || c == '\x0b' || c == '\x0c'

/-- Consume the literal `pat` from the front of `s`; return the rest. -/
def dropLit : List Char → List Char → Option (List Char)
  | [], s => some s
  | _ :: _, [] => none
  | p :: ps, c :: cs => if p == c then dropLit ps cs else none

/-- `s` starts with `pat`. -/
def startsWithL (pat s : List Char) : Bool := (dropLit pat s).isSome

/-- `pat` occurs somewhere in `s` (regex `re.search` of an escaped literal). -/
def hasSubstrL (pat : List Char) : List Char → Bool
  | [] => startsWithL pat []
  | c :: t => startsWithL pat (c :: t) || hasSubstrL pat t

/-- Number of (possibly overlapping) occurrence positions of `pat` in `s`. -/
def countOcc (pat : List Char) : List Char → Nat
  | [] => if startsWithL pat [] then 1 else 0
  | c :: t => (if startsWithL pat (c :: t) then 1 else 0) + countOcc pat t

/-- Rest of `s` after the first occurrence of `pat` (none if absent).
Implements a lazy `.*?pat` scan. -/
def dropThroughFirst (pat : List Char) : List Char → Option (List Char)
  | [] => dropLit pat []
  | c :: t =>
    match dropLit pat (c :: t) with
    | some r => some r
    | none => dropThroughFirst pat t

/-- Index just past the first occurrence of `pat` in `s` (`match.end()`). -/
def firstEndIdx (pat : List Char) : List Char → Option Nat
  | [] => if startsWithL pat [] then some 0 else none
  | c :: t =>
    if startsWithL pat (c :: t) then some pat.length
    else match firstEndIdx pat t with
         | some i => some (i + 1)
         | none => none

/-- Python `str.lstrip()`. -/
def lstripL (s : List Char) : List Char := s.dropWhile isPyWs

/-- Python `str.rstrip()`. -/
def rstripL (s : List Char) : List Char := (s.reverse.dropWhile isPyWs).reverse

/-- Python `str.strip()`. -/
def stripL (s : List Char) : List Char := rstripL (lstripL s)

/-- Split text into its lines at each `'\n'` (`n` newlines give `n+1` lines;
no line contains `'\n'`). -/
def splitNl : List Char → List (List Char)
  | [] => [[]]
  | c :: t =>
    if c == '\n' then [] :: splitNl t
    else
      match splitNl t with
      | [] => [[c]]
      | l :: ls => (c :: l) :: ls

/-- Join lines with `'\n'` (`"\n".join`); inverse of `splitNl`. -/
def joinNl : List (List Char) → List Char
  | [] => []
  | [l] => l
  | l :: l2 :: ls => l ++ '\n' :: joinNl (l2 :: ls)

/-! ## Script Merge Engine: `ensure_edify_stat_lines` (lines 137–202)

The engine works over text; we embed it on `List Char`.

Step 1 (lines 148–160): for each requested entry, `re.subn` with the
MULTILINE pattern `^\s*set_metadata(?:_recursive)?\("PATH"\s*,.*?\);\s*$`
and replacement `""`.  Because `.*?` cannot cross a newline and the pattern
is anchored with `^`/`$`, a match exists exactly at each line of the form
`ws* set_metadata[_recursive]( ws* "PATH" ws* , ... ); ws*`, and replacing
all matches with the empty string erases exactly the content of those lines
(the anchors keep the surrounding newlines; the `^\s*`/`\s*$` fringes can
additionally absorb adjacent whitespace-only lines, a difference in
whitespace only, normalised by the blank-line collapse of step 2).  We
embed it as the per-line transformation with the match count being the
number of matching lines. -/

/-- One line matches the removal pattern
`^\s*set_metadata(?:_recursive)?\(\s*"PATH"\s*,.*?\);\s*$` for `PATH`
(the line is newline-free by construction).  `closeWsTail` implements the
lazy `.*?\);` followed by `\s*$`: some occurrence of `");"` with a
whitespace-only tail. -/
def closeWsTail : List Char → Bool
  | [] => false
  | [_] => false
  | a :: b :: t => (a == ')' && b == ';' && t.all isPyWs) || closeWsTail (b :: t)

/-- Decide whether `line` is a managed-directive line for `path`. -/
def dirLineMatches (path : List Char) (line : List Char) : Bool :=
  let r0 := line.dropWhile isPyWs
  match dropLit (sl "set_metadata") r0 with
  | none => false
  | some r1 =>
    let r2opt :=
      match dropLit (sl "_recursive(") r1 with
      | some r => some r
      | none => dropLit (sl "(") r1
    match r2opt with
    | none => false
    | some r2 =>
      match dropLit (sl "\"") (r2.dropWhile isPyWs) with
      | none => false
      | some r3 =>
        match dropLit (path ++ sl "\"") r3 with
        | none => false
        | some r4 =>
          match dropLit (sl ",") (r4.dropWhile isPyWs) with
          | none => false
          | some r5 => closeWsTail r5

/-- `re.subn(pattern(path), "", text, flags=re.MULTILINE)`: blank out every
matching line, count the matches. -/
def removeDirLines (path : List Char) (text : List Char) : List Char × Nat :=
  let ls := splitNl text
  (joinNl (ls.map fun l => if dirLineMatches path l then [] else l),
   (ls.filter fun l => dirLineMatches path l).length)

/-! Step 2 (line 163): `re.sub(r'\n\s*\n', '\n', text)` — collapse blank
runs.  The greedy `\s*` backtracks to the last `'\n'` of the maximal
whitespace run, and scanning resumes after the match. -/

/-- Index of the last `'\n'` inside the maximal leading whitespace run. -/
def wsLastNl : List Char → Option Nat
  | [] => none
  | c :: t =>
    if isPyWs c then
      match wsLastNl t with
      | some k => some (k + 1)
      | none => if c == '\n' then some 0 else none
    else none

/-- Scanner for `re.sub(r'\n\s*\n', '\n', ·)`, with fuel (one unit per
emitted character; `fuel = length` suffices). -/
def collapseGo : Nat → List Char → List Char
  | 0, s => s
  | _ + 1, [] => []
  | fuel + 1, c :: t =>
    if c == '\n' then
      match wsLastNl t with
      | some k => '\n' :: collapseGo fuel (t.drop (k + 1))
      | none => c :: collapseGo fuel t
    else c :: collapseGo fuel t

/-- `re.sub(r'\n\s*\n', '\n', text)`. -/
def collapseBlanks (text : List Char) : List Char := collapseGo text.length text

/-! Steps 3–4 (lines 165–191): the insertion-point computation and the
`new_content` built from it.  `new_content` is discarded by the source
(lines 193–200 rebuild `final_text` from `current_text` instead), but we
embed it faithfully. -/

/-- First recognised system-mount directive (literal, `re.escape`d). -/
def mountPoint1 : List Char :=
  sl "mount(\"ext4\", \"EMMC\", \"/dev/block/bootdevice/by-name/system\", \"/system\");"

/-- Second recognised system-mount directive. -/
def mountPoint2 : List Char :=
  sl "run_program(\"/system/bin/mount\", \"/system\");"

/-- `insertion_point`: end index of the first mount directive found, if any. -/
def insertionPointIn (t : List Char) : Option Nat :=
  match firstEndIdx mountPoint1 t with
  | some i => some i
  | none => firstEndIdx mountPoint2 t

/-- Start marker of the managed block. -/
def startMarker : List Char := sl "# === Tool: auto-permission ==="

/-- End marker of the managed block. -/
def endMarker : List Char := sl "# === End Tool Block ==="

/-- The `new_content` of lines 179–191 (dead code: discarded at line 196). -/
def deadNewContent (current : List Char) (newLines : List Char) : List Char :=
  match insertionPointIn current with
  | some i =>
    current.take i ++ sl "\n\n# === Tool: auto-permission ===\n" ++ newLines ++
      sl "\n# === End Tool Block ===\n" ++ current.drop i
  | none =>
    stripL current ++ sl "\n\n# === Tool: auto-permission ===\n" ++ newLines ++
      sl "\n# === End Tool Block ===\n"

/-! Step 5 (lines 193–200): remove every old managed block
(`re.sub` with the DOTALL pattern
`\n*# === Tool: auto-permission ===.*?# === End Tool Block ===\n*`)
from the stripped text, then append one fresh block. -/

/-- Try the block pattern anchored at the current position: a maximal run of
newlines, the start marker, a lazy `.*?` (DOTALL) up to the first end
marker, then a maximal run of trailing newlines.  Returns the rest. -/
def tryBlockAt (s : List Char) : Option (List Char) :=
  let r := s.dropWhile (fun c => c == '\n')
  match dropLit startMarker r with
  | none => none
  | some r2 =>
    match dropThroughFirst endMarker r2 with
    | none => none
    | some r3 => some (r3.dropWhile (fun c => c == '\n'))

/-- Scanner for the block-removal `re.sub` (fuel as in `collapseGo`). -/
def blockRemoveGo : Nat → List Char → List Char
  | 0, s => s
  | _ + 1, [] => []
  | fuel + 1, c :: t =>
    match tryBlockAt (c :: t) with
    | some rest => blockRemoveGo fuel rest
    | none => c :: blockRemoveGo fuel t

/-- `block_pattern.sub('', text)`. -/
def blockRemoveAll (text : List Char) : List Char :=
  blockRemoveGo (text.length + 1) text

/-- One entry handed to the merge engine:
`(edify_path, is_dir, mode)` of `items_to_process`. -/
structure EdifyItem where
  path : List Char
  isDir : Bool
  mode : List Char
  deriving DecidableEq, Repr

/-- `build_edify_line` (lines 125–135). -/
def build_edify_line (it : EdifyItem) : List Char :=
  let modeStr := if it.mode.length = 3 then '0' :: it.mode else it.mode
  if it.isDir then
    sl "set_metadata_recursive(\"" ++ it.path ++ sl "\", \"uid\", 0, \"gid\", 0, \"mode\", "
      ++ modeStr ++ sl ");"
  else
    sl "set_metadata(\"" ++ it.path ++ sl "\", \"uid\", 0, \"gid\", 0, \"mode\", "
      ++ modeStr ++ sl ", \"context\", \"u:object_r:system_file:s0\");"

/-- The fresh managed block appended at lines 198–200:
`"\n\n# === Tool: auto-permission ===\n" + "\n".join(lines) + "\n# === End Tool Block ==="`. -/
def blockSuffix (ls : List (List Char)) : List Char :=
  sl "\n\n# === Tool: auto-permission ===\n" ++ joinNl ls ++
    sl "\n# === End Tool Block ==="

/-- `ensure_edify_stat_lines` (lines 137–202): returns
`(new_script_text, added_count, updated_count)`. -/
def ensure_edify_stat_lines (script : List Char) (items : List EdifyItem) :
    List Char × Nat × Nat :=
  let step1 := items.foldl
    (fun (acc : List Char × Nat × Nat) it =>
      let t2 := removeDirLines it.path acc.1
      if t2.2 > 0 then (t2.1, acc.2.1, acc.2.2 + 1) else (t2.1, acc.2.1 + 1, acc.2.2))
    (script, 0, 0)
  let current := collapseBlanks step1.1
  let linesToAdd := items.map build_edify_line
  -- `new_content` (lines 177–191) is computed but never used by the result:
  -- the `deadNewContent` definition above records it.
  let finalText := blockRemoveAll (stripL current) ++ blockSuffix linesToAdd
  (finalText, step1.2.1, step1.2.2)

/-- Text component of a merge. -/
def mergeText (script : List Char) (items : List EdifyItem) : List Char :=
  (ensure_edify_stat_lines script items).1

/-- The claim C3 placement predicate, following the specification's words:
the managed block is placed immediately after the first recognised
system-mount directive of the output. -/
def blockImmediatelyAfterMount (out : List Char) : Bool :=
  match insertionPointIn out with
  | some i => startsWithL (sl "\n\n# === Tool: auto-permission ===") (out.drop i)
  | none => false

/-! ## Rule A: `patch_system_app_ops_helper` (lines 335–386)

Two DOTALL `re.subn` passes over the file content:

* boolean variant:
  `(\.method public noteOp(?:NoThrow)?\(.*?\)Z\s*\.registers \d+)(.*?)(\.end method)`
  with replacement `\1\n\n    const/4 v0, 0x1\n    return v0\n\n\3`;
* integer variant (applied to the result of the first pass):
  `(\.method public (?:note|check)(?:Proxy)?Op(?:NoThrow)?\(.*?\)I\s*\.registers \d+)(.*?)(\.end method)`
  with replacement `\1\n\n    .locals 1\n    const/4 v0, 0x0\n    return v0\n\n\3`.

The scanners below implement the deterministic resolution of those
patterns: lazy `.*?` extends to the first position where the rest of the
pattern matches; greedy `\s*`/`\d+` take their maximal run (the following
literal starts with a non-whitespace/non-digit character, so no further
backtracking can arise); ordered alternation tries `note` before `check`,
and an optional group is taken exactly when the following literal still
matches (the two branches are distinguished by their first character). -/

/-- Lazy scan `(.*?)lit`: text before the first occurrence of `lit`, and
the rest after it. -/
def scanToLit (lit : List Char) : List Char → Option (List Char × List Char)
  | [] => (dropLit lit []).map fun r => ([], r)
  | c :: t =>
    match dropLit lit (c :: t) with
    | some r => some ([], r)
    | none => (scanToLit lit t).map fun pr => (c :: pr.1, pr.2)

/-- Try `)Z\s*\.registers \d+` at the current position; on success return
the consumed text and the rest. -/
def tryRegSuffix (retType : Char) (s : List Char) : Option (List Char × List Char) :=
  match dropLit (')' :: [retType]) s with
  | none => none
  | some r1 =>
    let ws := r1.takeWhile isPyWs
    let r2 := r1.drop ws.length
    match dropLit (sl ".registers ") r2 with
    | none => none
    | some r3 =>
      let ds := r3.takeWhile Char.isDigit
      if ds.isEmpty then none
      else some (')' :: retType :: ws ++ sl ".registers " ++ ds, r3.drop ds.length)

/-- Lazy scan `.*?\)R\s*\.registers \d+` (the signature part of group 1). -/
def scanRegSig (retType : Char) : List Char → Option (List Char × List Char)
  | [] => none
  | c :: t =>
    match tryRegSuffix retType (c :: t) with
    | some pr => some pr
    | none => (scanRegSig retType t).map fun pr => (c :: pr.1, pr.2)

/-- Optional literal `opt` followed by mandatory literal `next` (regex
`(?:opt)?next` where `opt` and `next` start with different characters). -/
def dropOptThen (opt next : List Char) (s : List Char) : Option (List Char × List Char) :=
  match dropLit (opt ++ next) s with
  | some r => some (opt ++ next, r)
  | none => (dropLit next s).map fun r => (next, r)

/-- Match the boolean Rule A pattern anchored at the current position:
returns `(group1, group2, rest-after-".end method")`. -/
def matchBoolAt (s : List Char) : Option (List Char × List Char × List Char) :=
  match dropLit (sl ".method public noteOp") s with
  | none => none
  | some r1 =>
    match dropOptThen (sl "NoThrow") (sl "(") r1 with
    | none => none
    | some (mid, r2) =>
      match scanRegSig 'Z' r2 with
      | none => none
      | some (sig, r3) =>
        (scanToLit (sl ".end method") r3).map fun br =>
          (sl ".method public noteOp" ++ mid ++ sig, br.1, br.2)

/-- Match the integer Rule A pattern anchored at the current position. -/
def matchIntAt (s : List Char) : Option (List Char × List Char × List Char) :=
  match dropLit (sl ".method public ") s with
  | none => none
  | some r1 =>
    let fam : Option (List Char × List Char) :=
      match dropLit (sl "note") r1 with
      | some r => some (sl "note", r)
      | none => (dropLit (sl "check") r1).map fun r => (sl "check", r)
    match fam with
    | none => none
    | some (f, r2) =>
      match dropOptThen (sl "Proxy") (sl "Op") r2 with
      | none => none
      | some (pOp, r3) =>
        match dropOptThen (sl "NoThrow") (sl "(") r3 with
        | none => none
        | some (nt, r4) =>
          match scanRegSig 'I' r4 with
          | none => none
          | some (sig, r5) =>
            (scanToLit (sl ".end method") r5).map fun br =>
              (sl ".method public " ++ f ++ pOp ++ nt ++ sig, br.1, br.2)

/-- Replacement tail of the boolean variant:
`\n\n    const/4 v0, 0x1\n    return v0\n\n` followed by `\3`. -/
def boolStub : List Char := sl "\n\n    const/4 v0, 0x1\n    return v0\n\n.end method"

/-- Replacement tail of the integer variant. -/
def intStub : List Char :=
  sl "\n\n    .locals 1\n    const/4 v0, 0x0\n    return v0\n\n.end method"

/-- `re.subn` scanner for the boolean variant (fuel ≥ length + 1). -/
def subnBoolGo : Nat → List Char → List Char × Nat
  | 0, s => (s, 0)
  | _ + 1, [] => ([], 0)
  | fuel + 1, c :: t =>
    match matchBoolAt (c :: t) with
    | some (g1, _, rest) =>
      let k := subnBoolGo fuel rest
      (g1 ++ boolStub ++ k.1, k.2 + 1)
    | none =>
      let k := subnBoolGo fuel t
      (c :: k.1, k.2)

/-- `pattern_bool.subn(replacement_bool, content)`. -/
def subnBool (s : List Char) : List Char × Nat := subnBoolGo (s.length + 1) s

/-- `re.subn` scanner for the integer variant. -/
def subnIntGo : Nat → List Char → List Char × Nat
  | 0, s => (s, 0)
  | _ + 1, [] => ([], 0)
  | fuel + 1, c :: t =>
    match matchIntAt (c :: t) with
    | some (g1, _, rest) =>
      let k := subnIntGo fuel rest
      (g1 ++ intStub ++ k.1, k.2 + 1)
    | none =>
      let k := subnIntGo fuel t
      (c :: k.1, k.2)

/-- `pattern_int.subn(replacement_int, content)`. -/
def subnInt (s : List Char) : List Char × Nat := subnIntGo (s.length + 1) s

/-- The pure text transformation of `patch_system_app_ops_helper`
(lines 354–372): boolean pass, then integer pass on its result; returns
`(patched_content, count_bool, count_int)`. -/
def appopsPatch (content : List Char) : List Char × Nat × Nat :=
  let b := subnBool content
  let i := subnInt b.1
  (i.1, b.2, i.2)

/-- The rule-applied result of `patch_system_app_ops_helper` once the
target file was found and read: `False` iff both counts are zero
(lines 374–376), `True` after a successful write. -/
def appopsApplied (content : List Char) : Bool :=
  ¬ ((appopsPatch content).2.1 = 0 ∧ (appopsPatch content).2.2 = 0)

/-! ## Rule B: `patch_mock_location_provider` (lines 388–424)

MULTILINE pattern
`(\s*(?:const/4|const/16|const)\s+((?:p|v)\d+),\s+0x1\s*\n)((?:\s*\.line\s+\d+\s*\n)*)(\s*invoke-virtual\s+\{[^,]+,\s+\2\}, Landroid/location/Location;->setIsFromMockProvider\(Z\)V)`.

Determinisation notes: `\s*`/`\s+`/`\d+`/`[^,]+` are each followed by a
literal outside of their character class, so they consume their maximal
run; `\s*\n` consumes whitespace up to the last newline of the maximal
whitespace run; the ordered alternation `const/4|const/16|const` is decided
by the first branch whose literal matches — when the chosen branch's
continuation `\s+` fails, no other branch can succeed either, since any
other branch matching the same text leaves a rest starting with `/`
(non-whitespace). -/

/-- `\s*\n` (greedy): the leading whitespace up to and including the last
newline of the maximal whitespace run, plus the rest. -/
def wsUpToLastNl (s : List Char) : Option (List Char × List Char) :=
  match wsLastNl s with
  | some k => some (s.take (k + 1), s.drop (k + 1))
  | none => none

/-- Ordered alternation `const/4|const/16|const`. -/
def tryConstKw (s : List Char) : Option (List Char × List Char) :=
  match dropLit (sl "const/4") s with
  | some r => some (sl "const/4", r)
  | none =>
    match dropLit (sl "const/16") s with
    | some r => some (sl "const/16", r)
    | none => (dropLit (sl "const") s).map fun r => (sl "const", r)

/-- Group 1 (the constant-load line) and group 2 (the register):
`\s*(?:const/4|const/16|const)\s+((?:p|v)\d+),\s+0x1\s*\n`. -/
def matchConstLine (s : List Char) : Option (List Char × List Char × List Char) :=
  let ws0 := s.takeWhile isPyWs
  let r0 := s.drop ws0.length
  match tryConstKw r0 with
  | none => none
  | some (kw, r1) =>
    let ws1 := r1.takeWhile isPyWs
    if ws1.isEmpty then none else
    let r2 := r1.drop ws1.length
    match r2 with
    | [] => none
    | c :: r3 =>
      if c == 'p' || c == 'v' then
        let ds := r3.takeWhile Char.isDigit
        if ds.isEmpty then none else
        let r4 := r3.drop ds.length
        match dropLit (sl ",") r4 with
        | none => none
        | some r5 =>
          let ws2 := r5.takeWhile isPyWs
          if ws2.isEmpty then none else
          let r6 := r5.drop ws2.length
          match dropLit (sl "0x1") r6 with
          | none => none
          | some r7 =>
            match wsUpToLastNl r7 with
            | none => none
            | some (wnl, r8) =>
              some (ws0 ++ kw ++ ws1 ++ (c :: ds) ++ ',' :: ws2 ++ sl "0x1" ++ wnl,
                    (c :: ds, r8))
      else none

/-- One `\s*\.line\s+\d+\s*\n` annotation. -/
def tryLineAnn (s : List Char) : Option (List Char × List Char) :=
  let ws0 := s.takeWhile isPyWs
  let r0 := s.drop ws0.length
  match dropLit (sl ".line") r0 with
  | none => none
  | some r1 =>
    let ws1 := r1.takeWhile isPyWs
    if ws1.isEmpty then none else
    let r2 := r1.drop ws1.length
    let ds := r2.takeWhile Char.isDigit
    if ds.isEmpty then none else
    (wsUpToLastNl (r2.drop ds.length)).map fun pr =>
      (ws0 ++ sl ".line" ++ ws1 ++ ds ++ pr.1, pr.2)

/-- Group 3: greedy repetition `(?:\s*\.line\s+\d+\s*\n)*` (fuel ≥ length). -/
def lineAnns : Nat → List Char → List Char × List Char
  | 0, s => ([], s)
  | fuel + 1, s =>
    match tryLineAnn s with
    | some (a, r) =>
      let k := lineAnns fuel r
      (a ++ k.1, k.2)
    | none => ([], s)

/-- Group 4:
`\s*invoke-virtual\s+\{[^,]+,\s+\2\}, Landroid/location/Location;->setIsFromMockProvider\(Z\)V`
with `\2` the captured register. -/
def tryInvoke (reg : List Char) (s : List Char) : Option (List Char × List Char) :=
  let ws0 := s.takeWhile isPyWs
  let r0 := s.drop ws0.length
  match dropLit (sl "invoke-virtual") r0 with
  | none => none
  | some r1 =>
    let ws1 := r1.takeWhile isPyWs
    if ws1.isEmpty then none else
    let r2 := r1.drop ws1.length
    match dropLit ['\x7b'] r2 with
    | none => none
    | some r3 =>
      let arg := r3.takeWhile fun c => ¬ (c == ',')
      if arg.isEmpty then none else
      let r4 := r3.drop arg.length
      match dropLit (sl ",") r4 with
      | none => none
      | some r5 =>
        let ws2 := r5.takeWhile isPyWs
        if ws2.isEmpty then none else
        let r6 := r5.drop ws2.length
        match dropLit reg r6 with
        | none => none
        | some r7 =>
          (dropLit ('\x7d' :: sl ", Landroid/location/Location;->setIsFromMockProvider(Z)V") r7).map
            fun r8 =>
              (ws0 ++ sl "invoke-virtual" ++ ws1 ++ '\x7b' :: arg ++ ',' :: ws2 ++ reg ++
                 '\x7d' :: sl ", Landroid/location/Location;->setIsFromMockProvider(Z)V", r8)

/-- A full Rule B match anchored at the current position:
`(group1, register, group3, group4, rest)`. -/
def matchMockAt (s : List Char) :
    Option (List Char × List Char × List Char × List Char × List Char) :=
  match matchConstLine s with
  | none => none
  | some (g1, reg, r) =>
    let la := lineAnns (r.length + 1) r
    (tryInvoke reg la.2).map fun pr => (g1, reg, la.1, pr.1, pr.2)

/-- `re.sub(r'0x1\s*$', '0x0', group1.rstrip()) + "\n"` of
`_replacer_mock_location` (line 395).  For every matcher output, group 1
rstripped ends with the literal `0x1` and that final occurrence is the
pattern's only match. -/
def flipConstFalse (g1 : List Char) : List Char :=
  let r := rstripL g1
  r.take (r.length - 3) ++ sl "0x0" ++ ['\n']

/-- `_replacer_mock_location` (lines 388–402): flip the constant load to
false and, when the register is a parameter register (name starting with
`p`), append a restore of boolean-true right after the invocation. -/
def replacerMockLocation (g1 reg g3 g4 : List Char) : List Char :=
  let restore :=
    if startsWithL (sl "p") reg then sl "\n    const/4 " ++ reg ++ sl ", 0x1" else []
  flipConstFalse g1 ++ g3 ++ g4 ++ restore

/-- `re.subn` scanner for Rule B. -/
def subnMockGo : Nat → List Char → List Char × Nat
  | 0, s => (s, 0)
  | _ + 1, [] => ([], 0)
  | fuel + 1, c :: t =>
    match matchMockAt (c :: t) with
    | some (g1, reg, g3, g4, rest) =>
      let k := subnMockGo fuel rest
      (replacerMockLocation g1 reg g3 g4 ++ k.1, k.2 + 1)
    | none =>
      let k := subnMockGo fuel t
      (c :: k.1, k.2)

/-- `pattern.subn(self._replacer_mock_location, content)` (line 413). -/
def subnMock (s : List Char) : List Char × Nat := subnMockGo (s.length + 1) s

/-- Rule B applied (count > 0, lines 414–424). -/
def mockApplied (content : List Char) : Bool := (subnMock content).2 > 0

/-! ## `update_updater_script` (lines 204–250)

Claim C8 concerns lines 230–250: back up, read, merge, write, all inside
one `try`.  The path-mapping of lines 215–226 happens before and is
represented by handing the already-mapped in-scope `items_to_process`
to the model. -/

/-- Modelled outcome of `update_updater_script`. -/
structure ScriptUpdResult where
  scriptPath : Option String
  added : Nat
  updated : Nat
  /-- an `"ERROR: ..."` note was recorded (the `except` branch ran) -/
  errored : Bool
  deriving DecidableEq, Repr

/-- Model of `update_updater_script` from line 227 on: `scriptPath` is the
result of `find_updater_script`, `items` the in-scope mapped entries,
`backupPath` the timestamped sibling name, and `backupOk` whether
`shutil.copy2` succeeds.  The backup copy happens before the script is
read or written; an exception while backing up reaches the `except`
branch with the script untouched. -/
def update_updater_script_model (fs : FS) (scriptPath : Option String)
    (items : List EdifyItem) (backupPath : String) (backupOk : Bool) :
    FS × ScriptUpdResult :=
  match scriptPath with
  | none => (fs, ⟨none, 0, 0, false⟩)
  | some p =>
    if items.isEmpty then (fs, ⟨some p, 0, 0, false⟩)
    else if ¬ backupOk then (fs, ⟨some p, 0, 0, true⟩)
    else
      let origStr := (fsGet fs p).getD ""
      let fs1 := fsSet fs backupPath origStr
      let r := ensure_edify_stat_lines origStr.data items
      (fsSet fs1 p (String.mk r.1), ⟨some p, r.2.1, r.2.2, false⟩)

/-! ## `PermissionThread` (lines 738–814) -/

/-- The permission action requested (`action_type`). -/
inductive PermAction where
  | apk
  | dir
  deriving DecidableEq, Repr

/-- A native filesystem-metadata mutation performed by `_set_perms`. -/
inductive FsMut where
  | chmodM (path : String) (mode : Nat)
  | chownM (path : String) (uid gid : Nat)
  deriving DecidableEq, Repr

/-- Environment of one `PermissionThread.run`. -/
structure PermEnv where
  isWindows : Bool
  action : PermAction
  path : String
  recursive : Bool
  romRoot : Option String
  updateScript : Bool
  /-- `os.chmod` succeeds on the given path -/
  chmodOk : String → Bool
  /-- `os.chown` succeeds on the given path -/
  chownOk : String → Bool
  /-- directories enumerated by the recursive `os.walk` sweep -/
  walkSubdirs : List String
  /-- the `os.walk` traversal itself raises no exception -/
  walkOk : Bool
  /-- `find_updater_script(rom_root)` result used by the hook -/
  scriptPath : Option String
  /-- in-scope items the hook's `update_updater_script` maps the entry to -/
  hookItems : List EdifyItem
  backupPath : String
  backupOk : Bool

/-- `_set_perms` (lines 752–769): on Windows only log lines are emitted and
`True` is returned with no mutation; otherwise `os.chmod` then `os.chown`
run, an exception leaving the remaining mutations undone. -/
def setPermsModel (env : PermEnv) (target : String) (isDir : Bool) :
    List FsMut × Bool :=
  let mode := if isDir then 0o755 else 0o644
  if env.isWindows then ([], true)
  else if ¬ env.chmodOk target then ([], false)
  else if ¬ env.chownOk target then ([FsMut.chmodM target mode], false)
  else ([FsMut.chmodM target mode, FsMut.chownM target 0 0], true)

/-- Outcome of a modelled `PermissionThread.run`. -/
structure PermOutcome where
  fs : FS
  mutations : List FsMut
  success : Bool
  /-- the updater-script hook (`update_updater_script`) ran -/
  hookInvoked : Bool
  scriptResult : Option ScriptUpdResult

/-- Model of `PermissionThread.run` (lines 771–814). -/
def permissionRun (env : PermEnv) (fs : FS) : PermOutcome :=
  let base : List FsMut × Bool × Bool :=  -- mutations, success, earlyReturn
    match env.action with
    | .apk =>
      let r := setPermsModel env env.path false
      (r.1, r.2, false)
    | .dir =>
      let r := setPermsModel env env.path true
      if ¬ r.2 then (r.1, false, true)
      else if env.recursive then
        let sweep := env.walkSubdirs.foldl
          (fun (acc : List FsMut × Bool) d =>
            let sr := setPermsModel env d true
            (acc.1 ++ sr.1, acc.2 && sr.2))
          ([], true)
        (r.1 ++ sweep.1, sweep.2 && env.walkOk, false)
      else (r.1, true, false)
  let muts := base.1
  let success := base.2.1
  if base.2.2 then ⟨fs, muts, false, false, none⟩
  else if success && env.updateScript && env.romRoot.isSome && ! env.isWindows then
    let u := update_updater_script_model fs env.scriptPath env.hookItems
      env.backupPath env.backupOk
    ⟨u.1, muts, success, true, some u.2⟩
  else ⟨fs, muts, success, false, none⟩

/-! ## Fixtures and statement helpers -/

/-- `s` ends with `pat`. -/
def endsWithL (pat s : List Char) : Bool := startsWithL pat.reverse s.reverse

/-- A script containing a recognised system-mount directive followed by
further content (used against claim C3). -/
def c3Script : List Char :=
  sl "run_program(\"/system/bin/mount\", \"/system\");\nui_print(\"a\");"

/-- One directory entry. -/
def c3Items : List EdifyItem := [⟨sl "/system/app", true, sl "755"⟩]

/-- A disassembly fixture whose only method is the check-only variant
`checkOpNoThrow` with integer return type. -/
def checkIntFixture : List Char :=
  sl ".method public checkOpNoThrow(Ljava/lang/String;)I\n    .registers 4\n    const/4 v0, 0x2\n    return v0\n.end method"

/-- A disassembly fixture whose only method is the check-only variant
`checkOpNoThrow` with boolean return type. -/
def checkBoolFixture : List Char :=
  sl ".method public checkOpNoThrow(II)Z\n    .registers 3\n    const/4 v0, 0x0\n    return v0\n.end method"

/-- A script whose text already contains the managed-block start marker
without a matching block (used against claim C2). -/
def c2Script : List Char := sl "# === Tool: auto-permission ===\nui_print(\"hello\");"

/-- A script containing a mid-line `set_metadata` directive for a path that
the first merge also manages (used against claim C7). -/
def c7Script : List Char :=
  sl "a(); set_metadata(\"/system/e1\", \"uid\", 0, \"gid\", 0, \"mode\", 0644);"

/-- First entry list for C7. -/
def c7ItemsE1 : List EdifyItem := [⟨sl "/system/e1", false, sl "644"⟩]

/-- Second, different entry list for C7. -/
def c7ItemsE2 : List EdifyItem := [⟨sl "/system/e2", false, sl "644"⟩]

/-- Rule B fixture: the flagged register is the caller-supplied parameter
register `p1`, reused by a later `array-length` instruction. -/
def mockFixtureP : List Char :=
  sl ".method foo\n    const/4 p1, 0x1\n    .line 42\n    invoke-virtual \x7bv0, p1\x7d, Landroid/location/Location;->setIsFromMockProvider(Z)V\n\n    array-length v2, p1\n.end method\n"

/-- Expected Rule B output on `mockFixtureP`: the constant load flipped to
`0x0`, and a restore `const/4 p1, 0x1` inserted between the invocation and
the `array-length` reuse. -/
def mockExpectedP : List Char :=
  sl ".method foo\n    const/4 p1, 0x0\n    .line 42\n    invoke-virtual \x7bv0, p1\x7d, Landroid/location/Location;->setIsFromMockProvider(Z)V\n    const/4 p1, 0x1\n\n    array-length v2, p1\n.end method\n"

/-- Rule B fixture: the flagged register is the local temporary `v0`. -/
def mockFixtureV : List Char :=
  sl ".method foo\n    const/4 v0, 0x1\n    invoke-virtual \x7bp0, v0\x7d, Landroid/location/Location;->setIsFromMockProvider(Z)V\n\n    array-length v2, v0\n.end method\n"

/-- Expected Rule B output on `mockFixtureV`: the constant load flipped to
`0x0` and no restore instruction inserted anywhere. -/
def mockExpectedV : List Char :=
  sl ".method foo\n    const/4 v0, 0x0\n    invoke-virtual \x7bp0, v0\x7d, Landroid/location/Location;->setIsFromMockProvider(Z)V\n\n    array-length v2, v0\n.end method\n"

/-! ## Analysis helpers for the merge engine -/

/-- A line containing at least one non-whitespace character. -/
def nonWsLine (l : List Char) : Bool := l.any fun c => ! isPyWs c

/-- A search pattern that is nonempty, newline-free, and starts and ends
with a non-whitespace character (all patterns analysed below — the block
markers and `set_metadata("…` prefixes — are of this form). -/
def goodPat (pat : List Char) : Bool :=
  match pat with
  | [] => false
  | c :: _ =>
    !isPyWs c && !pat.contains '\n' &&
      (match pat.getLast? with
       | some d => !isPyWs d
       | none => false)

/-- Blank out one line if it matches the removal pattern for `it.path`. -/
def zeroLine (it : EdifyItem) (l : List Char) : List Char :=
  if dirLineMatches it.path l then [] else l

/-- The cumulative per-line effect of the sequential removal loop. -/
def zeroPass (items : List EdifyItem) (ls : List (List Char)) : List (List Char) :=
  items.foldl (fun acc it => acc.map (zeroLine it)) ls

/-- The part of the merge output that precedes the appended managed
block. -/
def mergeBody (s : List Char) (items : List EdifyItem) : List Char :=
  blockRemoveAll (stripL (collapseBlanks (joinNl (zeroPass items (splitNl s)))))

/-- A collapse-pattern match (`\n\s*\n`) exists somewhere in the text. -/
def hasBlankRun : List Char → Bool
  | [] => false
  | c :: t => (c == '\n' && (wsLastNl t).isSome) || hasBlankRun t

/-- The directive prefix whose occurrences identify a directive for a
given path, per the specification's reading of claim C7. -/
def dirPat (path : List Char) : List Char := sl "set_metadata(\"" ++ path

/-- `stripped` is `full` with some whitespace removed from the front of
its first element (the effect of `str.lstrip` on the non-whitespace lines
of a text). -/
def headTrimmed (full stripped : List (List Char)) : Prop :=
  (full = [] ∧ stripped = []) ∨
  ∃ a h rest, a.all isPyWs = true ∧ full = (a ++ h) :: rest ∧ stripped = h :: rest

/-- An entry whose generated directive line is newline-free and does not
contain the managed-block marker texts (true of every real entry; the
hypothesis of the amended C2/C7). -/
def itemSafe (it : EdifyItem) : Bool :=
  let l := build_edify_line it
  !l.contains '\n' && !hasSubstrL startMarker l && !hasSubstrL endMarker l

/-- `stripped` is `full` with some whitespace removed from the end of its
last element (the effect of `str.rstrip` on the non-whitespace lines of a
text). -/
def tailTrimmed (full stripped : List (List Char)) : Prop :=
  full = stripped ∨
  ∃ pre h a, a.all isPyWs = true ∧ full = pre ++ [h ++ a] ∧ stripped = pre ++ [h]

/-! # Theorems -/

/-! ## Filesystem lemmas -/

theorem fsGet_fsErase_self (fs : FS) (p : String) : fsGet (fsErase fs p) p = none := by
  induction fs with
  | nil => rfl
  | cons kv rest ih =>
    obtain ⟨q, v⟩ := kv
    by_cases h : q = p
    · simp [fsErase, h, ih]
    · simp [fsErase, fsGet, h, ih]

theorem fsGet_fsErase_ne (fs : FS) (p q : String) (h : p ≠ q) :
    fsGet (fsErase fs p) q = fsGet fs q := by
  induction fs with
  | nil => rfl
  | cons kv rest ih =>
    obtain ⟨r, v⟩ := kv
    by_cases hr : r = p
    · subst hr
      have hrq : r ≠ q := fun hc => h (hc ▸ rfl)
      simp [fsErase, fsGet, hrq, ih]
    · by_cases hq : r = q
      · subst hq
        simp [fsErase, fsGet, hr]
      · simp [fsErase, fsGet, hr, hq, ih]

theorem fsGet_fsSet_self (fs : FS) (p : String) (v : String) :
    fsGet (fsSet fs p v) p = some v := by
  simp [fsSet, fsGet]

theorem fsGet_fsSet_ne (fs : FS) (p q : String) (v : String) (h : p ≠ q) :
    fsGet (fsSet fs p v) q = fsGet fs q := by
  have hqp : ¬ (p = q) := h
  simp only [fsSet, fsGet, hqp, if_false]
  exact fsGet_fsErase_ne fs p q h

theorem append_tmp_ne (p : String) : p ++ ".tmp" ≠ p := by
  intro h
  have hl : (p ++ ".tmp").length = p.length := by rw [h]
  rw [String.length_append] at hl
  have h4 : (".tmp" : String).length = 4 := rfl
  omega

/-! ## C5 and C9: the pipeline controller -/

/-- C5: the pipeline reports the rule-criterion failure
(`"Không thể áp dụng bản vá"`) iff both Rule A and Rule B applied nothing;
when at least one applied, the run does not fail on that criterion and
control reaches the recompilation (reassembly) stage. -/
theorem gps_pipeline_rule_criterion (env : RunEnv)
    (hj : env.jarsPresent = true) (hd : env.dexFound = true)
    (hde : env.decompileOk = true) (hc : 4 < env.cancelFrom) :
    ((gpsPatcherRun env).result = .finished false (some .rulesNotApplied) ↔
      env.appOpsApplied = false ∧ env.mockApplied = false) ∧
    (env.appOpsApplied = true ∨ env.mockApplied = true →
      (gpsPatcherRun env).reachedRecompile = true) := by
  obtain ⟨jp, cf, df, de, ap, mo, rc, ow, wo⟩ := env
  simp only at hj hd hde hc
  subst hj hd hde
  have h0 : cancelSeen ⟨true, cf, true, true, ap, mo, rc, ow, wo⟩ 0 = false := by
    simp [cancelSeen]; omega
  have h1 : cancelSeen ⟨true, cf, true, true, ap, mo, rc, ow, wo⟩ 1 = false := by
    simp [cancelSeen]; omega
  have h2 : cancelSeen ⟨true, cf, true, true, ap, mo, rc, ow, wo⟩ 2 = false := by
    simp [cancelSeen]; omega
  have h3 : cancelSeen ⟨true, cf, true, true, ap, mo, rc, ow, wo⟩ 3 = false := by
    simp [cancelSeen]; omega
  have h4 : cancelSeen ⟨true, cf, true, true, ap, mo, rc, ow, wo⟩ 4 = false := by
    simp [cancelSeen]; omega
  cases ap <;> cases mo <;> cases rc <;> cases wo <;> cases ow <;>
    simp [gpsPatcherRun, h0, h1, h2, h3, h4] <;>
    cases hc5 : cancelSeen ⟨true, cf, true, true, _, _, _, _, _⟩ 5 <;> simp [hc5]

/-- C5 witness. -/
theorem gps_pipeline_rule_criterion_witness :
    ((gpsPatcherRun ⟨true, 10, true, true, false, true, true, true, true⟩).result =
        .finished false (some .rulesNotApplied) ↔
      (⟨true, 10, true, true, false, true, true, true, true⟩ : RunEnv).appOpsApplied = false ∧
      (⟨true, 10, true, true, false, true, true, true, true⟩ : RunEnv).mockApplied = false) ∧
    ((⟨true, 10, true, true, false, true, true, true, true⟩ : RunEnv).appOpsApplied = true ∨
      (⟨true, 10, true, true, false, true, true, true, true⟩ : RunEnv).mockApplied = true →
      (gpsPatcherRun ⟨true, 10, true, true, false, true, true, true, true⟩).reachedRecompile = true) :=
  gps_pipeline_rule_criterion _ rfl rfl rfl (by decide)

/-- C9: when cancellation is observed at the checkpoint between the
disassembling and patching stages (checkpoint 2, line 497), the run ends
with the cancellation result (distinct from `patch_finished` failure), the
destination is never written, and the temp directory is created and then
removed by the `finally:` block. -/
theorem gps_cancel_between_stages (env : RunEnv)
    (hj : env.jarsPresent = true) (hd : env.dexFound = true)
    (hde : env.decompileOk = true) (hc : env.cancelFrom = 2) :
    (gpsPatcherRun env).result = .cancelledRes ∧
    (gpsPatcherRun env).destTouched = false ∧
    (gpsPatcherRun env).tempCreated = true ∧
    (gpsPatcherRun env).tempRemoved = true := by
  obtain ⟨jp, cf, df, de, ap, mo, rc, ow, wo⟩ := env
  simp only at hj hd hde hc
  subst hj hd hde hc
  simp [gpsPatcherRun, cancelSeen]

/-- C9 witness. -/
theorem gps_cancel_between_stages_witness :
    (gpsPatcherRun ⟨true, 2, true, true, true, true, true, false, true⟩).result = .cancelledRes ∧
    (gpsPatcherRun ⟨true, 2, true, true, true, true, true, false, true⟩).destTouched = false ∧
    (gpsPatcherRun ⟨true, 2, true, true, true, true, true, false, true⟩).tempCreated = true ∧
    (gpsPatcherRun ⟨true, 2, true, true, true, true, true, false, true⟩).tempRemoved = true :=
  gps_cancel_between_stages _ rfl rfl rfl rfl

/-! ## C6: atomicity of the repack write -/

/-- C6 counterexample: in side-output mode the claim fails — on a write
exception the pre-existing destination file is clobbered with partial
content instead of being left untouched (no temporary file is used at
all: `zipfile.ZipFile(output_path, 'w')` opens the destination itself). -/
theorem side_output_clobbers_on_failure :
    (sideOutputSave [("Patched/services.jar", "OLD")]
        "Patched/services.jar" "NEW" "PARTIAL" false).2 = .saveError ∧
    fsGet (sideOutputSave [("Patched/services.jar", "OLD")]
        "Patched/services.jar" "NEW" "PARTIAL" false).1 "Patched/services.jar"
      = some "PARTIAL" := by
  constructor
  · rfl
  · rfl

/-- C6 (amended): atomicity holds in overwrite mode only: the archive is
written to `input + ".tmp"`; on success the temp file is renamed onto the
original and no temp file remains; on any exception the temp file is
removed and the original is left untouched. -/
theorem overwrite_save_atomic (fs : FS) (inputFile zipData partialData : String)
    (ok : Bool) :
    (ok = false →
      fsGet (overwriteSave fs inputFile zipData partialData ok).1 inputFile
          = fsGet fs inputFile ∧
      fsGet (overwriteSave fs inputFile zipData partialData ok).1 (inputFile ++ ".tmp")
          = none ∧
      (overwriteSave fs inputFile zipData partialData ok).2 = .saveError) ∧
    (ok = true →
      fsGet (overwriteSave fs inputFile zipData partialData ok).1 inputFile
          = some zipData ∧
      fsGet (overwriteSave fs inputFile zipData partialData ok).1 (inputFile ++ ".tmp")
          = none ∧
      (overwriteSave fs inputFile zipData partialData ok).2 = .saved) := by
  have hfalse : overwriteSave fs inputFile zipData partialData false =
      (fsErase (fsSet (fsSet fs (inputFile ++ ".tmp") "") (inputFile ++ ".tmp")
          partialData) (inputFile ++ ".tmp"), .saveError) := rfl
  have htrue : overwriteSave fs inputFile zipData partialData true =
      (fsSet (fsErase (fsSet (fsSet fs (inputFile ++ ".tmp") "") (inputFile ++ ".tmp")
          zipData) (inputFile ++ ".tmp")) inputFile zipData, .saved) := rfl
  constructor
  · rintro rfl
    rw [hfalse]
    refine ⟨?_, ?_, rfl⟩
    · rw [fsGet_fsErase_ne _ _ _ (append_tmp_ne inputFile),
        fsGet_fsSet_ne _ _ _ _ (append_tmp_ne inputFile),
        fsGet_fsSet_ne _ _ _ _ (append_tmp_ne inputFile)]
    · exact fsGet_fsErase_self _ _
  · rintro rfl
    rw [htrue]
    refine ⟨?_, ?_, rfl⟩
    · exact fsGet_fsSet_self _ _ _
    · rw [fsGet_fsSet_ne _ _ _ _ (Ne.symm (append_tmp_ne inputFile))]
      exact fsGet_fsErase_self _ _

/-- C6 witness. -/
theorem overwrite_save_atomic_witness :
    (false = false →
      fsGet (overwriteSave [("a.jar", "OLD")] "a.jar" "NEW" "PART" false).1 "a.jar"
          = fsGet [("a.jar", "OLD")] "a.jar" ∧
      fsGet (overwriteSave [("a.jar", "OLD")] "a.jar" "NEW" "PART" false).1 ("a.jar" ++ ".tmp")
          = none ∧
      (overwriteSave [("a.jar", "OLD")] "a.jar" "NEW" "PART" false).2 = .saveError) ∧
    (false = true →
      fsGet (overwriteSave [("a.jar", "OLD")] "a.jar" "NEW" "PART" false).1 "a.jar"
          = some "NEW" ∧
      fsGet (overwriteSave [("a.jar", "OLD")] "a.jar" "NEW" "PART" false).1 ("a.jar" ++ ".tmp")
          = none ∧
      (overwriteSave [("a.jar", "OLD")] "a.jar" "NEW" "PART" false).2 = .saved) :=
  overwrite_save_atomic [("a.jar", "OLD")] "a.jar" "NEW" "PART" false

/-! ## C8: updater-script backup fail-closed -/

/-- C8: with at least one in-scope entry, the backup copy is made before
any mutation — in the success path the backup file carries the original
script content and the script carries the merged text — and if the backup
copy fails, the merge aborts with an error note and the filesystem (in
particular the script file) completely unchanged. -/
theorem update_script_backup_fail_closed (fs : FS) (p bp : String)
    (items : List EdifyItem) (hne : items ≠ []) :
    (update_updater_script_model fs (some p) items bp false).1 = fs ∧
    (update_updater_script_model fs (some p) items bp false).2.errored = true ∧
    (bp ≠ p →
      fsGet (update_updater_script_model fs (some p) items bp true).1 bp
        = some ((fsGet fs p).getD "") ∧
      fsGet (update_updater_script_model fs (some p) items bp true).1 p
        = some (String.mk (mergeText ((fsGet fs p).getD "").data items))) := by
  have hne' : items.isEmpty = false := by
    cases items with
    | nil => exact absurd rfl hne
    | cons a l => rfl
  have hfalse : update_updater_script_model fs (some p) items bp false =
      (fs, ⟨some p, 0, 0, true⟩) := by
    simp [update_updater_script_model, hne']
  have htrue : update_updater_script_model fs (some p) items bp true =
      (fsSet (fsSet fs bp ((fsGet fs p).getD "")) p
         (String.mk (ensure_edify_stat_lines ((fsGet fs p).getD "").data items).1),
       ⟨some p, (ensure_edify_stat_lines ((fsGet fs p).getD "").data items).2.1,
        (ensure_edify_stat_lines ((fsGet fs p).getD "").data items).2.2, false⟩) := by
    simp [update_updater_script_model, hne']
  refine ⟨?_, ?_, ?_⟩
  · rw [hfalse]
  · rw [hfalse]
  · intro hbp
    rw [htrue]
    constructor
    · rw [fsGet_fsSet_ne _ _ _ _ (Ne.symm hbp), fsGet_fsSet_self]
    · rw [fsGet_fsSet_self]
      rfl

/-- C8 witness. -/
theorem update_script_backup_fail_closed_witness :
    (update_updater_script_model [("s", "x")] (some "s")
        [⟨sl "/system/app", true, sl "755"⟩] "s.bak" false).1 = [("s", "x")] ∧
    (update_updater_script_model [("s", "x")] (some "s")
        [⟨sl "/system/app", true, sl "755"⟩] "s.bak" false).2.errored = true ∧
    ("s.bak" ≠ "s" →
      fsGet (update_updater_script_model [("s", "x")] (some "s")
          [⟨sl "/system/app", true, sl "755"⟩] "s.bak" true).1 "s.bak"
        = some ((fsGet [("s", "x")] "s").getD "") ∧
      fsGet (update_updater_script_model [("s", "x")] (some "s")
          [⟨sl "/system/app", true, sl "755"⟩] "s.bak" true).1 "s"
        = some (String.mk (mergeText ((fsGet [("s", "x")] "s").getD "").data
            [⟨sl "/system/app", true, sl "755"⟩]))) :=
  update_script_backup_fail_closed [("s", "x")] "s" "s.bak"
    [⟨sl "/system/app", true, sl "755"⟩] (by simp)

/-! ## C10: Windows permission run performs no mutation -/

/-- C10: on `sys.platform == 'win32'` a `PermissionThread.run` performs no
filesystem-metadata mutation (chmod/chown are replaced by log lines) and
the updater-script hook is never invoked — even when `update_script` is
requested and a `rom_root` is given — leaving the filesystem unchanged. -/
theorem permission_windows_no_mutation (env : PermEnv) (fs : FS)
    (hw : env.isWindows = true) :
    (permissionRun env fs).mutations = [] ∧
    (permissionRun env fs).hookInvoked = false ∧
    (permissionRun env fs).fs = fs := by
  have hset : ∀ t d, setPermsModel env t d = ([], true) := by
    intro t d
    simp [setPermsModel, hw]
  have hsweep : ∀ l : List String, l.foldl
      (fun (acc : List FsMut × Bool) d =>
        let sr := setPermsModel env d true
        (acc.1 ++ sr.1, acc.2 && sr.2)) ([], true) = ([], true) := by
    intro l
    induction l with
    | nil => rfl
    | cons d l ih =>
      simp only [List.foldl_cons, hset d true]
      simpa using ih
  cases ha : env.action with
  | apk => simp [permissionRun, ha, hset, hw]
  | dir =>
    cases hr : env.recursive <;>
      simp [permissionRun, ha, hr, hset, hsweep, hw]

/-- C10 witness. -/
theorem permission_windows_no_mutation_witness :
    (permissionRun
        ⟨true, .dir, "/r/system/app", true, some "/r", true,
          fun _ => true, fun _ => true, ["/r/system/app/x"], true,
          some "/r/META-INF/com/google/android/updater-script",
          [⟨sl "/system/app", true, sl "755"⟩], "b.bak", true⟩ []).mutations = [] ∧
    (permissionRun
        ⟨true, .dir, "/r/system/app", true, some "/r", true,
          fun _ => true, fun _ => true, ["/r/system/app/x"], true,
          some "/r/META-INF/com/google/android/updater-script",
          [⟨sl "/system/app", true, sl "755"⟩], "b.bak", true⟩ []).hookInvoked = false ∧
    (permissionRun
        ⟨true, .dir, "/r/system/app", true, some "/r", true,
          fun _ => true, fun _ => true, ["/r/system/app/x"], true,
          some "/r/META-INF/com/google/android/updater-script",
          [⟨sl "/system/app", true, sl "755"⟩], "b.bak", true⟩ []).fs = [] :=
  permission_windows_no_mutation _ [] rfl

/-! ## Basic text lemmas -/

theorem dropLit_self_append (a r : List Char) : dropLit a (a ++ r) = some r := by
  induction a with
  | nil => rfl
  | cons c cs ih => simp [dropLit, ih]

theorem startsWithL_self_append (a r : List Char) : startsWithL a (a ++ r) = true := by
  simp [startsWithL, dropLit_self_append]

/-! ## C3: placement of the managed block -/

set_option maxRecDepth 8000 in
/-- C3 counterexample: on a script containing the recognised mount
directive `run_program("/system/bin/mount", "/system");` followed by more
content, the merge does not place the managed block immediately after the
mount directive (the computed insertion point is discarded at line 196). -/
theorem merge_ignores_mount_insertion :
    hasSubstrL mountPoint2 c3Script = true ∧
    c3Items ≠ [] ∧
    blockImmediatelyAfterMount (mergeText c3Script c3Items) = false := by
  refine ⟨by decide, by decide, by decide⟩

/-- C3 (amended): for every script and entry list the managed block is
appended at the end of the output text, whether or not a recognised mount
directive is present; the after-mount insertion (`new_content`,
lines 177–191) is dead code. -/
theorem merge_appends_block_at_end (s : List Char) (items : List EdifyItem) :
    endsWithL (blockSuffix (items.map build_edify_line)) (mergeText s items) = true := by
  have he : mergeText s items =
      blockRemoveAll (stripL (collapseBlanks
        (items.foldl
          (fun (acc : List Char × Nat × Nat) it =>
            let t2 := removeDirLines it.path acc.1
            if t2.2 > 0 then (t2.1, acc.2.1, acc.2.2 + 1)
            else (t2.1, acc.2.1 + 1, acc.2.2))
          (s, 0, 0)).1))
      ++ blockSuffix (items.map build_edify_line) := rfl
  rw [he, endsWithL, List.reverse_append]
  exact startsWithL_self_append _ _

/-! ## C1: the AppOps rule and check-only variants -/

/-- C1 counterexample: the integer-variant replacement of the AppOps rule
does rewrite a method named exactly `checkOpNoThrow` (integer return):
on a fixture whose only method is `checkOpNoThrow(...)I` the integer pass
counts one match and changes the text. -/
theorem appops_int_rewrites_check_variant :
    (appopsPatch checkIntFixture).2.2 = 1 ∧
    (appopsPatch checkIntFixture).1 ≠ checkIntFixture := by
  refine ⟨by decide, by decide⟩

theorem matchBoolAt_eq_none (u : List Char)
    (h : startsWithL (sl ".method public noteOp") u = false) :
    matchBoolAt u = none := by
  unfold matchBoolAt
  cases hd : dropLit (sl ".method public noteOp") u with
  | none => rfl
  | some r => simp [startsWithL, hd] at h

theorem subnBoolGo_id (fuel : Nat) (t : List Char)
    (h : hasSubstrL (sl ".method public noteOp") t = false) :
    subnBoolGo fuel t = (t, 0) := by
  induction fuel generalizing t with
  | zero => rfl
  | succ f ih =>
    cases t with
    | nil => rfl
    | cons c rest =>
      rw [hasSubstrL, Bool.or_eq_false_iff] at h
      rw [subnBoolGo, matchBoolAt_eq_none _ h.1, ih rest h.2]

/-- C1 (amended): a disassembly text that contains no `noteOp` method
header at all — in particular one containing only check-only variants such
as `checkOpNoThrow(...)Z` — is returned unchanged with zero matches by the
boolean-variant replacement; only the integer-variant replacement (by
design, see the source comment at line 366) also rewrites integer
check-variants. -/
theorem subnBool_id_of_no_noteOp (t : List Char)
    (h : hasSubstrL (sl ".method public noteOp") t = false) :
    subnBool t = (t, 0) :=
  subnBoolGo_id _ t h

/-- C1 witness. -/
theorem subnBool_id_of_no_noteOp_witness :
    hasSubstrL (sl ".method public noteOp") checkBoolFixture = false ∧
    subnBool checkBoolFixture = (checkBoolFixture, 0) :=
  ⟨by decide, subnBool_id_of_no_noteOp _ (by decide)⟩

/-! ## C2 and C7 counterexamples -/

set_option maxRecDepth 16000 in
/-- C2 counterexample: on a script that already contains the literal
start-marker text without a block, the second merge with the same entries
deletes non-whitespace script content (`ui_print(\"hello\");`) that the
first merge's output still contained: the old-block removal pattern
matches from the stray start marker to the end marker of the appended
block.  The two outputs differ in more than whitespace. -/
theorem merge_not_idempotent_with_stray_marker :
    hasSubstrL (sl "ui_print") (mergeText c2Script c3Items) = true ∧
    hasSubstrL (sl "ui_print")
      (mergeText (mergeText c2Script c3Items) c3Items) = false ∧
    (mergeText (mergeText c2Script c3Items) c3Items).filter (fun c => ! isPyWs c) ≠
      (mergeText c2Script c3Items).filter (fun c => ! isPyWs c) := by
  refine ⟨by decide, by decide, by decide⟩

set_option maxRecDepth 16000 in
/-- C7 counterexample: a `set_metadata` occurrence for an `E1` path that
does not sit at a line start (here preceded by `a(); ` on the same line)
survives both merges: the output of `merge(merge(s, E1), E2)` still
contains a directive for the `E1`-only path `/system/e1`, although that
path is not in `E2`. -/
theorem merge_keeps_midline_e1_directive :
    hasSubstrL (sl "set_metadata(\"/system/e1\"")
      (mergeText (mergeText c7Script c7ItemsE1) c7ItemsE2) = true ∧
    (∀ it ∈ c7ItemsE2, it.path ≠ sl "/system/e1") := by
  refine ⟨by decide, by decide⟩

/-! ## Pattern/occurrence infrastructure -/

theorem dropLit_eq_some_iff (pat s r : List Char) :
    dropLit pat s = some r ↔ s = pat ++ r := by
  induction pat generalizing s with
  | nil =>
    rw [dropLit]
    simp
  | cons p ps ih =>
    cases s with
    | nil => simp [dropLit]
    | cons c cs =>
      by_cases hpc : p = c
      · subst hpc
        rw [dropLit, if_pos (by simp)]
        rw [ih cs]
        simp
      · rw [dropLit, if_neg (by simpa using hpc)]
        constructor
        · intro h
          exact Option.noConfusion h
        · intro h
          rw [List.cons_append] at h
          exact absurd (List.cons.inj h).1.symm hpc

theorem startsWithL_iff (pat s : List Char) :
    startsWithL pat s = true ↔ ∃ r, s = pat ++ r := by
  unfold startsWithL
  cases hd : dropLit pat s with
  | none =>
    simp only [Option.isSome_none, Bool.false_eq_true, false_iff]
    rintro ⟨r, rfl⟩
    rw [dropLit_self_append] at hd
    exact Option.noConfusion hd
  | some r =>
    simp only [Option.isSome_some, true_iff]
    exact ⟨r, (dropLit_eq_some_iff pat s r).mp hd⟩

theorem startsWithL_append_of (pat s r : List Char)
    (h : startsWithL pat s = true) : startsWithL pat (s ++ r) = true := by
  rw [startsWithL_iff] at h ⊢
  obtain ⟨u, rfl⟩ := h
  exact ⟨u ++ r, by simp⟩

theorem startsWithL_append_nl (pat v w : List Char) (hnl : '\n' ∉ pat) :
    startsWithL pat (v ++ '\n' :: w) = startsWithL pat v := by
  induction pat generalizing v with
  | nil => rfl
  | cons p ps ih =>
    have hnl2 : '\n' ∉ ps := fun hm => hnl (List.mem_cons_of_mem p hm)
    cases v with
    | nil =>
      have hp : ¬ (p = '\n') := fun hc => hnl (by rw [hc]; exact List.mem_cons_self _ _)
      show (dropLit (p :: ps) ('\n' :: w)).isSome = (dropLit (p :: ps) []).isSome
      simp only [dropLit]
      rw [if_neg (by simpa using hp)]
    | cons a v2 =>
      show (dropLit (p :: ps) (a :: (v2 ++ '\n' :: w))).isSome
          = (dropLit (p :: ps) (a :: v2)).isSome
      by_cases hpa : (p == a) = true
      · rw [dropLit, if_pos hpa]
        rw [dropLit, if_pos hpa]
        exact ih v2 hnl2
      · rw [dropLit, if_neg hpa]
        rw [dropLit, if_neg hpa]

theorem hasSubstrL_append_right (pat x y : List Char)
    (h : hasSubstrL pat y = true) : hasSubstrL pat (x ++ y) = true := by
  induction x with
  | nil => simpa using h
  | cons c x ih =>
    rw [List.cons_append, hasSubstrL, ih, Bool.or_true]

theorem hasSubstrL_of_startsWith (pat s : List Char)
    (h : startsWithL pat s = true) : hasSubstrL pat s = true := by
  cases s with
  | nil => rw [hasSubstrL, h]
  | cons c t => rw [hasSubstrL, h, Bool.true_or]

theorem hasSubstrL_append_left (pat x y : List Char)
    (h : hasSubstrL pat x = true) : hasSubstrL pat (x ++ y) = true := by
  induction x with
  | nil =>
    rw [hasSubstrL] at h
    exact hasSubstrL_of_startsWith pat y (startsWithL_append_of pat [] y h)
  | cons c x ih =>
    rw [hasSubstrL, Bool.or_eq_true] at h
    rcases h with h | h
    · exact hasSubstrL_of_startsWith _ _ (startsWithL_append_of pat (c :: x) y h)
    · rw [List.cons_append, hasSubstrL, ih h, Bool.or_true]

theorem hasSubstrL_of_prefix_pat (a b s : List Char)
    (h : hasSubstrL (a ++ b) s = true) : hasSubstrL a s = true := by
  induction s with
  | nil =>
    rw [hasSubstrL, startsWithL_iff] at h
    obtain ⟨r, hr⟩ := h
    rcases List.append_eq_nil.mp ((List.append_assoc a b r).symm ▸ hr.symm) with ⟨ha, _⟩
    rw [hasSubstrL, ha, startsWithL, dropLit]
    rfl
  | cons c t ih =>
    rw [hasSubstrL, Bool.or_eq_true] at h
    rcases h with h | h
    · rw [startsWithL_iff] at h
      obtain ⟨r, hr⟩ := h
      refine hasSubstrL_of_startsWith _ _ ?_
      rw [startsWithL_iff]
      exact ⟨b ++ r, by rw [hr, List.append_assoc]⟩
    · rw [hasSubstrL, ih h, Bool.or_true]

theorem countOcc_nil_of_ne (pat : List Char) (hp : pat ≠ []) :
    countOcc pat [] = 0 := by
  have : startsWithL pat [] = false := by
    cases pat with
    | nil => exact absurd rfl hp
    | cons p ps => rfl
  simp [countOcc, this]

theorem countOcc_eq_zero_iff (pat s : List Char) (hp : pat ≠ []) :
    countOcc pat s = 0 ↔ hasSubstrL pat s = false := by
  induction s with
  | nil =>
    rw [countOcc_nil_of_ne pat hp, hasSubstrL]
    cases pat with
    | nil => exact absurd rfl hp
    | cons p ps => simp [startsWithL, dropLit]
  | cons c t ih =>
    rw [countOcc, hasSubstrL]
    cases hsw : startsWithL pat (c :: t) <;> simp [hsw, ih]

theorem countOcc_append_nl (pat x y : List Char) (hp : pat ≠ [])
    (hnl : '\n' ∉ pat) :
    countOcc pat (x ++ '\n' :: y) = countOcc pat x + countOcc pat y := by
  induction x with
  | nil =>
    have h0 : startsWithL pat ([] ++ '\n' :: y) = startsWithL pat [] :=
      startsWithL_append_nl pat [] y hnl
    have h1 : startsWithL pat [] = false := by
      cases pat with
      | nil => exact absurd rfl hp
      | cons p ps => rfl
    rw [countOcc_nil_of_ne pat hp]
    rw [List.nil_append] at h0 ⊢
    rw [countOcc, h0, h1]
    simp
  | cons c x ih =>
    have hsw := startsWithL_append_nl pat (c :: x) y hnl
    rw [List.cons_append] at hsw
    rw [List.cons_append, countOcc, countOcc, hsw, ih]
    omega

theorem countOcc_ws_of_head (pat l : List Char) (c0 : Char)
    (hph : pat.head? = some c0) (hc0 : isPyWs c0 = false)
    (hl : l.all isPyWs = true) : countOcc pat l = 0 := by
  have hp : pat ≠ [] := by
    intro h
    rw [h] at hph
    exact Option.noConfusion hph
  induction l with
  | nil => exact countOcc_nil_of_ne pat hp
  | cons c t ih =>
    rw [List.all_cons, Bool.and_eq_true] at hl
    have hsw : startsWithL pat (c :: t) = false := by
      cases pat with
      | nil => exact absurd rfl hp
      | cons p ps =>
        have hpc : p = c0 := by
          rw [List.head?] at hph
          exact Option.some.inj hph
        subst hpc
        have : ¬ (p = c) := by
          intro h
          rw [h] at hc0
          rw [hl.1] at hc0
          exact Bool.noConfusion hc0
        simp [startsWithL, dropLit, this]
    rw [countOcc, hsw, ih hl.2]
    simp

/-! ## splitNl / joinNl -/

theorem splitNl_ne_nil (s : List Char) : splitNl s ≠ [] := by
  cases s with
  | nil =>
    intro h
    exact List.noConfusion h
  | cons c t =>
    rw [splitNl]
    by_cases h : (c == '\n') = true
    · rw [if_pos h]
      intro hc
      exact List.noConfusion hc
    · rw [if_neg h]
      cases hs : splitNl t <;> (intro hc; exact List.noConfusion hc)

theorem joinNl_splitNl (s : List Char) : joinNl (splitNl s) = s := by
  induction s with
  | nil => rfl
  | cons c t ih =>
    rw [splitNl]
    by_cases h : c = '\n'
    · subst h
      rw [if_pos (by rfl)]
      cases ht : splitNl t with
      | nil => exact absurd ht (splitNl_ne_nil t)
      | cons l ls =>
        rw [joinNl]
        rw [ht] at ih
        exact congrArg (fun x => '\n' :: x) ih
  -- non-newline head
    · rw [if_neg (by simpa using h)]
      cases ht : splitNl t with
      | nil => exact absurd ht (splitNl_ne_nil t)
      | cons l ls =>
        rw [ht] at ih
        cases ls with
        | nil =>
          rw [joinNl]
          rw [joinNl] at ih
          exact congrArg (fun x => c :: x) ih
        | cons l2 ls2 =>
          rw [joinNl]
          rw [joinNl] at ih
          exact congrArg (fun x => c :: x) ih

theorem splitNl_append_nl (a b : List Char) :
    splitNl (a ++ '\n' :: b) = splitNl a ++ splitNl b := by
  induction a with
  | nil =>
    show splitNl ('\n' :: b) = [[]] ++ splitNl b
    rw [splitNl, if_pos (by rfl)]
    rfl
  | cons c a2 ih =>
    show splitNl (c :: (a2 ++ '\n' :: b)) = splitNl (c :: a2) ++ splitNl b
    rw [splitNl, splitNl]
    by_cases h : (c == '\n') = true
    · rw [if_pos h, if_pos h, ih]
      rfl
    · rw [if_neg h, if_neg h, ih]
      cases ha : splitNl a2 with
      | nil => exact absurd ha (splitNl_ne_nil a2)
      | cons l ls => rfl

theorem splitNl_no_nl (a : List Char) (h : '\n' ∉ a) : splitNl a = [a] := by
  induction a with
  | nil => rfl
  | cons c a2 ih =>
    rw [splitNl, if_neg (by simpa using fun hc : c = '\n' => h (hc ▸ List.mem_cons_self c a2)),
      ih fun hm => h (List.mem_cons_of_mem c hm)]

theorem splitNl_lines_no_nl (s : List Char) :
    ∀ l ∈ splitNl s, '\n' ∉ l := by
  induction s with
  | nil =>
    intro l hl
    rw [splitNl, List.mem_singleton] at hl
    subst hl
    simp
  | cons c t ih =>
    intro l hl
    rw [splitNl] at hl
    by_cases h : c = '\n'
    · rw [if_pos (by simpa using h), List.mem_cons] at hl
      rcases hl with rfl | hl
      · simp
      · exact ih l hl
    · rw [if_neg (by simpa using h)] at hl
      cases ht : splitNl t with
      | nil => exact absurd ht (splitNl_ne_nil t)
      | cons l0 ls =>
        rw [ht, List.mem_cons] at hl
        rcases hl with rfl | hl
        · intro hm
          rcases List.mem_cons.mp hm with hc | hm2
          · exact h hc.symm
          · exact ih l0 (ht ▸ List.mem_cons_self l0 ls) hm2
        · exact ih l (ht ▸ List.mem_cons_of_mem l0 hl)

theorem joinNl_append (xs ys : List (List Char)) (hx : xs ≠ []) (hy : ys ≠ []) :
    joinNl (xs ++ ys) = joinNl xs ++ '\n' :: joinNl ys := by
  induction xs with
  | nil => exact absurd rfl hx
  | cons l xs2 ih =>
    cases xs2 with
    | nil =>
      cases ys with
      | nil => exact absurd rfl hy
      | cons y ys2 => simp [joinNl]
    | cons l2 xs3 =>
      have h2 : joinNl (l2 :: (xs3 ++ ys)) = joinNl (l2 :: xs3) ++ '\n' :: joinNl ys :=
        ih (by simp)
      calc joinNl (l :: l2 :: (xs3 ++ ys))
          = l ++ '\n' :: joinNl (l2 :: (xs3 ++ ys)) := by rw [joinNl]
        _ = l ++ '\n' :: (joinNl (l2 :: xs3) ++ '\n' :: joinNl ys) := by rw [h2]
        _ = (l ++ '\n' :: joinNl (l2 :: xs3)) ++ '\n' :: joinNl ys := by simp
        _ = joinNl (l :: l2 :: xs3) ++ '\n' :: joinNl ys := by rw [joinNl]

theorem splitNl_joinNl (ls : List (List Char)) (h : ls ≠ [])
    (hnl : ∀ l ∈ ls, '\n' ∉ l) : splitNl (joinNl ls) = ls := by
  induction ls with
  | nil => exact absurd rfl h
  | cons l ls2 ih =>
    cases ls2 with
    | nil =>
      rw [joinNl, splitNl_no_nl l (hnl l (List.mem_cons_self l []))]
    | cons l2 ls3 =>
      rw [joinNl, splitNl_append_nl,
        splitNl_no_nl l (hnl l (List.mem_cons_self l _)),
        ih (by simp) fun x hx => hnl x (List.mem_cons_of_mem l hx)]
      rfl

/-! ## Collapse scanner lemmas -/

theorem collapseGo_fuel_le (f1 : Nat) : ∀ (f2 : Nat) (s : List Char),
    s.length ≤ f1 → s.length ≤ f2 → collapseGo f1 s = collapseGo f2 s := by
  induction f1 with
  | zero =>
    intro f2 s h1 _
    have hs : s = [] := List.eq_nil_of_length_eq_zero (Nat.le_zero.mp h1)
    subst hs
    cases f2 <;> rfl
  | succ f1 ih =>
    intro f2 s h1 h2
    cases s with
    | nil => cases f2 <;> rfl
    | cons c t =>
      cases f2 with
      | zero => exact absurd h2 (by simp)
      | succ f2 =>
        rw [List.length_cons] at h1 h2
        have h1' : t.length ≤ f1 := Nat.lt_succ_iff.mp (Nat.lt_of_lt_of_le (Nat.lt_succ_self _) h1)
        have h2' : t.length ≤ f2 := Nat.lt_succ_iff.mp (Nat.lt_of_lt_of_le (Nat.lt_succ_self _) h2)
        rw [collapseGo, collapseGo]
        by_cases hc : (c == '\n') = true
        · rw [if_pos hc, if_pos hc]
          cases hw : wsLastNl t with
          | none =>
            dsimp only
            rw [ih f2 t h1' h2']
          | some k =>
            have hd1 : (t.drop (k + 1)).length ≤ f1 :=
              Nat.le_trans (by rw [List.length_drop]; omega) h1'
            have hd2 : (t.drop (k + 1)).length ≤ f2 :=
              Nat.le_trans (by rw [List.length_drop]; omega) h2'
            dsimp only
            rw [ih f2 (t.drop (k + 1)) hd1 hd2]
        · rw [if_neg hc, if_neg hc, ih f2 t h1' h2']

theorem collapse_cons_nonNl (c : Char) (t : List Char) (h : (c == '\n') = false) :
    collapseBlanks (c :: t) = c :: collapseBlanks t := by
  rw [collapseBlanks, collapseBlanks, List.length_cons, collapseGo,
    if_neg (by rw [h]; exact Bool.noConfusion)]

theorem collapse_cons_nl_none (t : List Char) (h : wsLastNl t = none) :
    collapseBlanks ('\n' :: t) = '\n' :: collapseBlanks t := by
  rw [collapseBlanks, collapseBlanks, List.length_cons, collapseGo,
    if_pos (by rfl), h]

theorem collapse_cons_nl_some (t : List Char) (k : Nat) (h : wsLastNl t = some k) :
    collapseBlanks ('\n' :: t) = '\n' :: collapseBlanks (t.drop (k + 1)) := by
  rw [collapseBlanks, collapseBlanks, List.length_cons, collapseGo,
    if_pos (by rfl), h]
  dsimp only
  rw [collapseGo_fuel_le t.length (t.drop (k + 1)).length (t.drop (k + 1))
    (by rw [List.length_drop]; omega) (Nat.le_refl _)]

theorem wsLastNl_spec (t : List Char) : ∀ (k : Nat), wsLastNl t = some k →
    (t.take (k + 1)).all isPyWs = true ∧ t.get? k = some '\n' := by
  induction t with
  | nil =>
    intro k h
    exact Option.noConfusion h
  | cons c t ih =>
    intro k h
    rw [wsLastNl] at h
    by_cases hc : isPyWs c = true
    · rw [if_pos hc] at h
      cases hw : wsLastNl t with
      | some k2 =>
        rw [hw] at h
        have hk : k = k2 + 1 := (Option.some.inj h).symm
        subst hk
        obtain ⟨ha, hg⟩ := ih k2 hw
        constructor
        · have htake : (c :: t).take (k2 + 1 + 1) = c :: t.take (k2 + 1) := rfl
          rw [htake, List.all_cons, hc, ha]
          rfl
        · exact hg
      | none =>
        rw [hw] at h
        by_cases hnl : (c == '\n') = true
        · rw [if_pos hnl] at h
          have hk : k = 0 := (Option.some.inj h).symm
          subst hk
          have hceq : c = '\n' := by
            have := hnl
            simpa using this
          subst hceq
          constructor
          · simp [hc]
          · rfl
        · rw [if_neg hnl] at h
          exact Option.noConfusion h
    · rw [if_neg hc] at h
      exact Option.noConfusion h

theorem wsLastNl_drop (t : List Char) : ∀ (k : Nat), wsLastNl t = some k →
    wsLastNl (t.drop (k + 1)) = none := by
  induction t with
  | nil =>
    intro k h
    exact Option.noConfusion h
  | cons c t ih =>
    intro k h
    rw [wsLastNl] at h
    by_cases hc : isPyWs c = true
    · rw [if_pos hc] at h
      cases hw : wsLastNl t with
      | some k2 =>
        rw [hw] at h
        have hk : k = k2 + 1 := (Option.some.inj h).symm
        subst hk
        simpa using ih k2 hw
      | none =>
        rw [hw] at h
        by_cases hnl : (c == '\n') = true
        · rw [if_pos hnl] at h
          have hk : k = 0 := (Option.some.inj h).symm
          subst hk
          simpa using hw
        · rw [if_neg hnl] at h
          exact Option.noConfusion h
    · rw [if_neg hc] at h
      exact Option.noConfusion h

theorem isPyWs_nl : isPyWs '\n' = true := rfl

theorem beq_nl_false_of_not_ws (c : Char) (h : isPyWs c = false) :
    (c == '\n') = false := by
  cases hb : (c == '\n') with
  | false => rfl
  | true =>
    have : c = '\n' := by simpa using hb
    rw [this, isPyWs_nl] at h
    exact Bool.noConfusion h

theorem wsLastNl_collapse_none (t : List Char) (h : wsLastNl t = none) :
    wsLastNl (collapseBlanks t) = none := by
  induction t with
  | nil => rfl
  | cons c t ih =>
    rw [wsLastNl] at h
    by_cases hc : isPyWs c = true
    · rw [if_pos hc] at h
      cases hw : wsLastNl t with
      | some k2 =>
        rw [hw] at h
        exact Option.noConfusion h
      | none =>
        rw [hw] at h
        by_cases hnl : (c == '\n') = true
        · rw [if_pos hnl] at h
          exact Option.noConfusion h
        · rw [if_neg hnl] at h
          rw [collapse_cons_nonNl c t (by simpa using hnl)]
          rw [wsLastNl, if_pos hc, ih hw, if_neg hnl]
    · rw [if_neg hc] at h
      rw [collapse_cons_nonNl c t (beq_nl_false_of_not_ws c (by simpa using hc))]
      rw [wsLastNl, if_neg hc]

theorem hasBlankRun_collapse_aux (n : Nat) : ∀ (Z : List Char), Z.length ≤ n →
    hasBlankRun (collapseBlanks Z) = false := by
  induction n with
  | zero =>
    intro Z h
    have hz : Z = [] := List.eq_nil_of_length_eq_zero (Nat.le_zero.mp h)
    subst hz
    rfl
  | succ n ih =>
    intro Z h
    cases Z with
    | nil => rfl
    | cons c t =>
      rw [List.length_cons] at h
      have ht : t.length ≤ n := by omega
      by_cases hc : (c == '\n') = true
      · have hceq : c = '\n' := by simpa using hc
        subst hceq
        cases hw : wsLastNl t with
        | none =>
          rw [collapse_cons_nl_none t hw, hasBlankRun,
            wsLastNl_collapse_none t hw, ih t ht]
          rfl
        | some k =>
          have hd : (t.drop (k + 1)).length ≤ n :=
            Nat.le_trans (by rw [List.length_drop]; omega) ht
          rw [collapse_cons_nl_some t k hw, hasBlankRun,
            wsLastNl_collapse_none _ (wsLastNl_drop t k hw), ih _ hd]
          rfl
      · have hcf : (c == '\n') = false := by simpa using hc
        rw [collapse_cons_nonNl c t hcf, hasBlankRun, hcf, ih t ht]
        rfl

theorem hasBlankRun_collapse (Z : List Char) :
    hasBlankRun (collapseBlanks Z) = false :=
  hasBlankRun_collapse_aux Z.length Z (Nat.le_refl _)

theorem collapse_noNl_append (a r : List Char) (h : '\n' ∉ a) :
    collapseBlanks (a ++ r) = a ++ collapseBlanks r := by
  induction a with
  | nil => rfl
  | cons c a2 ih =>
    have hc : (c == '\n') = false := by
      cases hb : (c == '\n') with
      | false => rfl
      | true =>
        have : c = '\n' := by simpa using hb
        exact absurd (this ▸ List.mem_cons_self c a2) h
    rw [List.cons_append, collapse_cons_nonNl c (a2 ++ r) hc,
      ih fun hm => h (List.mem_cons_of_mem c hm)]
    rfl

theorem collapse_noNl (Z : List Char) (h : '\n' ∉ Z) : collapseBlanks Z = Z := by
  have h2 := collapse_noNl_append Z [] h
  rw [List.append_nil, show collapseBlanks [] = [] from rfl, List.append_nil] at h2
  exact h2

theorem exists_first_nl (Z : List Char) (h : '\n' ∈ Z) :
    ∃ l0 Z2, Z = l0 ++ '\n' :: Z2 ∧ '\n' ∉ l0 := by
  induction Z with
  | nil => exact absurd h (List.not_mem_nil '\n')
  | cons c t ih =>
    by_cases hc : c = '\n'
    · subst hc
      exact ⟨[], t, rfl, List.not_mem_nil '\n'⟩
    · have hmem : '\n' ∈ t := by
        rcases List.mem_cons.mp h with hh | hh
        · exact absurd hh.symm hc
        · exact hh
      obtain ⟨l0, Z2, heq, hnl⟩ := ih hmem
      exact ⟨c :: l0, Z2, by rw [heq]; rfl,
        fun hm => by
          rcases List.mem_cons.mp hm with hh | hh
          · exact hc hh.symm
          · exact hnl hh⟩

/-! ## Non-whitespace lines survive the blank-line collapse verbatim -/

theorem filter_lines_ws (w : List Char) (h : w.all isPyWs = true) :
    (splitNl w).filter nonWsLine = [] := by
  induction w with
  | nil => rfl
  | cons c t ih =>
    rw [List.all_cons, Bool.and_eq_true] at h
    rw [splitNl]
    by_cases hc : (c == '\n') = true
    · rw [if_pos hc, List.filter_cons]
      have : nonWsLine [] = false := rfl
      rw [this]
      simp only [Bool.false_eq_true, if_false]
      exact ih h.2
    · rw [if_neg hc]
      cases hs : splitNl t with
      | nil => exact absurd hs (splitNl_ne_nil t)
      | cons l ls =>
        have ihs : (l :: ls).filter nonWsLine = [] := hs ▸ ih h.2
        rw [List.filter_cons] at ihs ⊢
        have hl : nonWsLine l = false := by
          cases hnl : nonWsLine l with
          | false => rfl
          | true =>
            rw [hnl] at ihs
            simp at ihs
        have hcl : nonWsLine (c :: l) = false := by
          rw [nonWsLine, List.any_cons, h.1]
          rw [nonWsLine] at hl
          rw [hl]
          rfl
        rw [hcl]
        rw [hl] at ihs
        simpa using ihs

theorem take_all_ws_of_take_succ (t : List Char) (k : Nat)
    (h : (t.take (k + 1)).all isPyWs = true) : (t.take k).all isPyWs = true := by
  rw [List.all_eq_true] at h ⊢
  intro x hx
  exact h x (List.take_subset k (t.take (k + 1))
    (by rw [List.take_take, Nat.min_eq_left (Nat.le_succ k)]; exact hx))

theorem splitNl_drop_decomp (t : List Char) (k : Nat) (h : wsLastNl t = some k) :
    splitNl t = splitNl (t.take k) ++ splitNl (t.drop (k + 1)) ∧
    (t.take k).all isPyWs = true := by
  obtain ⟨ha, hg⟩ := wsLastNl_spec t k h
  have hlt : k < t.length := by
    cases hlt : Nat.decLt k t.length with
    | isTrue p => exact p
    | isFalse p =>
      rw [List.get?_eq_none.mpr (Nat.le_of_not_lt p)] at hg
      exact Option.noConfusion hg
  have hsplit : t = t.take k ++ '\n' :: t.drop (k + 1) := by
    have h1 : t.take (k + 1) = t.take k ++ ['\n'] := by
      rw [List.take_succ]
      have hk : t[k]? = some '\n' := by
        rw [← List.get?_eq_getElem?]
        exact hg
      rw [hk]
      rfl
    have h2 : t = t.take (k + 1) ++ t.drop (k + 1) := (List.take_append_drop _ t).symm
    rw [h1] at h2
    rw [List.append_assoc] at h2
    exact h2
  constructor
  · conv in splitNl t => rw [hsplit]
    exact splitNl_append_nl _ _
  · exact take_all_ws_of_take_succ t k ha

theorem filter_lines_collapse_aux (n : Nat) : ∀ (Z : List Char), Z.length ≤ n →
    (splitNl (collapseBlanks Z)).filter nonWsLine = (splitNl Z).filter nonWsLine := by
  induction n with
  | zero =>
    intro Z h
    have hz : Z = [] := List.eq_nil_of_length_eq_zero (Nat.le_zero.mp h)
    subst hz
    rfl
  | succ n ih =>
    intro Z hlen
    by_cases hmem : '\n' ∈ Z
    · obtain ⟨l0, Z2, heq, hnl⟩ := exists_first_nl Z hmem
      subst heq
      rw [collapse_noNl_append l0 ('\n' :: Z2) hnl]
      have hlen2 : Z2.length ≤ n := by
        rw [List.length_append, List.length_cons] at hlen
        omega
      cases hw : wsLastNl Z2 with
      | none =>
        rw [collapse_cons_nl_none Z2 hw, splitNl_append_nl, splitNl_append_nl,
          List.filter_append, List.filter_append, ih Z2 hlen2]
      | some k =>
        have hdlen : (Z2.drop (k + 1)).length ≤ n := by
          rw [List.length_drop]
          omega
        obtain ⟨hdec, hws⟩ := splitNl_drop_decomp Z2 k hw
        rw [collapse_cons_nl_some Z2 k hw, splitNl_append_nl, splitNl_append_nl,
          List.filter_append, List.filter_append, ih _ hdlen, hdec,
          List.filter_append, filter_lines_ws _ hws]
        rw [List.nil_append]
    · rw [collapse_noNl Z hmem]

theorem filter_lines_collapse (Z : List Char) :
    (splitNl (collapseBlanks Z)).filter nonWsLine = (splitNl Z).filter nonWsLine :=
  filter_lines_collapse_aux Z.length Z (Nat.le_refl _)

/-! ## The collapse preserves a non-whitespace last character -/

theorem getLast?_append_right (x y : List Char) (h : y ≠ []) :
    (x ++ y).getLast? = y.getLast? := by
  induction x with
  | nil => rfl
  | cons c x2 ih =>
    rw [List.cons_append]
    cases hxy : x2 ++ y with
    | nil =>
      rcases List.append_eq_nil.mp hxy with ⟨_, h2⟩
      exact absurd h2 h
    | cons z zs =>
      rw [List.getLast?_cons_cons, ← hxy]
      exact ih

theorem all_ws_getLast (w : List Char) (c : Char) (h : w.all isPyWs = true)
    (hg : w.getLast? = some c) : isPyWs c = true := by
  have hx : c ∈ w.getLast? := by rw [Option.mem_def, hg]
  obtain ⟨hne, hco⟩ := List.mem_getLast?_eq_getLast hx
  rw [List.all_eq_true] at h
  exact h c (hco ▸ List.getLast_mem hne)

theorem collapse_getLast_aux (n : Nat) : ∀ (Z : List Char) (c : Char),
    Z.length ≤ n → isPyWs c = false → Z.getLast? = some c →
    (collapseBlanks Z).getLast? = some c := by
  induction n with
  | zero =>
    intro Z c h _ hg
    have hz : Z = [] := List.eq_nil_of_length_eq_zero (Nat.le_zero.mp h)
    subst hz
    exact Option.noConfusion hg
  | succ n ih =>
    intro Z c hlen hws hg
    by_cases hmem : '\n' ∈ Z
    · obtain ⟨l0, Z2, heq, hnl⟩ := exists_first_nl Z hmem
      subst heq
      rw [collapse_noNl_append l0 ('\n' :: Z2) hnl]
      have hlen2 : Z2.length ≤ n := by
        rw [List.length_append, List.length_cons] at hlen
        omega
      have hz2ne : Z2 ≠ [] := by
        intro hZ2
        subst hZ2
        rw [getLast?_append_right l0 ['\n'] (by intro hx; exact List.noConfusion hx)] at hg
        have : c = '\n' := (Option.some.inj hg).symm
        rw [this, isPyWs_nl] at hws
        exact Bool.noConfusion hws
      have hgz2 : Z2.getLast? = some c := by
        rw [getLast?_append_right l0 ('\n' :: Z2)
          (by intro hx; exact List.noConfusion hx)] at hg
        cases Z2 with
        | nil => exact absurd rfl hz2ne
        | cons z zs => rw [List.getLast?_cons_cons] at hg; exact hg
      cases hw : wsLastNl Z2 with
      | none =>
        rw [collapse_cons_nl_none Z2 hw,
          getLast?_append_right l0 _ (by intro hx; exact List.noConfusion hx)]
        have hcne : collapseBlanks Z2 ≠ [] := by
          intro hnil
          have := ih Z2 c hlen2 hws hgz2
          rw [hnil] at this
          exact Option.noConfusion this
        cases hcc : collapseBlanks Z2 with
        | nil => exact absurd hcc hcne
        | cons z zs =>
          rw [List.getLast?_cons_cons]
          rw [← hcc]
          exact ih Z2 c hlen2 hws hgz2
      | some k =>
        have hdlen : (Z2.drop (k + 1)).length ≤ n := by
          rw [List.length_drop]
          omega
        have hgd : (Z2.drop (k + 1)).getLast? = some c := by
          obtain ⟨hdec, _⟩ := splitNl_drop_decomp Z2 k hw
          obtain ⟨ha, hgk⟩ := wsLastNl_spec Z2 k hw
          have hsplit : Z2 = Z2.take (k + 1) ++ Z2.drop (k + 1) :=
            (List.take_append_drop _ Z2).symm
          by_cases hdne : Z2.drop (k + 1) = []
          · rw [hdne, List.append_nil] at hsplit
            rw [hsplit] at hgz2
            have := all_ws_getLast _ c ha hgz2
            rw [this] at hws
            exact Bool.noConfusion hws
          · rw [hsplit, getLast?_append_right _ _ hdne] at hgz2
            exact hgz2
        rw [collapse_cons_nl_some Z2 k hw,
          getLast?_append_right l0 _ (by intro hx; exact List.noConfusion hx)]
        have hcne : collapseBlanks (Z2.drop (k + 1)) ≠ [] := by
          intro hnil
          have := ih _ c hdlen hws hgd
          rw [hnil] at this
          exact Option.noConfusion this
        cases hcc : collapseBlanks (Z2.drop (k + 1)) with
        | nil => exact absurd hcc hcne
        | cons z zs =>
          rw [List.getLast?_cons_cons]
          rw [← hcc]
          exact ih _ c hdlen hws hgd
    · rw [collapse_noNl Z hmem]
      exact hg

theorem collapse_getLast (Z : List Char) (c : Char) (hws : isPyWs c = false)
    (hg : Z.getLast? = some c) : (collapseBlanks Z).getLast? = some c :=
  collapse_getLast_aux Z.length Z c (Nat.le_refl _) hws hg

/-! ## Removal-pass lemmas -/

theorem dirLineMatches_nil (p : List Char) : dirLineMatches p [] = false := rfl

theorem closeWsTail_cons_of (c : Char) (t : List Char) (h : closeWsTail t = true) :
    closeWsTail (c :: t) = true := by
  cases t with
  | nil =>
    rw [closeWsTail] at h
    exact Bool.noConfusion h
  | cons b t2 => rw [closeWsTail, h, Bool.or_true]

theorem closeWsTail_close (x : List Char) : closeWsTail (x ++ [')', ';']) = true := by
  induction x with
  | nil => decide
  | cons c x2 ih => exact closeWsTail_cons_of c _ ih

theorem dropWhile_ws_append (a l : List Char) (h : a.all isPyWs = true) :
    (a ++ l).dropWhile isPyWs = l.dropWhile isPyWs := by
  induction a with
  | nil => rfl
  | cons c a2 ih =>
    rw [List.all_cons, Bool.and_eq_true] at h
    rw [List.cons_append, List.dropWhile_cons, if_pos h.1, ih h.2]

theorem dropWhile_not_ws_head (c : Char) (l : List Char) (h : isPyWs c = false) :
    (c :: l).dropWhile isPyWs = c :: l := by
  rw [List.dropWhile_cons, if_neg (by rw [h]; exact Bool.noConfusion)]

theorem dirLineMatches_ws_pre (p a l : List Char) (h : a.all isPyWs = true) :
    dirLineMatches p (a ++ l) = dirLineMatches p l := by
  unfold dirLineMatches
  rw [dropWhile_ws_append a l h]

theorem nonWsLine_ws_pre (a l : List Char) (h : a.all isPyWs = true) :
    nonWsLine (a ++ l) = nonWsLine l := by
  rw [nonWsLine, nonWsLine, List.any_append]
  have ha : a.any (fun c => ! isPyWs c) = false := by
    rw [List.any_eq_false]
    intro x hx
    rw [List.all_eq_true] at h
    rw [h x hx]
    intro hc
    exact Bool.noConfusion hc
  rw [ha, Bool.false_or]

theorem dropLit_append_both (x y z : List Char) :
    dropLit (x ++ y) (x ++ z) = dropLit y z := by
  induction x with
  | nil => rfl
  | cons c x2 ih =>
    rw [List.cons_append, List.cons_append, dropLit, if_pos (by simp)]
    exact ih

theorem build_line_matches_self (it : EdifyItem) :
    dirLineMatches it.path (build_edify_line it) = true := by
  obtain ⟨p, d, m⟩ := it
  show dirLineMatches p (build_edify_line ⟨p, d, m⟩) = true
  have hclose : ∀ M : List Char,
      closeWsTail (sl " \"uid\", 0, \"gid\", 0, \"mode\", " ++ (M ++ sl ");")) = true := by
    intro M
    have hassoc : sl " \"uid\", 0, \"gid\", 0, \"mode\", " ++ (M ++ sl ");") =
        (sl " \"uid\", 0, \"gid\", 0, \"mode\", " ++ M) ++ [')', ';'] :=
      (List.append_assoc _ _ _).symm
    rw [hassoc]
    exact closeWsTail_close _
  cases d with
  | true =>
    have hb : build_edify_line ⟨p, true, m⟩ =
        sl "set_metadata_recursive(\"" ++ (p ++ (sl "\", \"uid\", 0, \"gid\", 0, \"mode\", " ++
          ((if m.length = 3 then '0' :: m else m) ++ sl ");"))) := by
      rw [build_edify_line]
      dsimp only
      rw [if_pos (by rfl)]
      rw [List.append_assoc, List.append_assoc, List.append_assoc]
    rw [hb]
    have key : dirLineMatches p (sl "set_metadata_recursive(\"" ++
        (p ++ (sl "\", \"uid\", 0, \"gid\", 0, \"mode\", " ++
          ((if m.length = 3 then '0' :: m else m) ++ sl ");")))) =
        (match dropLit (p ++ sl "\"") (p ++ (sl "\", \"uid\", 0, \"gid\", 0, \"mode\", " ++
            ((if m.length = 3 then '0' :: m else m) ++ sl ");"))) with
        | none => false
        | some r4 =>
          match dropLit (sl ",") (r4.dropWhile isPyWs) with
          | none => false
          | some r5 => closeWsTail r5) := rfl
    rw [key, dropLit_append_both p (sl "\"")]
    exact hclose _
  | false =>
    have hb : build_edify_line ⟨p, false, m⟩ =
        sl "set_metadata(\"" ++ (p ++ (sl "\", \"uid\", 0, \"gid\", 0, \"mode\", " ++
          ((if m.length = 3 then '0' :: m else m) ++
            sl ", \"context\", \"u:object_r:system_file:s0\");"))) := by
      rw [build_edify_line]
      dsimp only
      rw [if_neg (fun hc => Bool.noConfusion hc)]
      rw [List.append_assoc, List.append_assoc, List.append_assoc]
    rw [hb]
    have key : dirLineMatches p (sl "set_metadata(\"" ++
        (p ++ (sl "\", \"uid\", 0, \"gid\", 0, \"mode\", " ++
          ((if m.length = 3 then '0' :: m else m) ++
            sl ", \"context\", \"u:object_r:system_file:s0\");")))) =
        (match dropLit (p ++ sl "\"") (p ++ (sl "\", \"uid\", 0, \"gid\", 0, \"mode\", " ++
            ((if m.length = 3 then '0' :: m else m) ++
              sl ", \"context\", \"u:object_r:system_file:s0\");"))) with
        | none => false
        | some r4 =>
          match dropLit (sl ",") (r4.dropWhile isPyWs) with
          | none => false
          | some r5 => closeWsTail r5) := rfl
    rw [key, dropLit_append_both p (sl "\"")]
    show (match dropLit (sl ",")
        ((sl ", \"uid\", 0, \"gid\", 0, \"mode\", " ++
          ((if m.length = 3 then '0' :: m else m) ++
            sl ", \"context\", \"u:object_r:system_file:s0\");")).dropWhile isPyWs) with
      | none => false
      | some r5 => closeWsTail r5) = true
    show closeWsTail (sl " \"uid\", 0, \"gid\", 0, \"mode\", " ++
        ((if m.length = 3 then '0' :: m else m) ++
          sl ", \"context\", \"u:object_r:system_file:s0\");")) = true
    have hassoc2 : sl " \"uid\", 0, \"gid\", 0, \"mode\", " ++
        ((if m.length = 3 then '0' :: m else m) ++
          sl ", \"context\", \"u:object_r:system_file:s0\");") =
        (sl " \"uid\", 0, \"gid\", 0, \"mode\", " ++
          ((if m.length = 3 then '0' :: m else m) ++
            sl ", \"context\", \"u:object_r:system_file:s0\"")) ++ [')', ';'] := by
      rw [List.append_assoc, List.append_assoc]
      rfl
    rw [hassoc2]
    exact closeWsTail_close _

theorem zeroPass_eq_map (items : List EdifyItem) (ls : List (List Char)) :
    zeroPass items ls =
      ls.map fun l => if items.any (fun it => dirLineMatches it.path l) then [] else l := by
  induction items generalizing ls with
  | nil =>
    rw [zeroPass, List.foldl_nil]
    have : (fun l : List Char =>
        if ([] : List EdifyItem).any (fun it => dirLineMatches it.path l) then [] else l)
        = fun l => l := by
      funext l
      rw [List.any_nil]
      rfl
    rw [this]
    exact (List.map_id ls).symm
  | cons it its ih =>
    rw [zeroPass, List.foldl_cons, show ∀ ls2, List.foldl
        (fun acc it2 => acc.map (zeroLine it2)) ls2 its = zeroPass its ls2
      from fun ls2 => rfl, ih, List.map_map]
    apply List.map_congr_left
    intro l _
    show (if its.any (fun it2 => dirLineMatches it2.path (zeroLine it l)) then []
        else zeroLine it l) =
      if (it :: its).any (fun it2 => dirLineMatches it2.path l) then [] else l
    rw [List.any_cons]
    by_cases hm : dirLineMatches it.path l = true
    · rw [zeroLine, if_pos hm, hm, Bool.true_or, if_pos rfl]
      have : its.any (fun it2 => dirLineMatches it2.path ([] : List Char)) = false := by
        rw [List.any_eq_false]
        intro x _
        rw [dirLineMatches_nil]
        intro hc
        exact Bool.noConfusion hc
      rw [this]
      rfl
    · have hm' : dirLineMatches it.path l = false := by
        cases hx : dirLineMatches it.path l with
        | false => rfl
        | true => exact absurd hx hm
      rw [zeroLine, if_neg hm, hm', Bool.false_or]

/-! ## Strip lemmas -/

theorem filter_lines_lstrip (W : List Char) : ∀ (Y : List Char),
    W.all isPyWs = true →
    headTrimmed ((splitNl (W ++ Y)).filter nonWsLine) ((splitNl Y).filter nonWsLine) := by
  induction W with
  | nil =>
    intro Y _
    cases hf : (splitNl Y).filter nonWsLine with
    | nil => exact Or.inl ⟨by rw [List.nil_append, hf], hf ▸ rfl⟩
    | cons h rest =>
      refine Or.inr ⟨[], h, rest, rfl, ?_, rfl⟩
      rw [List.nil_append, hf]
      rfl
  | cons c W2 ih =>
    intro Y hall
    rw [List.all_cons, Bool.and_eq_true] at hall
    rw [List.cons_append, splitNl]
    by_cases hc : (c == '\n') = true
    · rw [if_pos hc, List.filter_cons]
      rw [show nonWsLine [] = false from rfl]
      simp only [Bool.false_eq_true, if_false]
      exact ih Y hall.2
    · rw [if_neg hc]
      cases hs : splitNl (W2 ++ Y) with
      | nil => exact absurd hs (splitNl_ne_nil _)
      | cons l ls =>
        have hit := ih Y hall.2
        rw [hs] at hit
        have hcl : nonWsLine (c :: l) = nonWsLine l := by
          have : (c :: l) = [c] ++ l := rfl
          rw [this]
          exact nonWsLine_ws_pre [c] l (by rw [List.all_cons, hall.1]; rfl)
        rw [List.filter_cons] at hit ⊢
        cases hnw : nonWsLine l with
        | false =>
          rw [hnw] at hit
          rw [hcl, hnw]
          simpa using hit
        | true =>
          rw [hnw] at hit
          rw [hcl, hnw]
          simp only [if_pos rfl] at hit ⊢
          rcases hit with ⟨hfull, _⟩ | ⟨a, h0, rest, haws, hfull, hstr⟩
          · exact absurd hfull (by intro hx; exact List.noConfusion hx)
          · refine Or.inr ⟨c :: a, h0, rest, ?_, ?_, hstr⟩
            · rw [List.all_cons, hall.1, haws]
              rfl
            · have hl : l = a ++ h0 := (List.cons.inj hfull).1
              have hls : ls.filter nonWsLine = rest := (List.cons.inj hfull).2
              rw [hl, hls]
              rfl

theorem lstripL_decomp (s : List Char) :
    s = s.takeWhile isPyWs ++ lstripL s ∧ (s.takeWhile isPyWs).all isPyWs = true := by
  constructor
  · rw [lstripL, List.takeWhile_append_dropWhile]
  · rw [List.all_eq_true]
    intro x hx
    exact List.mem_takeWhile_imp hx

theorem lstripL_head_not_ws (s : List Char) (c : Char) (h : (lstripL s).head? = some c) :
    isPyWs c = false := by
  rw [lstripL] at h
  have := List.head?_dropWhile_not isPyWs s
  rw [h] at this
  simpa using this

theorem rstripL_eq_self (y : List Char) (c : Char) (hws : isPyWs c = false)
    (h : y.getLast? = some c) : rstripL y = y := by
  rw [rstripL]
  have hrev : y.reverse.head? = some c := by
    rw [List.head?_reverse]
    exact h
  cases hy : y.reverse with
  | nil =>
    rw [hy] at hrev
    exact Option.noConfusion hrev
  | cons z zs =>
    rw [hy] at hrev
    have hz : z = c := Option.some.inj hrev
    subst hz
    rw [List.dropWhile_cons, if_neg (by rw [hws]; exact Bool.noConfusion)]
    rw [← hy, List.reverse_reverse]

theorem lstripL_eq_self (y : List Char) (c : Char) (hws : isPyWs c = false)
    (h : y.head? = some c) : lstripL y = y := by
  cases y with
  | nil => exact Option.noConfusion h
  | cons z zs =>
    have hz : z = c := Option.some.inj h
    subst hz
    exact dropWhile_not_ws_head z zs hws

/-! ## The text component of the removal fold -/

theorem ensure_fold_text (items : List EdifyItem) : ∀ (st : List Char × Nat × Nat),
    (items.foldl
      (fun (acc : List Char × Nat × Nat) it =>
        let t2 := removeDirLines it.path acc.1
        if t2.2 > 0 then (t2.1, acc.2.1, acc.2.2 + 1) else (t2.1, acc.2.1 + 1, acc.2.2))
      st).1 = joinNl (zeroPass items (splitNl st.1)) := by
  induction items with
  | nil =>
    intro st
    rw [List.foldl_nil, zeroPass, List.foldl_nil, joinNl_splitNl]
  | cons it its ih =>
    intro st
    rw [List.foldl_cons]
    have hstep := ih ((fun (acc : List Char × Nat × Nat) it2 =>
      let t2 := removeDirLines it2.path acc.1
      if t2.2 > 0 then (t2.1, acc.2.1, acc.2.2 + 1) else (t2.1, acc.2.1 + 1, acc.2.2)) st it)
    rw [hstep]
    have htext : ((fun (acc : List Char × Nat × Nat) it2 =>
        let t2 := removeDirLines it2.path acc.1
        if t2.2 > 0 then (t2.1, acc.2.1, acc.2.2 + 1) else (t2.1, acc.2.1 + 1, acc.2.2)) st it).1
        = joinNl ((splitNl st.1).map (zeroLine it)) := by
      dsimp only
      by_cases hgt : (removeDirLines it.path st.1).2 > 0
      · rw [if_pos hgt]
        rfl
      · rw [if_neg hgt]
        rfl
    rw [htext]
    have hmapnl : ∀ l ∈ (splitNl st.1).map (zeroLine it), '\n' ∉ l := by
      intro l hl
      rw [List.mem_map] at hl
      obtain ⟨l0, hl0, heq⟩ := hl
      rw [zeroLine] at heq
      by_cases hm : dirLineMatches it.path l0 = true
      · rw [if_pos hm] at heq
        rw [← heq]
        simp
      · rw [if_neg hm] at heq
        rw [← heq]
        exact splitNl_lines_no_nl st.1 l0 hl0
    have hne : (splitNl st.1).map (zeroLine it) ≠ [] := by
      intro hx
      exact splitNl_ne_nil st.1 (List.map_eq_nil_iff.mp hx)
    rw [splitNl_joinNl _ hne hmapnl]
    rw [show zeroPass (it :: its) (splitNl st.1)
        = zeroPass its ((splitNl st.1).map (zeroLine it)) from by
      rw [zeroPass, List.foldl_cons]
      rfl]

theorem mergeText_decomp (s : List Char) (items : List EdifyItem) :
    mergeText s items = mergeBody s items ++ blockSuffix (items.map build_edify_line) := by
  rw [mergeText, ensure_edify_stat_lines]
  dsimp only
  rw [mergeBody, ensure_fold_text items (s, 0, 0)]

/-! ## Block-removal scanner lemmas -/

theorem hasSubstrL_nil (pat : List Char) (hp : pat ≠ []) : hasSubstrL pat [] = false := by
  cases pat with
  | nil => exact absurd rfl hp
  | cons p ps => rfl

theorem dropWhile_append_left (p : Char → Bool) (Y W : List Char)
    (h : Y.dropWhile p ≠ []) : (Y ++ W).dropWhile p = Y.dropWhile p ++ W := by
  induction Y with
  | nil => exact absurd rfl h
  | cons a Y2 ih =>
    rw [List.dropWhile_cons] at h
    rw [List.cons_append, List.dropWhile_cons, List.dropWhile_cons]
    by_cases hpa : p a = true
    · rw [if_pos hpa] at h
      rw [if_pos hpa, if_pos hpa, ih h]
    · rw [if_neg hpa, if_neg hpa]
      rfl

theorem dropWhile_nl_append (ns Z : List Char) (h : ∀ c ∈ ns, c = '\n') :
    (ns ++ Z).dropWhile (fun c => c == '\n') = Z.dropWhile (fun c => c == '\n') := by
  induction ns with
  | nil => rfl
  | cons a ns2 ih =>
    have ha : a = '\n' := h a (List.mem_cons_self a ns2)
    rw [List.cons_append, List.dropWhile_cons, if_pos (by simp [ha])]
    exact ih fun c hc => h c (List.mem_cons_of_mem a hc)

theorem tryBlockAt_eq_none (s : List Char) (h : hasSubstrL startMarker s = false) :
    tryBlockAt s = none := by
  cases hd : dropLit startMarker (s.dropWhile (fun c => c == '\n')) with
  | none =>
    simp only [tryBlockAt]
    rw [hd]
  | some r2 =>
    exfalso
    have hsw : startsWithL startMarker (s.dropWhile (fun c => c == '\n')) = true := by
      rw [startsWithL, hd]
      rfl
    have hsub : hasSubstrL startMarker (s.dropWhile (fun c => c == '\n')) = true :=
      hasSubstrL_of_startsWith _ _ hsw
    have hlift : hasSubstrL startMarker
        (s.takeWhile (fun c => c == '\n') ++ s.dropWhile (fun c => c == '\n')) = true :=
      hasSubstrL_append_right _ _ _ hsub
    rw [List.takeWhile_append_dropWhile, h] at hlift
    exact Bool.noConfusion hlift

theorem blockRemoveGo_id (fuel : Nat) : ∀ (s : List Char),
    hasSubstrL startMarker s = false → blockRemoveGo fuel s = s := by
  induction fuel with
  | zero =>
    intro s _
    rfl
  | succ f ih =>
    intro s h
    cases s with
    | nil => rfl
    | cons c t =>
      have hn := tryBlockAt_eq_none (c :: t) h
      rw [hasSubstrL] at h
      have ht : hasSubstrL startMarker t = false := by
        cases hx : hasSubstrL startMarker t with
        | false => rfl
        | true =>
          rw [hx, Bool.or_true] at h
          exact Bool.noConfusion h
      rw [blockRemoveGo, hn]
      show c :: blockRemoveGo f t = c :: t
      rw [ih t ht]

theorem blockRemoveAll_id (s : List Char) (h : hasSubstrL startMarker s = false) :
    blockRemoveAll s = s := blockRemoveGo_id _ s h

theorem blockRemoveGo_nil (fuel : Nat) : blockRemoveGo fuel [] = [] := by
  cases fuel with
  | zero => rfl
  | succ f => rfl

theorem dropThroughFirst_append_end : ∀ (u : List Char),
    hasSubstrL endMarker u = false → u.getLast? = some '\n' →
    dropThroughFirst endMarker (u ++ endMarker) = some [] := by
  intro u
  induction u with
  | nil =>
    intro _ hl
    exact Option.noConfusion hl
  | cons a u2 ih =>
    intro hfree hlast
    have hne : (a :: u2) ≠ [] := by
      intro hx
      exact List.noConfusion hx
    have hgl : (a :: u2).getLast hne = '\n' := by
      have h2 := List.getLast?_eq_getLast (a :: u2) hne
      rw [hlast] at h2
      exact (Option.some.inj h2).symm
    have hdec : (a :: u2).dropLast ++ ['\n'] = a :: u2 := by
      rw [← hgl]
      exact List.dropLast_append_getLast hne
    have hsw : startsWithL endMarker ((a :: u2) ++ endMarker) = false := by
      rw [← hdec, List.append_assoc, List.singleton_append]
      rw [startsWithL_append_nl endMarker _ _ (by decide)]
      cases hx : startsWithL endMarker ((a :: u2).dropLast) with
      | false => rfl
      | true =>
        exfalso
        have h1 : hasSubstrL endMarker ((a :: u2).dropLast) = true :=
          hasSubstrL_of_startsWith _ _ hx
        have h2 : hasSubstrL endMarker ((a :: u2).dropLast ++ ['\n']) = true :=
          hasSubstrL_append_left _ _ _ h1
        rw [hdec, hfree] at h2
        exact Bool.noConfusion h2
    have hd : dropLit endMarker ((a :: u2) ++ endMarker) = none := by
      cases hx : dropLit endMarker ((a :: u2) ++ endMarker) with
      | none => rfl
      | some r =>
        rw [startsWithL, hx] at hsw
        exact Bool.noConfusion hsw
    rw [List.cons_append] at hd
    rw [List.cons_append, dropThroughFirst, hd]
    cases u2 with
    | nil =>
      show dropThroughFirst endMarker ([] ++ endMarker) = some []
      rw [List.nil_append]
      rfl
    | cons b u3 =>
      have hfree2 : hasSubstrL endMarker (b :: u3) = false := by
        rw [hasSubstrL] at hfree
        cases hx : hasSubstrL endMarker (b :: u3) with
        | false => rfl
        | true =>
          rw [hx, Bool.or_true] at hfree
          exact Bool.noConfusion hfree
      have hlast2 : (b :: u3).getLast? = some '\n' := by
        rw [List.getLast?_cons_cons] at hlast
        exact hlast
      exact ih hfree2 hlast2

theorem tryBlockAt_block (ns M : List Char) (hns : ∀ c ∈ ns, c = '\n')
    (hfreeM : hasSubstrL endMarker M = false) (hlastM : M.getLast? = some '\n') :
    tryBlockAt ('\n' :: (ns ++ (startMarker ++ (M ++ endMarker)))) = some [] := by
  have hr : ('\n' :: (ns ++ (startMarker ++ (M ++ endMarker)))).dropWhile (fun c => c == '\n')
      = startMarker ++ (M ++ endMarker) := by
    rw [List.dropWhile_cons, if_pos (by decide)]
    rw [dropWhile_nl_append ns _ hns]
    rw [show startMarker ++ (M ++ endMarker)
        = '#' :: (sl " === Tool: auto-permission ===" ++ (M ++ endMarker)) from rfl]
    rw [List.dropWhile_cons, if_neg (by decide)]
  simp only [tryBlockAt]
  rw [hr, dropLit_self_append]
  show (match dropThroughFirst endMarker (M ++ endMarker) with
        | none => none
        | some r3 => some (r3.dropWhile (fun c => c == '\n'))) = some []
  rw [dropThroughFirst_append_end M hfreeM hlastM]
  rfl

theorem tryBlockAt_mid_none (X Y B2 : List Char)
    (hsub : hasSubstrL startMarker X = false)
    (hY : ∃ Z, Z ++ Y = X) (hne : Y ≠ [])
    (hlast : ∀ c, X.getLast? = some c → (c == '\n') = false) :
    tryBlockAt (Y ++ '\n' :: B2) = none := by
  obtain ⟨Z, hZ⟩ := hY
  have hYlast : Y.getLast? = X.getLast? := by
    rw [← hZ]
    exact (getLast?_append_right Z Y hne).symm
  have hdw : Y.dropWhile (fun c => c == '\n') ≠ [] := by
    intro hx
    have hall := List.dropWhile_eq_nil_iff.mp hx
    have hgl : Y.getLast hne ∈ Y := List.getLast_mem hne
    have h1 : (Y.getLast hne == '\n') = true := hall _ hgl
    have h2 : Y.getLast? = some (Y.getLast hne) := List.getLast?_eq_getLast Y hne
    have h3 : (Y.getLast hne == '\n') = false := by
      refine hlast _ ?_
      rw [← hYlast]
      exact h2
    rw [h1] at h3
    exact Bool.noConfusion h3
  have hr : (Y ++ '\n' :: B2).dropWhile (fun c => c == '\n')
      = Y.dropWhile (fun c => c == '\n') ++ '\n' :: B2 :=
    dropWhile_append_left _ Y _ hdw
  have hsw : startsWithL startMarker
      ((Y ++ '\n' :: B2).dropWhile (fun c => c == '\n')) = false := by
    rw [hr, startsWithL_append_nl startMarker _ _ (by decide)]
    cases hx : startsWithL startMarker (Y.dropWhile (fun c => c == '\n')) with
    | false => rfl
    | true =>
      exfalso
      have h1 := hasSubstrL_of_startsWith _ _ hx
      have h2 : hasSubstrL startMarker
          (Y.takeWhile (fun c => c == '\n') ++ Y.dropWhile (fun c => c == '\n')) = true :=
        hasSubstrL_append_right _ _ _ h1
      rw [List.takeWhile_append_dropWhile] at h2
      have h3 : hasSubstrL startMarker (Z ++ Y) = true :=
        hasSubstrL_append_right _ _ _ h2
      rw [hZ, hsub] at h3
      exact Bool.noConfusion h3
  cases hd : dropLit startMarker ((Y ++ '\n' :: B2).dropWhile (fun c => c == '\n')) with
  | none =>
    simp only [tryBlockAt]
    rw [hd]
  | some r2 =>
    rw [startsWithL, hd] at hsw
    exact Bool.noConfusion hsw

theorem blockRemoveGo_skip (B : List Char) : ∀ (X : List Char) (fuel : Nat),
    (∀ Y Z, Z ++ Y = X → Y ≠ [] → tryBlockAt (Y ++ B) = none) →
    blockRemoveGo (X.length + fuel) (X ++ B) = X ++ blockRemoveGo fuel B := by
  intro X
  induction X with
  | nil =>
    intro fuel _
    rw [List.length_nil, Nat.zero_add, List.nil_append, List.nil_append]
  | cons c X2 ih =>
    intro fuel hY
    have h1 : tryBlockAt ((c :: X2) ++ B) = none :=
      hY (c :: X2) [] rfl (by intro hx; exact List.noConfusion hx)
    rw [List.cons_append] at h1
    have hlen : (c :: X2).length + fuel = (X2.length + fuel) + 1 := by
      rw [List.length_cons]
      omega
    have hprem : ∀ Y Z, Z ++ Y = X2 → Y ≠ [] → tryBlockAt (Y ++ B) = none := by
      intro Y Z hZ hne
      exact hY Y (c :: Z) (by rw [List.cons_append, hZ]) hne
    rw [hlen, List.cons_append, blockRemoveGo, h1]
    show c :: blockRemoveGo (X2.length + fuel) (X2 ++ B) = (c :: X2) ++ blockRemoveGo fuel B
    rw [ih fuel hprem]
    rfl

theorem blockRemoveAll_block (X ns M : List Char)
    (hns : ∀ c ∈ ns, c = '\n')
    (hfreeX : hasSubstrL startMarker X = false)
    (hlastX : ∀ c, X.getLast? = some c → (c == '\n') = false)
    (hfreeM : hasSubstrL endMarker M = false)
    (hlastM : M.getLast? = some '\n') :
    blockRemoveAll (X ++ '\n' :: (ns ++ (startMarker ++ (M ++ endMarker)))) = X := by
  have hprem : ∀ Y Z, Z ++ Y = X → Y ≠ [] →
      tryBlockAt (Y ++ '\n' :: (ns ++ (startMarker ++ (M ++ endMarker)))) = none := by
    intro Y Z hZ hne
    exact tryBlockAt_mid_none X Y _ hfreeX ⟨Z, hZ⟩ hne hlastX
  rw [blockRemoveAll, List.length_append]
  have hstep : X.length + ('\n' :: (ns ++ (startMarker ++ (M ++ endMarker)))).length + 1
      = X.length + (('\n' :: (ns ++ (startMarker ++ (M ++ endMarker)))).length + 1) := by
    omega
  rw [hstep, blockRemoveGo_skip _ X _ hprem]
  have hB : blockRemoveGo (('\n' :: (ns ++ (startMarker ++ (M ++ endMarker)))).length + 1)
      ('\n' :: (ns ++ (startMarker ++ (M ++ endMarker)))) = [] := by
    rw [blockRemoveGo, tryBlockAt_block ns M hns hfreeM hlastM]
    exact blockRemoveGo_nil _
  rw [hB, List.append_nil]

theorem blockRemoveAll_block_nohead (M : List Char)
    (hfreeM : hasSubstrL endMarker M = false) (hlastM : M.getLast? = some '\n') :
    blockRemoveAll (startMarker ++ (M ++ endMarker)) = [] := by
  have htry : tryBlockAt (startMarker ++ (M ++ endMarker)) = some [] := by
    have hr : (startMarker ++ (M ++ endMarker)).dropWhile (fun c => c == '\n')
        = startMarker ++ (M ++ endMarker) := by
      rw [show startMarker ++ (M ++ endMarker)
          = '#' :: (sl " === Tool: auto-permission ===" ++ (M ++ endMarker)) from rfl]
      rw [List.dropWhile_cons, if_neg (by decide)]
    simp only [tryBlockAt]
    rw [hr, dropLit_self_append]
    show (match dropThroughFirst endMarker (M ++ endMarker) with
          | none => none
          | some r3 => some (r3.dropWhile (fun c => c == '\n'))) = some []
    rw [dropThroughFirst_append_end M hfreeM hlastM]
    rfl
  rw [blockRemoveAll]
  rw [show startMarker ++ (M ++ endMarker)
      = '#' :: (sl " === Tool: auto-permission ===" ++ (M ++ endMarker)) from rfl] at htry ⊢
  rw [List.length_cons, blockRemoveGo, htry]
  exact blockRemoveGo_nil _

/-! ## Occurrence counting across joined lines -/

theorem countOcc_joinNl_cons (pat : List Char) (hp : pat ≠ []) (hnl : '\n' ∉ pat) :
    ∀ (l : List Char) (ls : List (List Char)),
    countOcc pat (joinNl (l :: ls)) = countOcc pat l + countOcc pat (joinNl ls) := by
  intro l ls
  cases ls with
  | nil =>
    show countOcc pat l = countOcc pat l + countOcc pat []
    rw [countOcc_nil_of_ne pat hp]
    rfl
  | cons l2 ls2 =>
    rw [joinNl, countOcc_append_nl pat _ _ hp hnl]

theorem countOcc_joinNl_zero (pat : List Char) (hp : pat ≠ []) (hnl : '\n' ∉ pat) :
    ∀ (ls : List (List Char)), (∀ l ∈ ls, countOcc pat l = 0) →
    countOcc pat (joinNl ls) = 0 := by
  intro ls
  induction ls with
  | nil =>
    intro _
    exact countOcc_nil_of_ne pat hp
  | cons l ls2 ih =>
    intro h
    rw [countOcc_joinNl_cons pat hp hnl l ls2, h l (List.mem_cons_self l ls2),
      ih fun x hx => h x (List.mem_cons_of_mem l hx)]

theorem hasSubstrL_joinNl_free (pat : List Char) (hp : pat ≠ []) (hnl : '\n' ∉ pat)
    (ls : List (List Char)) (h : ∀ l ∈ ls, hasSubstrL pat l = false) :
    hasSubstrL pat (joinNl ls) = false := by
  rw [← countOcc_eq_zero_iff pat _ hp]
  exact countOcc_joinNl_zero pat hp hnl ls
    fun l hl => (countOcc_eq_zero_iff pat l hp).mpr (h l hl)

theorem hasSubstrL_joinNl_of_mem (pat : List Char) (ls : List (List Char)) (l : List Char)
    (h : hasSubstrL pat l = true) : l ∈ ls → hasSubstrL pat (joinNl ls) = true := by
  induction ls with
  | nil =>
    intro hl
    exact absurd hl (List.not_mem_nil l)
  | cons l0 ls2 ih =>
    intro hl
    cases ls2 with
    | nil =>
      rcases List.mem_singleton.mp hl with rfl
      exact h
    | cons l1 ls3 =>
      rw [joinNl]
      rcases List.mem_cons.mp hl with rfl | hmem
      · exact hasSubstrL_append_left _ _ _ h
      · have h2 := ih hmem
        have h3 : hasSubstrL pat ('\n' :: joinNl (l1 :: ls3)) = true := by
          rw [hasSubstrL, h2, Bool.or_true]
        exact hasSubstrL_append_right _ _ _ h3

theorem lines_free (pat X : List Char) (h : hasSubstrL pat X = false) :
    ∀ l ∈ splitNl X, hasSubstrL pat l = false := by
  intro l hl
  cases hx : hasSubstrL pat l with
  | false => rfl
  | true =>
    exfalso
    have h2 := hasSubstrL_joinNl_of_mem pat (splitNl X) l hx hl
    rw [joinNl_splitNl, h] at h2
    exact Bool.noConfusion h2

theorem joinNl_getLast_not_nl (A : List (List Char)) (hnl : ∀ l ∈ A, '\n' ∉ l)
    (hne : ∀ l ∈ A, l ≠ []) : ∀ c, (joinNl A).getLast? = some c → (c == '\n') = false := by
  induction A with
  | nil =>
    intro c hc
    exact Option.noConfusion hc
  | cons l A2 ih =>
    cases A2 with
    | nil =>
      intro c hc
      have hc2 : l.getLast? = some c := hc
      have hlne : l ≠ [] := hne l (List.mem_cons_self _ _)
      have hmem : c ∈ l := by
        have h2 := List.getLast?_eq_getLast l hlne
        rw [hc2] at h2
        have h3 : l.getLast hlne = c := (Option.some.inj h2).symm
        rw [← h3]
        exact List.getLast_mem hlne
      cases hb : (c == '\n') with
      | false => rfl
      | true =>
        exfalso
        have : c = '\n' := by simpa using hb
        exact (hnl l (List.mem_cons_self _ _)) (this ▸ hmem)
    | cons l2 A3 =>
      intro c hc
      have hl2ne : joinNl (l2 :: A3) ≠ [] := by
        cases A3 with
        | nil => exact hne l2 (List.mem_cons_of_mem l (List.mem_cons_self _ _))
        | cons l3 A4 =>
          rw [joinNl]
          intro hx
          have := congrArg List.length hx
          simp at this
      rw [joinNl, getLast?_append_right l _ (by intro hx; exact List.noConfusion hx)] at hc
      rw [show ('\n' :: joinNl (l2 :: A3)) = ['\n'] ++ joinNl (l2 :: A3) from rfl,
        getLast?_append_right _ _ hl2ne] at hc
      exact ih (fun x hx => hnl x (List.mem_cons_of_mem _ hx))
        (fun x hx => hne x (List.mem_cons_of_mem _ hx)) c hc

theorem blockRemoveAll_lines (A G : List (List Char))
    (hA : ∀ l ∈ A, hasSubstrL startMarker l = false)
    (hAnl : ∀ l ∈ A, '\n' ∉ l)
    (hAne : ∀ l ∈ A, l ≠ [])
    (hG : ∀ l ∈ G, hasSubstrL endMarker l = false)
    (hGnl : ∀ l ∈ G, '\n' ∉ l) :
    blockRemoveAll (joinNl (A ++ startMarker :: (G ++ [endMarker]))) = joinNl A := by
  have hMfree : ∀ (Mi : List Char), Mi = '\n' :: (joinNl G ++ ['\n']) →
      hasSubstrL endMarker Mi = false := by
    intro Mi hMi
    subst hMi
    rw [← countOcc_eq_zero_iff _ _ (by decide)]
    rw [show ('\n' :: (joinNl G ++ ['\n'])) = [] ++ '\n' :: (joinNl G ++ '\n' :: []) from by simp]
    rw [countOcc_append_nl _ _ _ (by decide) (by decide),
      countOcc_append_nl _ _ _ (by decide) (by decide),
      countOcc_nil_of_ne _ (by decide),
      countOcc_joinNl_zero _ (by decide) (by decide) G
        fun l hl => (countOcc_eq_zero_iff _ l (by decide)).mpr (hG l hl)]
  have hMlast : ('\n' :: (joinNl G ++ ['\n'])).getLast? = some '\n' := by
    rw [show ('\n' :: (joinNl G ++ ['\n'])) = ['\n'] ++ (joinNl G ++ ['\n']) from rfl]
    rw [getLast?_append_right _ _ (by
      intro hx
      have := congrArg List.length hx
      simp at this)]
    rw [getLast?_append_right _ _ (by intro hx; exact List.noConfusion hx)]
    rfl
  have hinner : joinNl (startMarker :: (G ++ [endMarker]))
      = startMarker ++ '\n' :: (joinNl G ++ '\n' :: endMarker) ∨
      (G = [] ∧ joinNl (startMarker :: (G ++ [endMarker])) = startMarker ++ '\n' :: endMarker) := by
    cases G with
    | nil =>
      refine Or.inr ⟨rfl, ?_⟩
      rfl
    | cons g G2 =>
      refine Or.inl ?_
      rw [show startMarker :: ((g :: G2) ++ [endMarker])
          = [startMarker] ++ ((g :: G2) ++ [endMarker]) from rfl]
      rw [joinNl_append [startMarker] _ (by intro hx; exact List.noConfusion hx)
        (by intro hx; exact List.noConfusion hx)]
      rw [joinNl_append (g :: G2) [endMarker] (by intro hx; exact List.noConfusion hx)
        (by intro hx; exact List.noConfusion hx)]
      rfl
  cases hAe : A with
  | nil =>
    rw [List.nil_append]
    show blockRemoveAll (joinNl (startMarker :: (G ++ [endMarker]))) = []
    rcases hinner with hin | ⟨hG0, hin⟩
    · rw [hin]
      rw [show startMarker ++ '\n' :: (joinNl G ++ '\n' :: endMarker)
          = startMarker ++ (('\n' :: (joinNl G ++ ['\n'])) ++ endMarker) from by simp]
      exact blockRemoveAll_block_nohead _ (hMfree _ rfl) hMlast
    · rw [hin]
      rw [show startMarker ++ '\n' :: endMarker = startMarker ++ (['\n'] ++ endMarker) from rfl]
      exact blockRemoveAll_block_nohead ['\n'] (by decide) rfl
  | cons a0 A2 =>
    rw [← hAe]
    have hAne2 : A ≠ [] := by
      rw [hAe]
      intro hx
      exact List.noConfusion hx
    rw [joinNl_append A _ hAne2 (by intro hx; exact List.noConfusion hx)]
    have hfreeX : hasSubstrL startMarker (joinNl A) = false :=
      hasSubstrL_joinNl_free _ (by decide) (by decide) A hA
    have hlastX := joinNl_getLast_not_nl A hAnl hAne
    rcases hinner with hin | ⟨hG0, hin⟩
    · rw [hin]
      rw [show joinNl A ++ '\n' :: (startMarker ++ '\n' :: (joinNl G ++ '\n' :: endMarker))
          = joinNl A ++ '\n' :: ([] ++ (startMarker ++ (('\n' :: (joinNl G ++ ['\n'])) ++ endMarker)))
          from by simp]
      exact blockRemoveAll_block (joinNl A) [] _ (by intro c hc; exact absurd hc (List.not_mem_nil c))
        hfreeX hlastX (hMfree _ rfl) hMlast
    · rw [hin]
      rw [show joinNl A ++ '\n' :: (startMarker ++ '\n' :: endMarker)
          = joinNl A ++ '\n' :: ([] ++ (startMarker ++ (['\n'] ++ endMarker))) from rfl]
      exact blockRemoveAll_block (joinNl A) [] ['\n']
        (by intro c hc; exact absurd hc (List.not_mem_nil c))
        hfreeX hlastX (by decide) rfl

/-! ## Whitespace-line facts -/

theorem nonWsLine_false_all_ws (l : List Char) (h : nonWsLine l = false) :
    l.all isPyWs = true := by
  rw [nonWsLine, List.any_eq_false] at h
  rw [List.all_eq_true]
  intro x hx
  have h2 := h x hx
  cases hw : isPyWs x with
  | true => rfl
  | false =>
    exfalso
    refine h2 ?_
    rw [hw]
    rfl

theorem nonWsLine_all_ws (l : List Char) (h : l.all isPyWs = true) :
    nonWsLine l = false := by
  rw [nonWsLine, List.any_eq_false]
  intro x hx
  rw [List.all_eq_true] at h
  rw [h x hx]
  intro hc
  exact Bool.noConfusion hc

theorem nonWsLine_ws_suffix (l a : List Char) (ha : a.all isPyWs = true) :
    nonWsLine (l ++ a) = nonWsLine l := by
  rw [nonWsLine, nonWsLine, List.any_append]
  have h2 : a.any (fun c => !isPyWs c) = false := by
    rw [List.any_eq_false]
    intro x hx
    rw [List.all_eq_true] at ha
    rw [ha x hx]
    intro hc
    exact Bool.noConfusion hc
  rw [h2, Bool.or_false]

theorem lines_all_ws (W : List Char) (h : W.all isPyWs = true) :
    ∀ l ∈ splitNl W, l.all isPyWs = true := by
  intro l hl
  cases hx : nonWsLine l with
  | false => exact nonWsLine_false_all_ws l hx
  | true =>
    exfalso
    have h2 : l ∈ (splitNl W).filter nonWsLine := List.mem_filter.mpr ⟨hl, hx⟩
    rw [filter_lines_ws W h] at h2
    exact absurd h2 (List.not_mem_nil l)

/-! ## Blank-run monotonicity -/

theorem hasBlankRun_suffix_false (x y : List Char) (h : hasBlankRun (x ++ y) = false) :
    hasBlankRun y = false := by
  induction x with
  | nil => exact h
  | cons c x2 ih =>
    rw [List.cons_append, hasBlankRun] at h
    cases hx : hasBlankRun (x2 ++ y) with
    | false => exact ih hx
    | true =>
      rw [hx, Bool.or_true] at h
      exact Bool.noConfusion h

theorem wsLastNl_append_isSome (t y : List Char) (h : (wsLastNl t).isSome = true) :
    (wsLastNl (t ++ y)).isSome = true := by
  induction t with
  | nil =>
    rw [wsLastNl] at h
    exact Bool.noConfusion h
  | cons c t2 ih =>
    rw [wsLastNl] at h
    rw [List.cons_append, wsLastNl]
    by_cases hws : isPyWs c = true
    · rw [if_pos hws] at h ⊢
      cases hw2 : wsLastNl t2 with
      | some k =>
        have h2 := ih (by rw [hw2]; rfl)
        cases hw3 : wsLastNl (t2 ++ y) with
        | some k2 => rfl
        | none =>
          rw [hw3] at h2
          exact Bool.noConfusion h2
      | none =>
        rw [hw2] at h
        cases hw3 : wsLastNl (t2 ++ y) with
        | some k2 => rfl
        | none => exact h
    · rw [if_neg hws] at h
      exact Bool.noConfusion h

theorem hasBlankRun_append_lift_left (x y : List Char) (h : hasBlankRun x = true) :
    hasBlankRun (x ++ y) = true := by
  induction x with
  | nil => exact Bool.noConfusion h
  | cons c t ih =>
    rw [hasBlankRun, Bool.or_eq_true] at h
    rw [List.cons_append, hasBlankRun]
    rcases h with h1 | h2
    · rw [Bool.and_eq_true] at h1
      rw [h1.1, wsLastNl_append_isSome t y h1.2]
      rfl
    · rw [ih h2, Bool.or_true]

theorem hasBlankRun_prefix_false (x y : List Char) (h : hasBlankRun (x ++ y) = false) :
    hasBlankRun x = false := by
  cases hx : hasBlankRun x with
  | false => rfl
  | true =>
    rw [hasBlankRun_append_lift_left x y hx] at h
    exact Bool.noConfusion h

theorem hasBlankRun_prefix_lift (x y : List Char) (h : hasBlankRun y = true) :
    hasBlankRun (x ++ y) = true := by
  induction x with
  | nil => exact h
  | cons c x2 ih =>
    rw [List.cons_append, hasBlankRun, ih, Bool.or_true]

theorem wsLastNl_ws_nl_isSome (l : List Char) (y : List Char) (h : l.all isPyWs = true) :
    (wsLastNl (l ++ '\n' :: y)).isSome = true := by
  induction l with
  | nil =>
    rw [List.nil_append, wsLastNl, if_pos (by decide)]
    cases hw : wsLastNl y with
    | some k => rfl
    | none => rfl
  | cons c l2 ih =>
    rw [List.all_cons, Bool.and_eq_true] at h
    rw [List.cons_append, wsLastNl, if_pos h.1]
    have h2 := ih h.2
    cases hw : wsLastNl (l2 ++ '\n' :: y) with
    | some k => rfl
    | none =>
      rw [hw] at h2
      exact Bool.noConfusion h2

/-! ## All lines of a stripped, blank-run-free text are non-whitespace -/

theorem splitNl_head_cons (c : Char) (t : List Char) (h : (c == '\n') = false) :
    ∃ l ls, splitNl (c :: t) = (c :: l) :: ls := by
  rw [splitNl, if_neg (by rw [h]; exact Bool.noConfusion)]
  cases hs : splitNl t with
  | nil => exact absurd hs (splitNl_ne_nil t)
  | cons l ls => exact ⟨l, ls, rfl⟩

theorem first_line_nonWs (c : Char) (t : List Char) (hc : isPyWs c = false) :
    ∀ l0 ls0, splitNl (c :: t) = l0 :: ls0 → nonWsLine l0 = true := by
  intro l0 ls0 h
  obtain ⟨l, ls, hs⟩ := splitNl_head_cons c t (beq_nl_false_of_not_ws c hc)
  rw [hs] at h
  have h2 : l0 = c :: l := (List.cons.inj h).1.symm
  rw [h2, nonWsLine, List.any_cons, hc]
  rfl

theorem all_lines_nonWs_aux (n : Nat) : ∀ (V : List Char), V.length ≤ n →
    hasBlankRun V = false →
    (∀ l0 ls0, splitNl V = l0 :: ls0 → nonWsLine l0 = true) →
    (∀ c, V.getLast? = some c → isPyWs c = false) →
    ∀ l ∈ splitNl V, nonWsLine l = true := by
  induction n with
  | zero =>
    intro V hlen _ hfirst _
    have hV : V = [] := List.eq_nil_of_length_eq_zero (Nat.le_zero.mp hlen)
    subst hV
    intro l hl
    rcases List.mem_singleton.mp hl with rfl
    exact hfirst [] [] rfl
  | succ n ih =>
    intro V hlen hblank hfirst hlast
    by_cases hmem : '\n' ∈ V
    · obtain ⟨a, b, heq, hanl⟩ := exists_first_nl V hmem
      subst heq
      have hsp : splitNl (a ++ '\n' :: b) = a :: splitNl b := by
        rw [splitNl_append_nl, splitNl_no_nl a hanl]
        rfl
      intro l hl
      rw [hsp] at hl
      rcases List.mem_cons.mp hl with rfl | hlb
      · exact hfirst l (splitNl b) hsp
      · -- recurse into b
        have hblank_nb : hasBlankRun ('\n' :: b) = false :=
          hasBlankRun_suffix_false a _ hblank
        have hblank_b : hasBlankRun b = false := by
          rw [hasBlankRun] at hblank_nb
          cases hx : hasBlankRun b with
          | false => rfl
          | true =>
            rw [hx, Bool.or_true] at hblank_nb
            exact Bool.noConfusion hblank_nb
        have hlast_b : ∀ c, b.getLast? = some c → isPyWs c = false := by
          intro c hc
          have hbne : b ≠ [] := by
            intro hx
            rw [hx] at hc
            exact Option.noConfusion hc
          refine hlast c ?_
          rw [getLast?_append_right a _ (by intro hx; exact List.noConfusion hx)]
          rw [show ('\n' :: b) = ['\n'] ++ b from rfl, getLast?_append_right _ _ hbne]
          exact hc
        have hfirst_b : ∀ l0 ls0, splitNl b = l0 :: ls0 → nonWsLine l0 = true := by
          intro l0 ls0 hsb
          cases hx : nonWsLine l0 with
          | true => rfl
          | false =>
            exfalso
            have hl0ws : l0.all isPyWs = true := nonWsLine_false_all_ws l0 hx
            by_cases hbm : '\n' ∈ b
            · obtain ⟨a2, b2, heq2, hanl2⟩ := exists_first_nl b hbm
              have hsb2 : splitNl b = a2 :: splitNl b2 := by
                rw [heq2, splitNl_append_nl, splitNl_no_nl a2 hanl2]
                rfl
              rw [hsb2] at hsb
              have ha2 : a2 = l0 := (List.cons.inj hsb).1
              have hrun : hasBlankRun ('\n' :: b) = true := by
                rw [heq2, hasBlankRun]
                rw [wsLastNl_ws_nl_isSome a2 b2 (ha2 ▸ hl0ws)]
                rfl
              rw [hrun] at hblank_nb
              exact Bool.noConfusion hblank_nb
            · have hsb2 : splitNl b = [b] := splitNl_no_nl b hbm
              rw [hsb2] at hsb
              have hbl : b = l0 := (List.cons.inj hsb).1
              cases hbe : b with
              | nil =>
                have hg : (a ++ '\n' :: b).getLast? = some '\n' := by
                  rw [hbe, getLast?_append_right a _
                    (by intro hx2; exact List.noConfusion hx2)]
                  rfl
                have := hlast '\n' hg
                rw [show isPyWs '\n' = true from rfl] at this
                exact Bool.noConfusion this
              | cons b0 b3 =>
                have hbne : b ≠ [] := by
                  rw [hbe]
                  intro hx2
                  exact List.noConfusion hx2
                have hg2 := List.getLast?_eq_getLast b hbne
                have hwsd : isPyWs (b.getLast hbne) = true :=
                  all_ws_getLast b _ (hbl ▸ hl0ws) hg2
                have := hlast_b (b.getLast hbne) hg2
                rw [hwsd] at this
                exact Bool.noConfusion this
        have hlen_b : b.length ≤ n := by
          rw [List.length_append, List.length_cons] at hlen
          omega
        exact ih b hlen_b hblank_b hfirst_b hlast_b l hlb
    · intro l hl
      rw [splitNl_no_nl V hmem] at hl
      rcases List.mem_singleton.mp hl with rfl
      exact hfirst l [] (splitNl_no_nl l hmem)

theorem all_lines_nonWs (V : List Char)
    (hblank : hasBlankRun V = false)
    (hfirst : ∀ l0 ls0, splitNl V = l0 :: ls0 → nonWsLine l0 = true)
    (hlast : ∀ c, V.getLast? = some c → isPyWs c = false) :
    ∀ l ∈ splitNl V, nonWsLine l = true :=
  all_lines_nonWs_aux V.length V (Nat.le_refl _) hblank hfirst hlast

/-! ## Structure of `rstrip` at the line level -/

theorem rstripL_decomp (Y : List Char) :
    Y = rstripL Y ++ (Y.reverse.takeWhile isPyWs).reverse ∧
    ((Y.reverse.takeWhile isPyWs).reverse).all isPyWs = true := by
  constructor
  · rw [rstripL, ← List.reverse_append, List.takeWhile_append_dropWhile,
      List.reverse_reverse]
  · rw [List.all_eq_true]
    intro x hx
    exact List.mem_takeWhile_imp (List.mem_reverse.mp hx)

theorem rstripL_getLast_not_ws (Y : List Char) (h : rstripL Y ≠ []) :
    ∀ c, (rstripL Y).getLast? = some c → isPyWs c = false := by
  intro c hc
  rw [rstripL, List.getLast?_reverse] at hc
  have h2 := List.head?_dropWhile_not isPyWs Y.reverse
  rw [hc] at h2
  simpa using h2

theorem head?_append_left (A W : List Char) (h : A ≠ []) : (A ++ W).head? = A.head? := by
  cases A with
  | nil => exact absurd rfl h
  | cons a A2 => rfl

theorem stripL_head_not_ws (X : List Char) :
    ∀ c, (stripL X).head? = some c → isPyWs c = false := by
  intro c hc
  rw [stripL] at hc
  have hne : rstripL (lstripL X) ≠ [] := by
    intro hx
    rw [hx] at hc
    exact Option.noConfusion hc
  have hh := head?_append_left (rstripL (lstripL X))
    (((lstripL X).reverse.takeWhile isPyWs).reverse) hne
  rw [← (rstripL_decomp (lstripL X)).1, hc] at hh
  exact lstripL_head_not_ws X c hh

theorem stripL_getLast_not_ws (X : List Char) :
    ∀ c, (stripL X).getLast? = some c → isPyWs c = false := by
  intro c hc
  rw [stripL] at hc
  have hne : rstripL (lstripL X) ≠ [] := by
    intro hx
    rw [hx] at hc
    exact Option.noConfusion hc
  exact rstripL_getLast_not_ws (lstripL X) hne c hc

theorem hasBlankRun_stripL (X : List Char) (h : hasBlankRun X = false) :
    hasBlankRun (stripL X) = false := by
  have h2 : hasBlankRun (lstripL X) = false :=
    hasBlankRun_suffix_false (X.takeWhile isPyWs) (lstripL X)
      (by rw [← (lstripL_decomp X).1]; exact h)
  rw [stripL]
  exact hasBlankRun_prefix_false _ _ (by rw [← (rstripL_decomp (lstripL X)).1]; exact h2)

theorem splitNl_append_general (W : List Char) (w0 : List Char) (ws0 : List (List Char))
    (h2 : splitNl W = w0 :: ws0) : ∀ (R : List Char) (rs : List (List Char)) (rl : List Char),
    splitNl R = rs ++ [rl] → splitNl (R ++ W) = rs ++ (rl ++ w0) :: ws0 := by
  intro R
  induction R with
  | nil =>
    intro rs rl h1
    cases rs with
    | nil =>
      have hrl : rl = [] := by
        have := (List.cons.inj h1).1
        exact this.symm
      rw [hrl, List.nil_append, List.nil_append, List.nil_append]
      exact h2
    | cons r rs2 =>
      exfalso
      have hl : ([[]] : List (List Char)).length = ((r :: rs2) ++ [rl]).length :=
        congrArg List.length h1
      simp at hl
  | cons c R2 ih =>
    intro rs rl h1
    by_cases hc : (c == '\n') = true
    · rw [splitNl, if_pos hc] at h1
      cases rs with
      | nil =>
        exfalso
        rw [List.nil_append] at h1
        exact splitNl_ne_nil R2 (List.cons.inj h1).2
      | cons r rs2 =>
        have hinj := List.cons.inj h1
        rw [List.cons_append, splitNl, if_pos hc, ih rs2 rl hinj.2, ← hinj.1]
        rfl
    · rw [splitNl, if_neg hc] at h1
      cases hsp : splitNl R2 with
      | nil => exact absurd hsp (splitNl_ne_nil R2)
      | cons m ms =>
        rw [hsp] at h1
        rw [List.cons_append, splitNl, if_neg hc]
        cases rs with
        | nil =>
          rw [List.nil_append] at h1
          have hinj := List.cons.inj h1
          have hstep := ih [] m (by rw [hsp, hinj.2]; rfl)
          rw [hstep, ← hinj.1]
          show (c :: (m ++ w0)) :: ws0 = ((c :: m) ++ w0) :: ws0
          rfl
        | cons r rs2 =>
          have hinj := List.cons.inj h1
          have hstep := ih (m :: rs2) rl (by rw [hsp, hinj.2]; rfl)
          rw [hstep, ← hinj.1]
          show (c :: m) :: (rs2 ++ (rl ++ w0) :: ws0) = ((c :: m) :: rs2) ++ (rl ++ w0) :: ws0
          rfl

theorem filter_lines_rstrip (Y : List Char) :
    tailTrimmed ((splitNl Y).filter nonWsLine) ((splitNl (rstripL Y)).filter nonWsLine) := by
  obtain ⟨hdec, hws⟩ := rstripL_decomp Y
  by_cases hW : (Y.reverse.takeWhile isPyWs).reverse = []
  · refine Or.inl ?_
    have heq : rstripL Y = Y := by
      conv_rhs => rw [hdec]
      rw [hW, List.append_nil]
    rw [heq]
  · obtain ⟨rs, rl, hR⟩ : ∃ rs rl, splitNl (rstripL Y) = rs ++ [rl] := by
      cases hsp : splitNl (rstripL Y) with
      | nil => exact absurd hsp (splitNl_ne_nil _)
      | cons l ls =>
        exact ⟨(l :: ls).dropLast, (l :: ls).getLast (by intro hx; exact List.noConfusion hx),
          (List.dropLast_append_getLast _).symm⟩
    obtain ⟨w0, ws0, hWsp⟩ : ∃ w0 ws0,
        splitNl ((Y.reverse.takeWhile isPyWs).reverse) = w0 :: ws0 := by
      cases hsp : splitNl ((Y.reverse.takeWhile isPyWs).reverse) with
      | nil => exact absurd hsp (splitNl_ne_nil _)
      | cons a b => exact ⟨a, b, rfl⟩
    have hYsp : splitNl Y = rs ++ (rl ++ w0) :: ws0 := by
      conv_lhs => rw [hdec]
      exact splitNl_append_general _ w0 ws0 hWsp (rstripL Y) rs rl hR
    have hwlines := lines_all_ws _ hws
    have hw0 : w0.all isPyWs = true := hwlines w0 (by rw [hWsp]; exact List.mem_cons_self _ _)
    have hfw : ws0.filter nonWsLine = [] := by
      rw [List.filter_eq_nil_iff]
      intro l hl
      have h3 := hwlines l (by rw [hWsp]; exact List.mem_cons_of_mem _ hl)
      rw [nonWsLine_all_ws l h3]
      exact Bool.noConfusion
    have hsuffix : nonWsLine (rl ++ w0) = nonWsLine rl := nonWsLine_ws_suffix rl w0 hw0
    cases hrl : nonWsLine rl with
    | true =>
      have hfull : (splitNl Y).filter nonWsLine = rs.filter nonWsLine ++ [rl ++ w0] := by
        rw [hYsp, List.filter_append, List.filter_cons, if_pos (hsuffix.trans hrl), hfw]
      have hstr : (splitNl (rstripL Y)).filter nonWsLine = rs.filter nonWsLine ++ [rl] := by
        rw [hR, List.filter_append, List.filter_cons, if_pos hrl, List.filter_nil]
      exact Or.inr ⟨rs.filter nonWsLine, rl, w0, hw0, hfull, hstr⟩
    | false =>
      have hfull : (splitNl Y).filter nonWsLine = rs.filter nonWsLine := by
        rw [hYsp, List.filter_append, List.filter_cons,
          if_neg (by intro hx; rw [hsuffix, hrl] at hx; exact Bool.noConfusion hx), hfw,
          List.append_nil]
      have hstr : (splitNl (rstripL Y)).filter nonWsLine = rs.filter nonWsLine := by
        rw [hR, List.filter_append, List.filter_cons,
          if_neg (by intro hx; rw [hrl] at hx; exact Bool.noConfusion hx), List.filter_nil,
          List.append_nil]
      exact Or.inl (hfull.trans hstr.symm)

theorem filter_lines_stripL (X : List Char) :
    ∃ mid, headTrimmed ((splitNl X).filter nonWsLine) mid ∧
      tailTrimmed mid ((splitNl (stripL X)).filter nonWsLine) := by
  refine ⟨(splitNl (lstripL X)).filter nonWsLine, ?_, ?_⟩
  · have h1 := filter_lines_lstrip (X.takeWhile isPyWs) (lstripL X) (lstripL_decomp X).2
    rw [← (lstripL_decomp X).1] at h1
    exact h1
  · exact filter_lines_rstrip (lstripL X)

/-! ## Pipeline transfer of line predicates -/

theorem lines_pipeline_transfer (U : List Char) (P : List Char → Prop)
    (hpre : ∀ a l, a.all isPyWs = true → P (a ++ l) → P l)
    (hsuf : ∀ l a, a.all isPyWs = true → P (l ++ a) → P l)
    (hU : ∀ l ∈ (splitNl U).filter nonWsLine, P l) :
    ∀ l ∈ (splitNl (stripL (collapseBlanks U))).filter nonWsLine, P l := by
  have hcol : ∀ l ∈ (splitNl (collapseBlanks U)).filter nonWsLine, P l := by
    rw [filter_lines_collapse]
    exact hU
  obtain ⟨mid, hhead, htail⟩ := filter_lines_stripL (collapseBlanks U)
  have hmid : ∀ l ∈ mid, P l := by
    rcases hhead with ⟨_, hs⟩ | ⟨a, h, rest, haws, hfull, hstr⟩
    · rw [hs]
      intro l hl
      exact absurd hl (List.not_mem_nil l)
    · rw [hstr]
      intro l hl
      rcases List.mem_cons.mp hl with rfl | hm
      · exact hpre a l haws (hcol (a ++ l) (by rw [hfull]; exact List.mem_cons_self _ _))
      · exact hcol l (by rw [hfull]; exact List.mem_cons_of_mem _ hm)
  rcases htail with heq | ⟨pre, h, a, haws, hfull, hstr⟩
  · rw [← heq]
    exact hmid
  · rw [hstr]
    intro l hl
    rcases List.mem_append.mp hl with hm | hm
    · exact hmid l (by rw [hfull]; exact List.mem_append_left _ hm)
    · rcases List.mem_singleton.mp hm with rfl
      exact hsuf l a haws
        (hmid (l ++ a) (by rw [hfull]; exact List.mem_append_right _ (List.mem_singleton.mpr rfl)))

/-! ## Reconstruction of the stripped collapsed text from its line list -/

theorem splitNl_strip_collapse_nonWs (U : List Char)
    (hne : stripL (collapseBlanks U) ≠ []) :
    ∀ l ∈ splitNl (stripL (collapseBlanks U)), nonWsLine l = true := by
  refine all_lines_nonWs (stripL (collapseBlanks U))
    (hasBlankRun_stripL _ (hasBlankRun_collapse U)) ?_ (stripL_getLast_not_ws _)
  intro l0 ls0 hsp
  cases hV : stripL (collapseBlanks U) with
  | nil => exact absurd hV hne
  | cons c t =>
    have hc : isPyWs c = false := stripL_head_not_ws (collapseBlanks U) c (by rw [hV]; rfl)
    rw [hV] at hsp
    exact first_line_nonWs c t hc l0 ls0 hsp

theorem strip_collapse_reconstruct (U : List Char) :
    stripL (collapseBlanks U)
      = joinNl ((splitNl (stripL (collapseBlanks U))).filter nonWsLine) := by
  by_cases hne : stripL (collapseBlanks U) = []
  · rw [hne]
    rfl
  · have hall := splitNl_strip_collapse_nonWs U hne
    rw [List.filter_eq_self.mpr hall, joinNl_splitNl]

theorem splitNl_strip_collapse_filter (U : List Char)
    (hne : stripL (collapseBlanks U) ≠ []) :
    splitNl (stripL (collapseBlanks U))
      = (splitNl (stripL (collapseBlanks U))).filter nonWsLine :=
  (List.filter_eq_self.mpr (splitNl_strip_collapse_nonWs U hne)).symm

/-! ## The directive matcher is stable under trailing whitespace -/

theorem closeWsTail_append_ws (x a : List Char) (ha : a.all isPyWs = true)
    (h : closeWsTail x = true) : closeWsTail (x ++ a) = true := by
  induction x with
  | nil => exact Bool.noConfusion h
  | cons c x2 ih =>
    cases x2 with
    | nil => exact Bool.noConfusion h
    | cons d x3 =>
      rw [closeWsTail, Bool.or_eq_true] at h
      rw [List.cons_append, List.cons_append, closeWsTail]
      rcases h with h1 | h2
      · rw [Bool.and_eq_true, Bool.and_eq_true] at h1
        have hall : (x3 ++ a).all isPyWs = true := by
          rw [List.all_append, h1.2, ha]
          rfl
        rw [h1.1.1, h1.1.2, hall]
        rfl
      · have h3 := ih h2
        rw [List.cons_append] at h3
        rw [h3, Bool.or_true]

theorem dropLit_none_ws_append (pat : List Char) (hpat : ∀ c ∈ pat, isPyWs c = false) :
    ∀ (x a : List Char), a.all isPyWs = true → dropLit pat x = none →
    dropLit pat (x ++ a) = none := by
  induction pat with
  | nil =>
    intro x a _ hnone
    exact Option.noConfusion hnone
  | cons q ps ih =>
    intro x a ha hnone
    cases x with
    | nil =>
      rw [List.nil_append]
      cases a with
      | nil => rfl
      | cons c a2 =>
        rw [List.all_cons, Bool.and_eq_true] at ha
        rw [dropLit, if_neg ?_]
        intro hqc
        have hq : isPyWs q = false := hpat q (List.mem_cons_self q ps)
        have : q = c := by simpa using hqc
        rw [this, ha.1] at hq
        exact Bool.noConfusion hq
    | cons d x2 =>
      rw [List.cons_append, dropLit]
      rw [dropLit] at hnone
      by_cases hqd : (q == d) = true
      · rw [if_pos hqd] at hnone ⊢
        exact ih (fun c hc => hpat c (List.mem_cons_of_mem q hc)) x2 a ha hnone
      · rw [if_neg hqd]

theorem dropLit_some_append (pat x r a : List Char) (h : dropLit pat x = some r) :
    dropLit pat (x ++ a) = some (r ++ a) := by
  rw [dropLit_eq_some_iff] at h ⊢
  rw [h, List.append_assoc]

theorem dirTail_ws_suffix (p r2 a : List Char) (ha : a.all isPyWs = true)
    (h : (match dropLit (sl "\"") (r2.dropWhile isPyWs) with
          | none => false
          | some r3 =>
            match dropLit (p ++ sl "\"") r3 with
            | none => false
            | some r4 =>
              match dropLit (sl ",") (r4.dropWhile isPyWs) with
              | none => false
              | some r5 => closeWsTail r5) = true) :
    (match dropLit (sl "\"") ((r2 ++ a).dropWhile isPyWs) with
     | none => false
     | some r3 =>
       match dropLit (p ++ sl "\"") r3 with
       | none => false
       | some r4 =>
         match dropLit (sl ",") (r4.dropWhile isPyWs) with
         | none => false
         | some r5 => closeWsTail r5) = true := by
  cases h2 : dropLit (sl "\"") (r2.dropWhile isPyWs) with
  | none =>
    rw [h2] at h
    exact Bool.noConfusion h
  | some r3 =>
    rw [h2] at h
    dsimp only at h
    have hdw : r2.dropWhile isPyWs ≠ [] := by
      intro hx
      rw [hx] at h2
      exact Option.noConfusion h2
    rw [dropWhile_append_left isPyWs r2 a hdw, dropLit_some_append _ _ _ a h2]
    dsimp only
    cases h3 : dropLit (p ++ sl "\"") r3 with
    | none =>
      rw [h3] at h
      exact Bool.noConfusion h
    | some r4 =>
      rw [h3] at h
      dsimp only at h
      rw [dropLit_some_append _ _ _ a h3]
      dsimp only
      cases h4 : dropLit (sl ",") (r4.dropWhile isPyWs) with
      | none =>
        rw [h4] at h
        exact Bool.noConfusion h
      | some r5 =>
        rw [h4] at h
        dsimp only at h
        have hdw4 : r4.dropWhile isPyWs ≠ [] := by
          intro hx
          rw [hx] at h4
          exact Option.noConfusion h4
        rw [dropWhile_append_left isPyWs r4 a hdw4, dropLit_some_append _ _ _ a h4]
        dsimp only
        exact closeWsTail_append_ws r5 a ha h

theorem dirLineMatches_ws_suffix (p l a : List Char) (ha : a.all isPyWs = true)
    (h : dirLineMatches p l = true) : dirLineMatches p (l ++ a) = true := by
  simp only [dirLineMatches] at h ⊢
  cases h0 : dropLit (sl "set_metadata") (l.dropWhile isPyWs) with
  | none =>
    rw [h0] at h
    exact Bool.noConfusion h
  | some r1 =>
    rw [h0] at h
    dsimp only at h
    have hldw : l.dropWhile isPyWs ≠ [] := by
      intro hx
      rw [hx] at h0
      exact Option.noConfusion h0
    rw [dropWhile_append_left isPyWs l a hldw, dropLit_some_append _ _ _ a h0]
    dsimp only
    cases h1 : dropLit (sl "_recursive(") r1 with
    | some r2 =>
      rw [h1] at h
      dsimp only at h
      rw [dropLit_some_append _ _ _ a h1]
      dsimp only
      exact dirTail_ws_suffix p r2 a ha h
    | none =>
      rw [h1] at h
      dsimp only at h
      rw [dropLit_none_ws_append (sl "_recursive(") (by decide) r1 a ha h1]
      dsimp only
      cases h1b : dropLit (sl "(") r1 with
      | none =>
        rw [h1b] at h
        exact Bool.noConfusion h
      | some r2 =>
        rw [h1b] at h
        dsimp only at h
        rw [dropLit_some_append _ _ _ a h1b]
        dsimp only
        exact dirTail_ws_suffix p r2 a ha h

/-! ## Marker lines and whitespace lines never match a directive pattern -/

theorem dirLineMatches_startMarker (p : List Char) :
    dirLineMatches p startMarker = false := rfl

theorem dirLineMatches_endMarker (p : List Char) :
    dirLineMatches p endMarker = false := rfl

theorem dirLineMatches_all_ws (p l : List Char) (h : l.all isPyWs = true) :
    dirLineMatches p l = false := by
  have h0 : l.dropWhile isPyWs = [] := by
    rw [List.dropWhile_eq_nil_iff]
    intro x hx
    rw [List.all_eq_true] at h
    exact h x hx
  simp only [dirLineMatches]
  rw [h0]
  rfl

theorem nonWsLine_startMarker : nonWsLine startMarker = true := by decide

theorem nonWsLine_endMarker : nonWsLine endMarker = true := by decide

/-! ## `itemSafe` components -/

theorem bnot_true (b : Bool) (h : (!b) = true) : b = false := by
  cases b with
  | false => rfl
  | true => exact Bool.noConfusion h

theorem itemSafe_parts (it : EdifyItem) (h : itemSafe it = true) :
    '\n' ∉ build_edify_line it ∧
    hasSubstrL startMarker (build_edify_line it) = false ∧
    hasSubstrL endMarker (build_edify_line it) = false := by
  simp only [itemSafe] at h
  rw [Bool.and_eq_true, Bool.and_eq_true] at h
  refine ⟨?_, bnot_true _ h.1.2, bnot_true _ h.2⟩
  intro hmem
  have h2 : (build_edify_line it).contains '\n' = true := List.elem_iff.mpr hmem
  have h3 := bnot_true _ h.1.1
  rw [h2] at h3
  exact Bool.noConfusion h3

/-! ## Shape of the appended block -/

theorem blockSuffix_shape (L : List (List Char)) :
    blockSuffix L = '\n' :: '\n' :: (startMarker ++ '\n' :: (joinNl L ++ '\n' :: endMarker)) := by
  show ('\n' :: '\n' :: (startMarker ++ ['\n'])) ++ joinNl L ++ ('\n' :: endMarker) = _
  simp [List.append_assoc]

theorem splitNl_cons_nl (x : List Char) : splitNl ('\n' :: x) = [] :: splitNl x := by
  rw [splitNl, if_pos (by decide)]

theorem splitNl_body_block (body : List Char) (L : List (List Char)) :
    splitNl (body ++ blockSuffix L)
      = splitNl body ++ [] :: startMarker :: (splitNl (joinNl L) ++ [endMarker]) := by
  rw [blockSuffix_shape L, splitNl_append_nl, splitNl_cons_nl, splitNl_append_nl,
    splitNl_no_nl startMarker (by decide), splitNl_append_nl,
    splitNl_no_nl endMarker (by decide)]
  rfl

theorem countOcc_body_block (pat body : List Char) (L : List (List Char))
    (hp : pat ≠ []) (hnl : '\n' ∉ pat) :
    countOcc pat (body ++ blockSuffix L)
      = countOcc pat body
        + (countOcc pat startMarker + (countOcc pat (joinNl L) + countOcc pat endMarker)) := by
  rw [blockSuffix_shape L, countOcc_append_nl pat _ _ hp hnl,
    show ('\n' :: (startMarker ++ '\n' :: (joinNl L ++ '\n' :: endMarker)))
      = [] ++ '\n' :: (startMarker ++ '\n' :: (joinNl L ++ '\n' :: endMarker)) from rfl,
    countOcc_append_nl pat _ _ hp hnl, countOcc_nil_of_ne pat hp,
    countOcc_append_nl pat _ _ hp hnl, countOcc_append_nl pat _ _ hp hnl]
  omega

/-! ## Freeness of the merge body text -/

theorem text_free_of_lines_free (pat X : List Char) (hp : pat ≠ []) (hnl : '\n' ∉ pat)
    (h : ∀ l ∈ splitNl X, hasSubstrL pat l = false) : hasSubstrL pat X = false := by
  have h2 := hasSubstrL_joinNl_free pat hp hnl (splitNl X) h
  rw [joinNl_splitNl] at h2
  exact h2

theorem collapse_free (pat X : List Char) (hp : pat ≠ []) (hnl : '\n' ∉ pat)
    (c0 : Char) (hph : pat.head? = some c0) (hc0 : isPyWs c0 = false)
    (h : hasSubstrL pat X = false) : hasSubstrL pat (collapseBlanks X) = false := by
  refine text_free_of_lines_free pat _ hp hnl ?_
  intro l hl
  cases hx : hasSubstrL pat l with
  | false => rfl
  | true =>
    exfalso
    have hnws : nonWsLine l = true := by
      cases hnw : nonWsLine l with
      | true => rfl
      | false =>
        exfalso
        have hws := nonWsLine_false_all_ws l hnw
        have hz : countOcc pat l = 0 := countOcc_ws_of_head pat l c0 hph hc0 hws
        rw [(countOcc_eq_zero_iff pat l hp).mp hz] at hx
        exact Bool.noConfusion hx
    have hmf : l ∈ (splitNl (collapseBlanks X)).filter nonWsLine :=
      List.mem_filter.mpr ⟨hl, hnws⟩
    rw [filter_lines_collapse] at hmf
    have hlX : l ∈ splitNl X := (List.mem_filter.mp hmf).1
    have h3 := lines_free pat X h l hlX
    rw [hx] at h3
    exact Bool.noConfusion h3

theorem strip_free (pat X : List Char) (h : hasSubstrL pat X = false) :
    hasSubstrL pat (stripL X) = false := by
  have h1 : hasSubstrL pat (lstripL X) = false := by
    cases hx : hasSubstrL pat (lstripL X) with
    | false => rfl
    | true =>
      have h2 := hasSubstrL_append_right pat (X.takeWhile isPyWs) _ hx
      rw [← (lstripL_decomp X).1, h] at h2
      exact Bool.noConfusion h2
  rw [stripL]
  cases hx : hasSubstrL pat (rstripL (lstripL X)) with
  | false => rfl
  | true =>
    have h2 := hasSubstrL_append_left pat _
      (((lstripL X).reverse.takeWhile isPyWs).reverse) hx
    rw [← (rstripL_decomp (lstripL X)).1, h1] at h2
    exact Bool.noConfusion h2

theorem strip_collapse_zero_free (pat s : List Char) (items : List EdifyItem)
    (hp : pat ≠ []) (hnl : '\n' ∉ pat) (c0 : Char) (hph : pat.head? = some c0)
    (hc0 : isPyWs c0 = false) (hs : hasSubstrL pat s = false) :
    hasSubstrL pat (stripL (collapseBlanks (joinNl (zeroPass items (splitNl s))))) = false := by
  refine strip_free _ _ (collapse_free _ _ hp hnl c0 hph hc0 ?_)
  refine hasSubstrL_joinNl_free _ hp hnl _ ?_
  intro l hl
  rw [zeroPass_eq_map, List.mem_map] at hl
  obtain ⟨l0, hl0, heq⟩ := hl
  by_cases hm : (items.any fun it => dirLineMatches it.path l0) = true
  · rw [if_pos hm] at heq
    rw [← heq]
    exact hasSubstrL_nil _ hp
  · rw [if_neg hm] at heq
    rw [← heq]
    exact lines_free _ s hs l0 hl0

theorem mergeBody_eq_strip (s : List Char) (items : List EdifyItem)
    (hs : hasSubstrL startMarker s = false) :
    mergeBody s items = stripL (collapseBlanks (joinNl (zeroPass items (splitNl s)))) := by
  rw [mergeBody]
  exact blockRemoveAll_id _
    (strip_collapse_zero_free startMarker s items (by decide) (by decide) '#' rfl
      (by decide) hs)

theorem mergeText_clean (s : List Char) (items : List EdifyItem)
    (hs : hasSubstrL startMarker s = false) :
    mergeText s items
      = stripL (collapseBlanks (joinNl (zeroPass items (splitNl s))))
        ++ blockSuffix (items.map build_edify_line) := by
  rw [mergeText_decomp, mergeBody_eq_strip s items hs]

/-! ## Last character of the joined zeroed line list -/

theorem joinNl_getLast_concat (A : List (List Char)) (x : List Char) (hx : x ≠ []) :
    (joinNl (A ++ [x])).getLast? = x.getLast? := by
  cases A with
  | nil => rfl
  | cons a A2 =>
    rw [joinNl_append (a :: A2) [x] (by intro h; exact List.noConfusion h)
      (by intro h; exact List.noConfusion h)]
    rw [getLast?_append_right _ _ (by intro h; exact List.noConfusion h)]
    rw [show ('\n' :: joinNl [x]) = ['\n'] ++ joinNl [x] from rfl]
    rw [getLast?_append_right ['\n'] (joinNl [x]) hx]
    rfl

theorem strip_collapse_getLast (U : List Char) (c : Char) (hws : isPyWs c = false)
    (h : U.getLast? = some c) :
    (stripL (collapseBlanks U)).getLast? = some c := by
  have hC := collapse_getLast U c hws h
  have hCne : collapseBlanks U ≠ [] := by
    intro hx2
    rw [hx2] at hC
    exact Option.noConfusion hC
  have hlne : lstripL (collapseBlanks U) ≠ [] := by
    intro hx
    have hall := List.dropWhile_eq_nil_iff.mp hx
    have hg := List.getLast?_eq_getLast _ hCne
    rw [hC] at hg
    have hcm : c = (collapseBlanks U).getLast hCne := Option.some.inj hg
    have hmem := List.getLast_mem hCne
    have h2 := hall _ hmem
    rw [← hcm] at h2
    rw [h2] at hws
    exact Bool.noConfusion hws
  have hLlast : (lstripL (collapseBlanks U)).getLast? = some c := by
    rw [← hC]
    conv_rhs => rw [(lstripL_decomp (collapseBlanks U)).1]
    exact (getLast?_append_right _ _ hlne).symm
  rw [stripL, rstripL_eq_self _ c hws hLlast]
  exact hLlast

/-! ## Trivial trims -/

theorem headTrimmed_eq_of_head_not_ws (full stripped : List (List Char))
    (h : headTrimmed full stripped)
    (hhead : ∀ l0 ls0, full = l0 :: ls0 → ∃ c l2, l0 = c :: l2 ∧ isPyWs c = false) :
    stripped = full := by
  rcases h with ⟨h1, h2⟩ | ⟨a, h0, rest, haws, hfull, hstr⟩
  · rw [h1, h2]
  · obtain ⟨c, l2, hl0, hc⟩ := hhead (a ++ h0) rest hfull
    cases a with
    | nil =>
      rw [hstr, hfull]
      rfl
    | cons a0 a2 =>
      exfalso
      rw [List.cons_append] at hl0
      have ha0 : a0 = c := (List.cons.inj hl0).1
      rw [List.all_cons, Bool.and_eq_true] at haws
      have h3 := haws.1
      rw [ha0, hc] at h3
      exact Bool.noConfusion h3

theorem tailTrimmed_eq_of_last_not_ws (full stripped : List (List Char))
    (h : tailTrimmed full stripped)
    (hlast : ∀ pre l0, full = pre ++ [l0] → ∃ c, l0.getLast? = some c ∧ isPyWs c = false) :
    stripped = full := by
  rcases h with heq | ⟨pre, h0, a, haws, hfull, hstr⟩
  · rw [heq]
  · obtain ⟨c, hgl, hc⟩ := hlast pre (h0 ++ a) hfull
    cases hae : a with
    | nil =>
      rw [hstr, hfull, hae, List.append_nil]
    | cons a0 a2 =>
      exfalso
      have hane : a ≠ [] := by
        rw [hae]
        intro hx
        exact List.noConfusion hx
      have hg2 : (h0 ++ a).getLast? = a.getLast? := getLast?_append_right h0 a hane
      rw [hg2] at hgl
      have hwsc : isPyWs c = true := all_ws_getLast a c haws hgl
      rw [hwsc] at hc
      exact Bool.noConfusion hc

theorem getLast?_append_right_gen {α : Type} (x y : List α) (h : y ≠ []) :
    (x ++ y).getLast? = y.getLast? := by
  induction x with
  | nil => rfl
  | cons c x2 ih =>
    rw [List.cons_append]
    cases hxy : x2 ++ y with
    | nil => exact absurd (List.append_eq_nil.mp hxy).2 h
    | cons d t =>
      rw [List.getLast?_cons_cons, ← hxy]
      exact ih

theorem headTrimmed_transfer (full stripped : List (List Char)) (h : headTrimmed full stripped)
    (P : List Char → Prop)
    (hpre : ∀ a l, a.all isPyWs = true → P (a ++ l) → P l)
    (hfull : ∀ l ∈ full, P l) : ∀ l ∈ stripped, P l := by
  rcases h with ⟨h1, h2⟩ | ⟨a, h0, rest, haws, hfull2, hstr⟩
  · rw [h2]
    intro l hl
    exact absurd hl (List.not_mem_nil l)
  · rw [hstr]
    intro l hl
    rcases List.mem_cons.mp hl with rfl | hm
    · exact hpre a l haws (hfull _ (by rw [hfull2]; exact List.mem_cons_self _ _))
    · exact hfull l (by rw [hfull2]; exact List.mem_cons_of_mem _ hm)

/-! ## The second merge over a text ending in a managed block -/

theorem merge2_body_lines (B G : List (List Char))
    (hBnl : ∀ l ∈ B, '\n' ∉ l)
    (hGnl : ∀ l ∈ G, '\n' ∉ l)
    (hBsm : ∀ l ∈ B, hasSubstrL startMarker l = false)
    (hGem : ∀ l ∈ G, nonWsLine l = true → hasSubstrL endMarker l = false) :
    ∃ A, blockRemoveAll (stripL (collapseBlanks
        (joinNl (B ++ [] :: startMarker :: (G ++ [endMarker]))))) = joinNl A ∧
      headTrimmed (B.filter nonWsLine) A := by
  have hZnl : ∀ l ∈ B ++ [] :: startMarker :: (G ++ [endMarker]), '\n' ∉ l := by
    intro l hl
    rcases List.mem_append.mp hl with h | h
    · exact hBnl l h
    · rcases List.mem_cons.mp h with rfl | h
      · exact List.not_mem_nil _
      · rcases List.mem_cons.mp h with rfl | h
        · decide
        · rcases List.mem_append.mp h with h | h
          · exact hGnl l h
          · rcases List.mem_singleton.mp h with rfl
            decide
  have hZne : B ++ [] :: startMarker :: (G ++ [endMarker]) ≠ [] := by
    intro hx
    exact List.noConfusion (List.append_eq_nil.mp hx).2
  have hsplitU : splitNl (joinNl (B ++ [] :: startMarker :: (G ++ [endMarker])))
      = B ++ [] :: startMarker :: (G ++ [endMarker]) :=
    splitNl_joinNl _ hZne hZnl
  have hUlast : (joinNl (B ++ [] :: startMarker :: (G ++ [endMarker]))).getLast?
      = some '=' := by
    rw [show (B ++ [] :: startMarker :: (G ++ [endMarker]))
        = (B ++ ([] :: startMarker :: G)) ++ [endMarker]
      from (List.append_assoc B ([] :: startMarker :: G) [endMarker]).symm]
    rw [joinNl_getLast_concat _ _ (by decide)]
    decide
  have hVlast := strip_collapse_getLast _ '=' (by decide) hUlast
  have hVne : stripL (collapseBlanks
      (joinNl (B ++ [] :: startMarker :: (G ++ [endMarker])))) ≠ [] := by
    intro hx
    rw [hx] at hVlast
    exact Option.noConfusion hVlast
  have hf2 : List.filter nonWsLine ([] :: startMarker :: (G ++ [endMarker]))
      = startMarker :: (G.filter nonWsLine ++ [endMarker]) := by
    rw [List.filter_cons, if_neg (by intro hx; exact Bool.noConfusion hx)]
    rw [List.filter_cons, if_pos nonWsLine_startMarker]
    rw [List.filter_append]
    rw [show List.filter nonWsLine [endMarker] = [endMarker] from by
      rw [List.filter_cons, if_pos nonWsLine_endMarker, List.filter_nil]]
  obtain ⟨mid, hhead, htail⟩ := filter_lines_stripL
    (collapseBlanks (joinNl (B ++ [] :: startMarker :: (G ++ [endMarker]))))
  have hC : (splitNl (collapseBlanks
      (joinNl (B ++ [] :: startMarker :: (G ++ [endMarker]))))).filter nonWsLine
      = B.filter nonWsLine ++ startMarker :: (G.filter nonWsLine ++ [endMarker]) := by
    rw [filter_lines_collapse, hsplitU, List.filter_append, hf2]
  rw [hC] at hhead
  rcases hhead with ⟨hfe, _⟩ | ⟨a, h0, rest, haws, hfull, hstr⟩
  · exfalso
    exact List.noConfusion (List.append_eq_nil.mp hfe).2
  · -- build A and the structural equation for mid
    have hstep : ∃ A, mid = A ++ startMarker :: (G.filter nonWsLine ++ [endMarker]) ∧
        headTrimmed (B.filter nonWsLine) A ∧
        (∀ l ∈ A, hasSubstrL startMarker l = false) ∧
        (∀ l ∈ A, '\n' ∉ l) ∧
        (∀ l ∈ A, l ≠ []) := by
      cases hFB : B.filter nonWsLine with
      | nil =>
        rw [hFB, List.nil_append] at hfull
        have hinj := List.cons.inj hfull
        have hsm_eq : startMarker = a ++ h0 := hinj.1
        have ha_nil : a = [] := by
          cases hao : a with
          | nil => rfl
          | cons a0 a2 =>
            exfalso
            rw [hao, List.cons_append] at hsm_eq
            have hh := congrArg List.head? hsm_eq
            rw [show startMarker.head? = some '#' from rfl, List.head?_cons] at hh
            have ha0 : a0 = '#' := (Option.some.inj hh).symm
            rw [hao, List.all_cons, Bool.and_eq_true] at haws
            have h3 := haws.1
            rw [ha0] at h3
            exact absurd h3 (by decide)
        rw [ha_nil, List.nil_append] at hsm_eq
        refine ⟨[], ?_, Or.inl ⟨rfl, rfl⟩, ?_, ?_, ?_⟩
        · rw [hstr, List.nil_append, ← hsm_eq, ← hinj.2]
        · intro l hl
          exact absurd hl (List.not_mem_nil l)
        · intro l hl
          exact absurd hl (List.not_mem_nil l)
        · intro l hl
          exact absurd hl (List.not_mem_nil l)
      | cons f0 frest =>
        rw [hFB, List.cons_append] at hfull
        have hinj := List.cons.inj hfull
        have hf0 : f0 = a ++ h0 := hinj.1
        have hBmem : ∀ l ∈ B.filter nonWsLine, l ∈ B ∧ nonWsLine l = true := by
          intro l hl
          exact ⟨(List.mem_filter.mp hl).1, (List.mem_filter.mp hl).2⟩
        have hf0B : f0 ∈ B ∧ nonWsLine f0 = true :=
          hBmem f0 (by rw [hFB]; exact List.mem_cons_self _ _)
        have hfrestB : ∀ l ∈ frest, l ∈ B ∧ nonWsLine l = true := by
          intro l hl
          exact hBmem l (by rw [hFB]; exact List.mem_cons_of_mem _ hl)
        refine ⟨h0 :: frest, ?_, ?_, ?_, ?_, ?_⟩
        · rw [hstr, ← hinj.2, List.cons_append]
        · exact Or.inr ⟨a, h0, frest, haws, by rw [hf0], rfl⟩
        · intro l hl
          rcases List.mem_cons.mp hl with rfl | hm
          · cases hx : hasSubstrL startMarker l with
            | false => rfl
            | true =>
              exfalso
              have h2 := hasSubstrL_append_right startMarker a l hx
              rw [← hf0] at h2
              rw [hBsm f0 hf0B.1] at h2
              exact Bool.noConfusion h2
          · exact hBsm l (hfrestB l hm).1
        · intro l hl
          rcases List.mem_cons.mp hl with rfl | hm
          · intro hmem
            exact hBnl f0 hf0B.1 (by rw [hf0]; exact List.mem_append_right a hmem)
          · exact hBnl l (hfrestB l hm).1
        · intro l hl
          rcases List.mem_cons.mp hl with rfl | hm
          · intro hx
            have h2 := hf0B.2
            rw [hf0, nonWsLine_ws_pre a l haws, hx] at h2
            exact Bool.noConfusion h2
          · intro hx
            have h2 := (hfrestB l hm).2
            rw [hx] at h2
            exact Bool.noConfusion h2
    obtain ⟨A, hmid, htrim, hAsm, hAnl, hAne⟩ := hstep
    -- the tail trim is trivial: mid ends with the end marker
    have hmid_last : mid.getLast? = some endMarker := by
      rw [hmid]
      rw [getLast?_append_right_gen A (startMarker :: (G.filter nonWsLine ++ [endMarker]))
        (by intro hx; exact List.noConfusion hx)]
      rw [show (startMarker :: (G.filter nonWsLine ++ [endMarker]))
          = [startMarker] ++ (G.filter nonWsLine ++ [endMarker]) from rfl]
      rw [getLast?_append_right_gen [startMarker] (G.filter nonWsLine ++ [endMarker]) (by
        intro hx
        exact List.noConfusion (List.append_eq_nil.mp hx).2)]
      rw [getLast?_append_right_gen (G.filter nonWsLine) [endMarker]
        (by intro hx; exact List.noConfusion hx)]
      rfl
    have hVfil : (splitNl (stripL (collapseBlanks
        (joinNl (B ++ [] :: startMarker :: (G ++ [endMarker])))))).filter nonWsLine
        = mid := by
      refine tailTrimmed_eq_of_last_not_ws mid _ htail ?_
      intro pre l0 hpre
      have hg : mid.getLast? = some l0 := by
        rw [hpre]
        exact List.getLast?_concat pre
      rw [hmid_last] at hg
      have hl0 : l0 = endMarker := (Option.some.inj hg).symm
      refine ⟨'=', ?_, by decide⟩
      rw [hl0]
      rfl
    have hVsplit : splitNl (stripL (collapseBlanks
        (joinNl (B ++ [] :: startMarker :: (G ++ [endMarker])))))
        = A ++ startMarker :: (G.filter nonWsLine ++ [endMarker]) := by
      rw [splitNl_strip_collapse_filter _ hVne, hVfil, hmid]
    refine ⟨A, ?_, htrim⟩
    have hVjoin : stripL (collapseBlanks
        (joinNl (B ++ [] :: startMarker :: (G ++ [endMarker]))))
        = joinNl (A ++ startMarker :: (G.filter nonWsLine ++ [endMarker])) := by
      rw [← hVsplit, joinNl_splitNl]
    rw [hVjoin]
    exact blockRemoveAll_lines A (G.filter nonWsLine) hAsm hAnl hAne
      (fun l hl => hGem l (List.mem_filter.mp hl).1 (List.mem_filter.mp hl).2)
      (fun l hl => hGnl l (List.mem_filter.mp hl).1)

/-! ## C2 (amended): exact idempotence of the merge -/

/-- C2 (amended): the merge is idempotent — exactly, not only up to
whitespace — on every script that does not already contain the
managed-block start-marker text, for every entry list whose generated
directive lines are newline-free and marker-free (`itemSafe`, true of all
real entries): `ensure_edify_stat_lines` applied to its own output with
the same items returns the same text.  (The unamended claim, quantified
over all scripts, fails: see the stray-marker counterexample.) -/
theorem merge_idempotent_no_marker (s : List Char) (items : List EdifyItem)
    (hs : hasSubstrL startMarker s = false)
    (hsafe : ∀ it ∈ items, itemSafe it = true) :
    mergeText (mergeText s items) items = mergeText s items := by
  have h1 := mergeText_clean s items hs
  rw [h1, mergeText_decomp]
  have hV1smfree : hasSubstrL startMarker
      (stripL (collapseBlanks (joinNl (zeroPass items (splitNl s))))) = false :=
    strip_collapse_zero_free startMarker s items (by decide) (by decide) '#' rfl
      (by decide) hs
  have hV1nomatch : ∀ l ∈ splitNl
      (stripL (collapseBlanks (joinNl (zeroPass items (splitNl s))))),
      ∀ it ∈ items, dirLineMatches it.path l = false := by
    have hZ1nl : ∀ l ∈ zeroPass items (splitNl s), '\n' ∉ l := by
      intro l hl
      rw [zeroPass_eq_map, List.mem_map] at hl
      obtain ⟨l0, hl0, heq⟩ := hl
      by_cases hm : (items.any fun it => dirLineMatches it.path l0) = true
      · rw [if_pos hm] at heq
        rw [← heq]
        exact List.not_mem_nil _
      · rw [if_neg hm] at heq
        rw [← heq]
        exact splitNl_lines_no_nl s l0 hl0
    have hZ1ne : zeroPass items (splitNl s) ≠ [] := by
      rw [zeroPass_eq_map]
      intro hx
      exact splitNl_ne_nil s (List.map_eq_nil_iff.mp hx)
    have hsplitU1 : splitNl (joinNl (zeroPass items (splitNl s)))
        = zeroPass items (splitNl s) := splitNl_joinNl _ hZ1ne hZ1nl
    have htrans := lines_pipeline_transfer (joinNl (zeroPass items (splitNl s)))
      (fun l => ∀ it ∈ items, dirLineMatches it.path l = false)
      (by
        intro a l ha hP it hit
        have h2 := hP it hit
        rw [dirLineMatches_ws_pre it.path a l ha] at h2
        exact h2)
      (by
        intro l a ha hP it hit
        cases hx : dirLineMatches it.path l with
        | false => rfl
        | true =>
          exfalso
          have h2 := dirLineMatches_ws_suffix it.path l a ha hx
          rw [hP it hit] at h2
          exact Bool.noConfusion h2)
      (by
        intro l hl
        rw [hsplitU1] at hl
        have hmem := (List.mem_filter.mp hl).1
        have hnw := (List.mem_filter.mp hl).2
        rw [zeroPass_eq_map, List.mem_map] at hmem
        obtain ⟨l0, hl0, heq⟩ := hmem
        by_cases hm : (items.any fun it => dirLineMatches it.path l0) = true
        · exfalso
          rw [if_pos hm] at heq
          rw [← heq] at hnw
          exact Bool.noConfusion hnw
        · rw [if_neg hm] at heq
          intro it hit
          rw [← heq]
          have hall := List.any_eq_false.mp (by
            cases hx : (items.any fun it => dirLineMatches it.path l0) with
            | false => rfl
            | true => exact absurd hx hm)
          have h3 := hall it hit
          cases hx : dirLineMatches it.path l0 with
          | false => rfl
          | true => exact absurd hx h3)
    intro l hl
    cases hnw : nonWsLine l with
    | true => exact htrans l (List.mem_filter.mpr ⟨hl, hnw⟩)
    | false =>
      intro it hit
      exact dirLineMatches_all_ws it.path l (nonWsLine_false_all_ws l hnw)
  have hif_nil : (if (items.any fun it => dirLineMatches it.path ([] : List Char))
      then ([] : List Char) else []) = [] := ite_self _
  have hif_sm : (if (items.any fun it => dirLineMatches it.path startMarker)
      then ([] : List Char) else startMarker) = startMarker := by
    rw [if_neg]
    intro hx
    rw [List.any_eq_true] at hx
    obtain ⟨it, hit, hmt⟩ := hx
    rw [dirLineMatches_startMarker] at hmt
    exact Bool.noConfusion hmt
  have hif_em : (if (items.any fun it => dirLineMatches it.path endMarker)
      then ([] : List Char) else endMarker) = endMarker := by
    rw [if_neg]
    intro hx
    rw [List.any_eq_true] at hx
    obtain ⟨it, hit, hmt⟩ := hx
    rw [dirLineMatches_endMarker] at hmt
    exact Bool.noConfusion hmt
  have hBid : (splitNl
      (stripL (collapseBlanks (joinNl (zeroPass items (splitNl s)))))).map
      (fun l => if (items.any fun it => dirLineMatches it.path l) then [] else l)
      = splitNl (stripL (collapseBlanks (joinNl (zeroPass items (splitNl s))))) := by
    have h2 : ∀ l ∈ splitNl
        (stripL (collapseBlanks (joinNl (zeroPass items (splitNl s))))),
        (fun l => if (items.any fun it => dirLineMatches it.path l) then [] else l) l
          = (fun l => l) l := by
      intro l hl
      dsimp only
      rw [if_neg]
      intro hx
      rw [List.any_eq_true] at hx
      obtain ⟨it, hit, hmt⟩ := hx
      rw [hV1nomatch l hl it hit] at hmt
      exact Bool.noConfusion hmt
    rw [List.map_congr_left h2]
    exact List.map_id _
  have hz2 : zeroPass items (splitNl
      (stripL (collapseBlanks (joinNl (zeroPass items (splitNl s))))
        ++ blockSuffix (items.map build_edify_line)))
      = splitNl (stripL (collapseBlanks (joinNl (zeroPass items (splitNl s)))))
        ++ [] :: startMarker ::
          (((splitNl (joinNl (items.map build_edify_line))).map
            (fun l => if (items.any fun it => dirLineMatches it.path l) then [] else l))
            ++ [endMarker]) := by
    rw [zeroPass_eq_map, splitNl_body_block]
    simp only [List.map_append, List.map_cons, List.map_nil]
    rw [hif_nil, hif_sm, hif_em, hBid]
  have hbody : mergeBody
      (stripL (collapseBlanks (joinNl (zeroPass items (splitNl s))))
        ++ blockSuffix (items.map build_edify_line)) items
      = stripL (collapseBlanks (joinNl (zeroPass items (splitNl s)))) := by
    obtain ⟨A, hAeq, hAtrim⟩ := merge2_body_lines
      (splitNl (stripL (collapseBlanks (joinNl (zeroPass items (splitNl s))))))
      ((splitNl (joinNl (items.map build_edify_line))).map
        (fun l => if (items.any fun it => dirLineMatches it.path l) then [] else l))
      (splitNl_lines_no_nl _)
      (by
        intro l hl
        rw [List.mem_map] at hl
        obtain ⟨l0, hl0, heq⟩ := hl
        by_cases hm : (items.any fun it => dirLineMatches it.path l0) = true
        · rw [if_pos hm] at heq
          rw [← heq]
          exact List.not_mem_nil _
        · rw [if_neg hm] at heq
          rw [← heq]
          exact splitNl_lines_no_nl _ l0 hl0)
      (lines_free startMarker _ hV1smfree)
      (by
        intro l hl hnw
        rw [List.mem_map] at hl
        obtain ⟨l0, hl0, heq⟩ := hl
        by_cases hm : (items.any fun it => dirLineMatches it.path l0) = true
        · exfalso
          rw [if_pos hm] at heq
          rw [← heq] at hnw
          exact Bool.noConfusion hnw
        · rw [if_neg hm] at heq
          rw [← heq] at hnw ⊢
          cases hitems : items with
          | nil =>
            exfalso
            rw [hitems] at hl0
            rw [show (List.map build_edify_line ([] : List EdifyItem)) = [] from rfl] at hl0
            rw [show splitNl (joinNl ([] : List (List Char))) = [[]] from rfl] at hl0
            rcases List.mem_singleton.mp hl0 with rfl
            exact Bool.noConfusion hnw
          | cons it0 its =>
            have hLnl : ∀ l2 ∈ items.map build_edify_line, '\n' ∉ l2 := by
              intro l2 hl2
              rw [List.mem_map] at hl2
              obtain ⟨it, hit, heq2⟩ := hl2
              rw [← heq2]
              exact (itemSafe_parts it (hsafe it hit)).1
            have hLne : items.map build_edify_line ≠ [] := by
              rw [hitems]
              intro hx
              exact List.noConfusion hx
            have hspl : splitNl (joinNl (items.map build_edify_line))
                = items.map build_edify_line := splitNl_joinNl _ hLne hLnl
            rw [hspl] at hl0
            rw [List.mem_map] at hl0
            obtain ⟨it, hit, heq2⟩ := hl0
            rw [← heq2]
            exact (itemSafe_parts it (hsafe it hit)).2.2)
    rw [mergeBody, hz2, hAeq]
    by_cases hV1e : stripL (collapseBlanks (joinNl (zeroPass items (splitNl s)))) = []
    · rw [hV1e] at hAtrim
      rw [show splitNl ([] : List Char) = [[]] from rfl] at hAtrim
      rw [show ([[]] : List (List Char)).filter nonWsLine = [] from rfl] at hAtrim
      rcases hAtrim with ⟨_, hA⟩ | ⟨a, h0, rest, _, hfull, _⟩
      · rw [hA, hV1e]
        rfl
      · exact absurd hfull (by intro hx; exact List.noConfusion hx)
    · have hfil := splitNl_strip_collapse_filter (joinNl (zeroPass items (splitNl s))) hV1e
      rw [← hfil] at hAtrim
      have hAeq2 : A = splitNl
          (stripL (collapseBlanks (joinNl (zeroPass items (splitNl s))))) := by
        refine headTrimmed_eq_of_head_not_ws _ _ hAtrim ?_
        intro l0 ls0 hsp
        cases hV : stripL (collapseBlanks (joinNl (zeroPass items (splitNl s)))) with
        | nil => exact absurd hV hV1e
        | cons c t =>
          have hc : isPyWs c = false :=
            stripL_head_not_ws (collapseBlanks (joinNl (zeroPass items (splitNl s)))) c
              (by rw [hV]; rfl)
          rw [hV] at hsp
          obtain ⟨l2, ls2, hs2⟩ := splitNl_head_cons c t (beq_nl_false_of_not_ws c hc)
          rw [hs2] at hsp
          exact ⟨c, l2, (List.cons.inj hsp).1.symm, hc⟩
      rw [hAeq2, joinNl_splitNl]
  rw [hbody]

/-- C2 witness: a concrete instance of the amended idempotence theorem. -/
theorem merge_idempotent_no_marker_witness :
    mergeText (mergeText (sl "ui_print(\"hi\");") [⟨sl "/system/app", true, sl "755"⟩])
        [⟨sl "/system/app", true, sl "755"⟩]
      = mergeText (sl "ui_print(\"hi\");") [⟨sl "/system/app", true, sl "755"⟩] :=
  merge_idempotent_no_marker (sl "ui_print(\"hi\");") [⟨sl "/system/app", true, sl "755"⟩]
    (by decide) (by decide)

/-! ## C7 (amended): last write wins for the managed block -/

theorem hasSubstrL_cons_of (pat : List Char) (c : Char) (t : List Char)
    (h : hasSubstrL pat t = true) : hasSubstrL pat (c :: t) = true := by
  rw [hasSubstrL, h, Bool.or_true]

theorem hasSubstrL_self (pat : List Char) : hasSubstrL pat pat = true :=
  hasSubstrL_of_startsWith _ _ ((startsWithL_iff _ _).mpr ⟨[], (List.append_nil _).symm⟩)

/-- C7 (amended): merging `E2` into the output of merging `E1` into a
marker-free script yields a script with exactly one managed block (one
start and one end marker), containing every `E2` directive line; and for
any path `p` that occurs neither in the original script nor in `E2`'s
directive lines (e.g. an `E1`-only path), the output contains no
`set_metadata("p` directive text at all — the second merge fully replaces
the block, and `E1`'s directives do not accumulate.  (The unamended claim
fails for directive text occurring mid-line in the original script: see
the mid-line counterexample.) -/
theorem merge_last_write_wins (s p : List Char) (E1 E2 : List EdifyItem)
    (hs1 : hasSubstrL startMarker s = false)
    (hs2 : hasSubstrL endMarker s = false)
    (hE1 : ∀ it ∈ E1, itemSafe it = true)
    (hE2 : ∀ it ∈ E2, itemSafe it = true)
    (hpnl : '\n' ∉ p)
    (hps : hasSubstrL (dirPat p) s = false)
    (hpE2 : ∀ it ∈ E2, hasSubstrL (dirPat p) (build_edify_line it) = false) :
    countOcc startMarker (mergeText (mergeText s E1) E2) = 1 ∧
    countOcc endMarker (mergeText (mergeText s E1) E2) = 1 ∧
    (∀ it ∈ E2, hasSubstrL (build_edify_line it) (mergeText (mergeText s E1) E2) = true) ∧
    hasSubstrL (dirPat p) (mergeText (mergeText s E1) E2) = false := by
  have hdp_ne : dirPat p ≠ [] := by
    rw [dirPat]
    intro hx
    exact List.noConfusion (List.append_eq_nil.mp hx).1
  have hdp_nl : '\n' ∉ dirPat p := by
    rw [dirPat]
    intro hm
    rcases List.mem_append.mp hm with h | h
    · exact absurd h (by decide)
    · exact hpnl h
  have h1 := mergeText_clean s E1 hs1
  have hV1sm : hasSubstrL startMarker
      (stripL (collapseBlanks (joinNl (zeroPass E1 (splitNl s))))) = false :=
    strip_collapse_zero_free startMarker s E1 (by decide) (by decide) '#' rfl
      (by decide) hs1
  have hV1em : hasSubstrL endMarker
      (stripL (collapseBlanks (joinNl (zeroPass E1 (splitNl s))))) = false :=
    strip_collapse_zero_free endMarker s E1 (by decide) (by decide) '#' rfl
      (by decide) hs2
  have hV1p : hasSubstrL (dirPat p)
      (stripL (collapseBlanks (joinNl (zeroPass E1 (splitNl s))))) = false :=
    strip_collapse_zero_free (dirPat p) s E1 hdp_ne hdp_nl 's' (by rw [dirPat]; rfl)
      (by decide) hps
  have hif_nil : (if (E2.any fun it => dirLineMatches it.path ([] : List Char))
      then ([] : List Char) else []) = [] := ite_self _
  have hif_sm : (if (E2.any fun it => dirLineMatches it.path startMarker)
      then ([] : List Char) else startMarker) = startMarker := by
    rw [if_neg]
    intro hx
    rw [List.any_eq_true] at hx
    obtain ⟨it, hit, hmt⟩ := hx
    rw [dirLineMatches_startMarker] at hmt
    exact Bool.noConfusion hmt
  have hif_em : (if (E2.any fun it => dirLineMatches it.path endMarker)
      then ([] : List Char) else endMarker) = endMarker := by
    rw [if_neg]
    intro hx
    rw [List.any_eq_true] at hx
    obtain ⟨it, hit, hmt⟩ := hx
    rw [dirLineMatches_endMarker] at hmt
    exact Bool.noConfusion hmt
  have hz2 : zeroPass E2 (splitNl
      (stripL (collapseBlanks (joinNl (zeroPass E1 (splitNl s))))
        ++ blockSuffix (E1.map build_edify_line)))
      = (splitNl (stripL (collapseBlanks (joinNl (zeroPass E1 (splitNl s)))))).map
          (fun l => if (E2.any fun it => dirLineMatches it.path l) then [] else l)
        ++ [] :: startMarker ::
          (((splitNl (joinNl (E1.map build_edify_line))).map
            (fun l => if (E2.any fun it => dirLineMatches it.path l) then [] else l))
            ++ [endMarker]) := by
    rw [zeroPass_eq_map, splitNl_body_block]
    simp only [List.map_append, List.map_cons, List.map_nil]
    rw [hif_nil, hif_sm, hif_em]
  obtain ⟨A, hAeq, hAtrim⟩ := merge2_body_lines
    ((splitNl (stripL (collapseBlanks (joinNl (zeroPass E1 (splitNl s)))))).map
      (fun l => if (E2.any fun it => dirLineMatches it.path l) then [] else l))
    ((splitNl (joinNl (E1.map build_edify_line))).map
      (fun l => if (E2.any fun it => dirLineMatches it.path l) then [] else l))
    (by
      intro l hl
      rw [List.mem_map] at hl
      obtain ⟨l0, hl0, heq⟩ := hl
      by_cases hm : (E2.any fun it => dirLineMatches it.path l0) = true
      · rw [if_pos hm] at heq
        rw [← heq]
        exact List.not_mem_nil _
      · rw [if_neg hm] at heq
        rw [← heq]
        exact splitNl_lines_no_nl _ l0 hl0)
    (by
      intro l hl
      rw [List.mem_map] at hl
      obtain ⟨l0, hl0, heq⟩ := hl
      by_cases hm : (E2.any fun it => dirLineMatches it.path l0) = true
      · rw [if_pos hm] at heq
        rw [← heq]
        exact List.not_mem_nil _
      · rw [if_neg hm] at heq
        rw [← heq]
        exact splitNl_lines_no_nl _ l0 hl0)
    (by
      intro l hl
      rw [List.mem_map] at hl
      obtain ⟨l0, hl0, heq⟩ := hl
      by_cases hm : (E2.any fun it => dirLineMatches it.path l0) = true
      · rw [if_pos hm] at heq
        rw [← heq]
        exact hasSubstrL_nil _ (by decide)
      · rw [if_neg hm] at heq
        rw [← heq]
        exact lines_free startMarker _ hV1sm l0 hl0)
    (by
      intro l hl hnw
      rw [List.mem_map] at hl
      obtain ⟨l0, hl0, heq⟩ := hl
      by_cases hm : (E2.any fun it => dirLineMatches it.path l0) = true
      · exfalso
        rw [if_pos hm] at heq
        rw [← heq] at hnw
        exact Bool.noConfusion hnw
      · rw [if_neg hm] at heq
        rw [← heq] at hnw ⊢
        cases hE1e : E1 with
        | nil =>
          exfalso
          rw [hE1e] at hl0
          rw [show (List.map build_edify_line ([] : List EdifyItem)) = [] from rfl] at hl0
          rw [show splitNl (joinNl ([] : List (List Char))) = [[]] from rfl] at hl0
          rcases List.mem_singleton.mp hl0 with rfl
          exact Bool.noConfusion hnw
        | cons it0 its =>
          have hLnl : ∀ l2 ∈ E1.map build_edify_line, '\n' ∉ l2 := by
            intro l2 hl2
            rw [List.mem_map] at hl2
            obtain ⟨it, hit, heq2⟩ := hl2
            rw [← heq2]
            exact (itemSafe_parts it (hE1 it hit)).1
          have hLne : E1.map build_edify_line ≠ [] := by
            rw [hE1e]
            intro hx
            exact List.noConfusion hx
          have hspl : splitNl (joinNl (E1.map build_edify_line))
              = E1.map build_edify_line := splitNl_joinNl _ hLne hLnl
          rw [hspl] at hl0
          rw [List.mem_map] at hl0
          obtain ⟨it, hit, heq2⟩ := hl0
          rw [← heq2]
          exact (itemSafe_parts it (hE1 it hit)).2.2)
  have hout : mergeText (mergeText s E1) E2
      = joinNl A ++ blockSuffix (E2.map build_edify_line) := by
    rw [h1, mergeText_decomp, mergeBody, hz2, hAeq]
  have hAfree : ∀ (pat : List Char), pat ≠ [] →
      hasSubstrL pat (stripL (collapseBlanks (joinNl (zeroPass E1 (splitNl s))))) = false →
      ∀ l ∈ A, hasSubstrL pat l = false := by
    intro pat hp hfree
    refine headTrimmed_transfer _ _ hAtrim _ ?_ ?_
    · intro a l ha hP
      cases hx : hasSubstrL pat l with
      | false => rfl
      | true =>
        exfalso
        have h2 := hasSubstrL_append_right pat a l hx
        rw [hP] at h2
        exact Bool.noConfusion h2
    · intro l hl
      have hlB := (List.mem_filter.mp hl).1
      rw [List.mem_map] at hlB
      obtain ⟨l0, hl0, heq⟩ := hlB
      by_cases hm : (E2.any fun it => dirLineMatches it.path l0) = true
      · rw [if_pos hm] at heq
        rw [← heq]
        exact hasSubstrL_nil _ hp
      · rw [if_neg hm] at heq
        rw [← heq]
        exact lines_free pat _ hfree l0 hl0
  have hL2sm : ∀ l ∈ E2.map build_edify_line, countOcc startMarker l = 0 := by
    intro l hl
    rw [List.mem_map] at hl
    obtain ⟨it, hit, heq⟩ := hl
    rw [← heq]
    exact (countOcc_eq_zero_iff _ _ (by decide)).mpr (itemSafe_parts it (hE2 it hit)).2.1
  have hL2em : ∀ l ∈ E2.map build_edify_line, countOcc endMarker l = 0 := by
    intro l hl
    rw [List.mem_map] at hl
    obtain ⟨it, hit, heq⟩ := hl
    rw [← heq]
    exact (countOcc_eq_zero_iff _ _ (by decide)).mpr (itemSafe_parts it (hE2 it hit)).2.2
  have hA0 : ∀ (pat : List Char), pat ≠ [] → '\n' ∉ pat →
      (∀ l ∈ A, hasSubstrL pat l = false) → countOcc pat (joinNl A) = 0 := by
    intro pat hp hnl hfree
    exact countOcc_joinNl_zero pat hp hnl A
      fun l hl => (countOcc_eq_zero_iff _ _ hp).mpr (hfree l hl)
  refine ⟨?_, ?_, ?_, ?_⟩
  · rw [hout, countOcc_body_block _ _ _ (by decide) (by decide)]
    rw [hA0 startMarker (by decide) (by decide)
      (hAfree startMarker (by decide) hV1sm)]
    rw [countOcc_joinNl_zero _ (by decide) (by decide) _ hL2sm]
    rw [show countOcc startMarker startMarker = 1 from by decide]
    rw [show countOcc startMarker endMarker = 0 from by decide]
  · rw [hout, countOcc_body_block _ _ _ (by decide) (by decide)]
    rw [hA0 endMarker (by decide) (by decide)
      (hAfree endMarker (by decide) hV1em)]
    rw [countOcc_joinNl_zero _ (by decide) (by decide) _ hL2em]
    rw [show countOcc endMarker startMarker = 0 from by decide]
    rw [show countOcc endMarker endMarker = 1 from by decide]
  · intro it hit
    rw [hout]
    refine hasSubstrL_append_right _ _ _ ?_
    rw [blockSuffix_shape]
    refine hasSubstrL_cons_of _ _ _ (hasSubstrL_cons_of _ _ _ ?_)
    refine hasSubstrL_append_right _ _ _ ?_
    refine hasSubstrL_cons_of _ _ _ ?_
    refine hasSubstrL_append_left _ _ _ ?_
    exact hasSubstrL_joinNl_of_mem _ _ _ (hasSubstrL_self _)
      (List.mem_map.mpr ⟨it, hit, rfl⟩)
  · rw [hout]
    rw [← countOcc_eq_zero_iff _ _ hdp_ne]
    rw [countOcc_body_block _ _ _ hdp_ne hdp_nl]
    rw [hA0 (dirPat p) hdp_ne hdp_nl (hAfree (dirPat p) hdp_ne hV1p)]
    have hdp_sm : countOcc (dirPat p) startMarker = 0 := by
      refine (countOcc_eq_zero_iff _ _ hdp_ne).mpr ?_
      cases hx : hasSubstrL (dirPat p) startMarker with
      | false => rfl
      | true =>
        exfalso
        rw [dirPat] at hx
        have h2 := hasSubstrL_of_prefix_pat (sl "set_metadata(\"") p startMarker hx
        exact absurd h2 (by decide)
    have hdp_em : countOcc (dirPat p) endMarker = 0 := by
      refine (countOcc_eq_zero_iff _ _ hdp_ne).mpr ?_
      cases hx : hasSubstrL (dirPat p) endMarker with
      | false => rfl
      | true =>
        exfalso
        rw [dirPat] at hx
        have h2 := hasSubstrL_of_prefix_pat (sl "set_metadata(\"") p endMarker hx
        exact absurd h2 (by decide)
    have hdp_L2 : countOcc (dirPat p) (joinNl (E2.map build_edify_line)) = 0 := by
      refine countOcc_joinNl_zero _ hdp_ne hdp_nl _ ?_
      intro l hl
      rw [List.mem_map] at hl
      obtain ⟨it, hit, heq⟩ := hl
      rw [← heq]
      exact (countOcc_eq_zero_iff _ _ hdp_ne).mpr (hpE2 it hit)
    rw [hdp_sm, hdp_em, hdp_L2]

/-- C7 witness: a concrete instance of the amended last-write-wins
theorem, with an `E1`-only path `/system/e1` replaced by `E2`'s
`/system/e2`. -/
theorem merge_last_write_wins_witness :
    countOcc startMarker (mergeText (mergeText (sl "ui_print(\"hi\");")
        [⟨sl "/system/e1", false, sl "644"⟩]) [⟨sl "/system/e2", false, sl "644"⟩]) = 1 ∧
    countOcc endMarker (mergeText (mergeText (sl "ui_print(\"hi\");")
        [⟨sl "/system/e1", false, sl "644"⟩]) [⟨sl "/system/e2", false, sl "644"⟩]) = 1 ∧
    (∀ it ∈ [(⟨sl "/system/e2", false, sl "644"⟩ : EdifyItem)],
      hasSubstrL (build_edify_line it) (mergeText (mergeText (sl "ui_print(\"hi\");")
        [⟨sl "/system/e1", false, sl "644"⟩]) [⟨sl "/system/e2", false, sl "644"⟩]) = true) ∧
    hasSubstrL (dirPat (sl "/system/e1")) (mergeText (mergeText (sl "ui_print(\"hi\");")
        [⟨sl "/system/e1", false, sl "644"⟩]) [⟨sl "/system/e2", false, sl "644"⟩]) = false :=
  merge_last_write_wins (sl "ui_print(\"hi\");") (sl "/system/e1")
    [⟨sl "/system/e1", false, sl "644"⟩] [⟨sl "/system/e2", false, sl "644"⟩]
    (by decide) (by decide) (by decide) (by decide) (by decide) (by decide) (by decide)

/-! ## C4: the mock-location replacement restores only parameter registers -/

set_option maxRecDepth 16000 in
/-- C4: for every match of the mock-location pattern, the replacement
flips the boolean-true constant load to false, and appends a restore
instruction reloading the register to true right after the invocation if
and only if the register is a caller-supplied parameter register (name
starting with `p`): on a fixture whose flagged register is `p1` and is
reused by a later `array-length`, the rewritten method contains the
restore between the invocation and the reuse; on a fixture whose flagged
register is the local temporary `v0`, no restore is inserted; and the
replacement function itself appends the restore exactly for `p`-prefixed
registers. -/
theorem mock_restore_param_register_only :
    subnMock mockFixtureP = (mockExpectedP, 1) ∧
    subnMock mockFixtureV = (mockExpectedV, 1) ∧
    (∀ g1 reg g3 g4, startsWithL (sl "p") reg = true →
      replacerMockLocation g1 reg g3 g4
        = flipConstFalse g1 ++ g3 ++ g4 ++ (sl "\n    const/4 " ++ reg ++ sl ", 0x1")) ∧
    (∀ g1 reg g3 g4, startsWithL (sl "p") reg = false →
      replacerMockLocation g1 reg g3 g4 = flipConstFalse g1 ++ g3 ++ g4) := by
  refine ⟨by decide, by decide, ?_, ?_⟩
  · intro g1 reg g3 g4 hreg
    simp only [replacerMockLocation]
    rw [if_pos hreg]
  · intro g1 reg g3 g4 hreg
    simp only [replacerMockLocation]
    rw [if_neg (by intro hx; rw [hreg] at hx; exact Bool.noConfusion hx)]
    rw [List.append_nil]

/-- C4 witness: the replacement-function dichotomy applied at the
registers `p1` and `v0`. -/
theorem mock_restore_param_register_only_witness :
    replacerMockLocation (sl "    const/4 p1, 0x1\n") (sl "p1") [] (sl "    invoke")
      = flipConstFalse (sl "    const/4 p1, 0x1\n") ++ [] ++ (sl "    invoke")
        ++ (sl "\n    const/4 " ++ sl "p1" ++ sl ", 0x1") ∧
    replacerMockLocation (sl "    const/4 v0, 0x1\n") (sl "v0") [] (sl "    invoke")
      = flipConstFalse (sl "    const/4 v0, 0x1\n") ++ [] ++ (sl "    invoke") :=
  ⟨mock_restore_param_register_only.2.2.1 _ (sl "p1") _ _ (by decide),
   mock_restore_param_register_only.2.2.2 _ (sl "v0") _ _ (by decide)⟩

end ModAndroid
